import Mathlib

/-!
# ipcritbit: the crit-bit trie and the prefix-aware lookup

A shallow embedding of `critbit.go` and of the lookup procedure of `netip.go`.

* A key (`[]byte`) is a `List Nat`; where a statement depends on the elements
  being bytes it says so with `isBytes`.
* A value (`interface{}`) is an `Option V`, `none` being the nil interface.
* A `node` is a leaf or an internal node; the empty slot (both pointers nil)
  only occurs at the root and is `none` there.
* An operation that mutates the tree returns the new tree.  It returns `none`
  where the Go code dereferences a nil pointer or indexes out of range.
-/

namespace ipcritbit

/-! ## Data model -/

/-- Entry `i` of the table `msbMatrix` as filled by `buildMsbMatrix`:
the most significant set bit of the byte `i`. -/
def msbMatrix (i : Nat) : Nat :=
  let b := i % 256
  let b := b ||| (b >>> 1)
  let b := b ||| (b >>> 2)
  let b := b ||| (b >>> 4)
  b &&& (255 ^^^ (b >>> 1))

/-- A non-empty node slot: `external` is a leaf (key, value), `internal` holds
`child[0]`, `child[1]`, `offset`, `bit` and `cont`. -/
inductive node (V : Type) where
  | external (key : List Nat) (value : Option V) : node V
  | internal (child0 child1 : node V) (offset bit : Nat) (cont : Bool) : node V
  deriving DecidableEq

/-- The tree: the root slot (`none` when both pointers are nil) and the
counter `items`. -/
structure critBitTree (V : Type) where
  root : Option (node V)
  items : Int
  deriving DecidableEq

/-- The tree made by `newTree`. -/
def newTree {V : Type} : critBitTree V := { root := none, items := 0 }

/-- The loop of `criticalBit` from index `offset` on, over the remaining bytes
of the leaf key `nkey` and of `key`, followed by the length comparison. -/
def criticalBitFrom : List Nat → List Nat → Nat → Option (Nat × Nat × Bool)
  | b :: nkey, a :: key, offset =>
      if a ≠ b then some (offset, msbMatrix (a ^^^ b), false)
      else criticalBitFrom nkey key (offset + 1)
  | [], a :: _, offset => some (offset, msbMatrix a, true)
  | b :: _, [], offset => some (offset, msbMatrix b, true)
  | [], [], _ => none

/-- The method `criticalBit` of a leaf with key `nkey`: `some (offset, bit, cont)`,
or `none` where the Go code returns `offset = -1` (the two keys are equal). -/
def criticalBit (nkey key : List Nat) : Option (Nat × Nat × Bool) :=
  criticalBitFrom nkey key 0

/-- The method `direction` of an internal node; `true` is child index 1. -/
def direction (offset bit : Nat) (cont : Bool) (key : List Nat) : Bool :=
  decide (offset < key.length) && (decide (key.getD offset 0 &&& bit ≠ 0) || cont)

namespace node

variable {V : Type}

/-- The descent of `search` below a non-empty slot: the leaf it stops at. -/
def search : node V → List Nat → List Nat × Option V
  | external k v, _ => (k, v)
  | internal c0 c1 o b c, key =>
      if direction o b c key then c1.search key else c0.search key

/-- The node allocated by `insertHelper`: the new leaf in `child[direction]`,
the previous occupant `old` of the slot in `child[1-direction]`. -/
def newNode (key : List Nat) (value : Option V) (newOffset newBit : Nat) (newCont : Bool)
    (old : node V) : node V :=
  if direction newOffset newBit newCont key
  then internal old (external key value) newOffset newBit newCont
  else internal (external key value) old newOffset newBit newCont

/-- The loop `insert new node` of `insertHelper` and the graft at the slot
where it stops. -/
def graft (key : List Nat) (value : Option V) (newOffset newBit : Nat) (newCont : Bool) :
    node V → node V
  | external k v => newNode key value newOffset newBit newCont (external k v)
  | internal c0 c1 o b c =>
      if o > newOffset ∨ (o = newOffset ∧ b < newBit) then
        newNode key value newOffset newBit newCont (internal c0 c1 o b c)
      else if direction o b c key then
        internal c0 (graft key value newOffset newBit newCont c1) o b c
      else
        internal (graft key value newOffset newBit newCont c0) c1 o b c

/-- The assignment `n.external.value = value` at the leaf `search` stops at. -/
def setValue (key : List Nat) (value : Option V) : node V → node V
  | external k _ => external k value
  | internal c0 c1 o b c =>
      if direction o b c key then internal c0 (setValue key value c1) o b c
      else internal (setValue key value c0) c1 o b c

/-- The descent and splice of `delete` below a non-empty slot.  `none`: the leaf
reached has another key.  `some (none, v)`: this slot is the leaf itself (it is
emptied or, below an internal node, replaced by its sibling).
`some (some n, v)`: the slot afterwards holds `n`. -/
def remove : node V → List Nat → Option (Option (node V) × Option V)
  | external k v, key => if k = key then some (none, v) else none
  | internal c0 c1 o b c, key =>
      if direction o b c key then
        match c1.remove key with
        | none => none
        | some (none, v) => some (some c0, v)
        | some (some c1', v) => some (some (internal c0 c1' o b c), v)
      else
        match c0.remove key with
        | none => none
        | some (none, v) => some (some c1, v)
        | some (some c0', v) => some (some (internal c0' c1 o b c), v)

/-- The leaves below a slot, child 0 before child 1. -/
def leaves : node V → List (List Nat × Option V)
  | external k v => [(k, v)]
  | internal c0 c1 _ _ _ => c0.leaves ++ c1.leaves

/-- The keys of the leaves below a slot. -/
def keys (n : node V) : List (List Nat) := n.leaves.map Prod.fst

/-- The leaves below a slot that may be empty. -/
def slotLeaves : Option (node V) → List (List Nat × Option V)
  | none => []
  | some n => n.leaves

end node

namespace critBitTree

variable {V : Type}

/-- The leaves reachable from the root. -/
def leaves (t : critBitTree V) : List (List Nat × Option V) :=
  node.slotLeaves t.root

/-- The keys of the leaves reachable from the root: the stored keys. -/
def keys (t : critBitTree V) : List (List Nat) := t.leaves.map Prod.fst

/-- The counter `items` equals the number of leaves. -/
def wf (t : critBitTree V) : Prop := t.items = (t.leaves.length : Int)

/-- The method `search`: the leaf reached, `none` on the empty root slot. -/
def search (t : critBitTree V) (key : List Nat) : Option (List Nat × Option V) :=
  t.root.map (fun r => r.search key)

/-- The method `contains`. -/
def contains (t : critBitTree V) (key : List Nat) : Bool :=
  match t.search key with
  | some (k, _) => decide (k = key)
  | none => false

/-- The method `get`: `(value, ok)`. -/
def get (t : critBitTree V) (key : List Nat) : Option V × Bool :=
  match t.search key with
  | some (k, v) => if k = key then (v, true) else (none, false)
  | none => (none, false)

/-- The method `insertHelper`: the tree afterwards and the returned flag.
`none`: `items` is not 0 and the root slot is empty (nil dereference in
`criticalBit`), or `items` is 0 and the root slot holds an internal node (the
Go code then leaves both pointers of the root set, a slot outside this model). -/
def insertHelper (t : critBitTree V) (key : List Nat) (value : Option V) (replace : Bool) :
    Option (critBitTree V × Bool) :=
  if t.items = 0 then
    match t.root with
    | some (node.internal _ _ _ _ _) => none
    | _ => some ({ root := some (node.external key value), items := 1 }, true)
  else
    match t.root with
    | none => none
    | some r =>
        match criticalBit (r.search key).1 key with
        | none =>
            if replace then some ({ t with root := some (r.setValue key value) }, true)
            else some (t, false)
        | some (newOffset, newBit, newCont) =>
            some ({ root := some (r.graft key value newOffset newBit newCont),
                    items := t.items + 1 }, true)

/-- The method `insert`. -/
def insert (t : critBitTree V) (key : List Nat) (value : Option V) :
    Option (critBitTree V × Bool) :=
  t.insertHelper key value false

/-- The method `set`. -/
def set (t : critBitTree V) (key : List Nat) (value : Option V) : Option (critBitTree V) :=
  (t.insertHelper key value true).map Prod.fst

/-- The method `delete`: the tree afterwards and `(value, ok)`.
`none`: `items` is not 0 and the root slot is empty (nil dereference). -/
def delete (t : critBitTree V) (key : List Nat) : Option (critBitTree V × Option V × Bool) :=
  if t.items = 0 then some (t, none, false)
  else
    match t.root with
    | none => none
    | some r =>
        match r.remove key with
        | none => some (t, none, false)
        | some (r', v) => some ({ root := r', items := t.items - 1 }, v, true)

/-- The method `clear`. -/
def clear (_t : critBitTree V) : critBitTree V := { root := none, items := 0 }

/-- The method `size`. -/
def size (t : critBitTree V) : Int := t.items

end critBitTree

/-! ## The prefix-aware lookup of the routing adapter -/

/-- The loop `for i := 0; i < div; i++` of `lookup`, with `n` iterations left
from index `i`: `some false` at the first differing byte, `none` when an index
is out of range. -/
def lookupCompare (nkey key : List Nat) : Nat → Nat → Option Bool
  | 0, _ => some true
  | n + 1, i =>
      match nkey[i]?, key[i]? with
      | some a, some b => if a ≠ b then some false else lookupCompare nkey key n (i + 1)
      | _, _ => none

/-- The leaf branch of `lookup` for a leaf with key `nkey`: whether the leaf is
returned; `none` when an index is out of range. -/
def leafCheck (nkey key : List Nat) : Option Bool :=
  let nlen := nkey.length
  if nlen ≠ key.length then some false
  else if nlen = 0 then none
  else
    match nkey[nlen - 1]?, key[nlen - 1]? with
    | some mask, some last =>
        if mask > last then some false
        else
          let div := mask >>> 3
          match lookupCompare nkey key div 0 with
          | none => none
          | some false => some false
          | some true =>
              let mod := mask &&& 7
              if mod > 0 then
                let bit := 8 - mod
                match nkey[div]?, key[div]? with
                | some a, some b =>
                    if a ≠ b &&& (((255 >>> bit) <<< bit) % 256) then some false else some true
                | _, _ => none
              else some true
    | _, _ => none

/-- The function `lookup` below a non-empty slot.  `some (some leaf)`: the leaf
returned; `some none`: nil; `none`: an index out of range. -/
def lookup {V : Type} : node V → List Nat → Bool → Option (Option (List Nat × Option V))
  | node.external k v, key, _ =>
      match leafCheck k key with
      | none => none
      | some true => some (some (k, v))
      | some false => some none
  | node.internal c0 c1 o b c, key, backtracking =>
      let d : Bool :=
        if o + 1 = key.length then true
        else if backtracking then false
        else direction o b c key
      match (if d then lookup c1 key backtracking else lookup c0 key backtracking) with
      | none => none
      | some (some r) => some (some r)
      | some none => if d then lookup c0 key true else some none

/-- The methods `match4` and `match6` on their tree: the leaf found, if any. -/
def matchTree {V : Type} (t : critBitTree V) (key : List Nat) :
    Option (Option (List Nat × Option V)) :=
  if t.items > 0 then
    match t.root with
    | none => none
    | some r => lookup r key false
  else some none

/-! ## Runs of operations -/

/-- A mutating operation of the tree. -/
inductive Op (V : Type) where
  | insert (key : List Nat) (value : Option V) : Op V
  | set (key : List Nat) (value : Option V) : Op V
  | delete (key : List Nat) : Op V
  | clear : Op V
  deriving DecidableEq

/-- One operation applied to a tree. -/
def step {V : Type} (t : critBitTree V) : Op V → Option (critBitTree V)
  | Op.insert k v => (t.insert k v).map Prod.fst
  | Op.set k v => t.set k v
  | Op.delete k => (t.delete k).map Prod.fst
  | Op.clear => some t.clear

/-- A sequence of operations applied to a tree, first operation first. -/
def runFrom {V : Type} : critBitTree V → List (Op V) → Option (critBitTree V)
  | t, [] => some t
  | t, op :: ops =>
      match step t op with
      | none => none
      | some t' => runFrom t' ops

/-- The keys inserted and not subsequently deleted, in the words of the
specification: insert and set add their key unless it is already there, delete
removes its key, clear removes every key. -/
def specKeys {V : Type} : List (List Nat) → List (Op V) → List (List Nat)
  | s, [] => s
  | s, Op.insert k _ :: ops => specKeys (if k ∈ s then s else k :: s) ops
  | s, Op.set k _ :: ops => specKeys (if k ∈ s then s else k :: s) ops
  | s, Op.delete k :: ops => specKeys (s.erase k) ops
  | _, Op.clear :: ops => specKeys [] ops

/-- A sequence of operations applied to the empty tree. -/
def run {V : Type} (ops : List (Op V)) : Option (critBitTree V) := runFrom newTree ops

/-- A tree reachable from the empty tree by insert, set, delete and clear. -/
def reachable {V : Type} (t : critBitTree V) : Prop := ∃ ops : List (Op V), run ops = some t

/-- Every element of the key is a byte. -/
def isBytes (k : List Nat) : Prop := ∀ x ∈ k, x < 256

instance isBytes.dec (k : List Nat) : Decidable (isBytes k) := by
  unfold isBytes; infer_instance

/-- The last byte of a key: the prefix length of a routing key. -/
def mask (k : List Nat) : Nat := k.getD (k.length - 1) 0

/-- Five operations after which the leaf of key `[97, 1]` is in the tree but
not on the path `search` takes for `[97, 1]`. -/
def lostKeyOps : List (Op Nat) :=
  [Op.insert [97, 0] (some 0), Op.insert [97, 1] (some 1), Op.insert [97] (some 2),
   Op.delete [97, 0], Op.insert [97, 2] (some 3)]

/-- The tree after `lostKeyOps`. -/
def lostKeyTree : critBitTree Nat :=
  { root := some (node.internal
      (node.internal (node.external [97] (some 2)) (node.external [97, 1] (some 1)) 1 1 false)
      (node.external [97, 2] (some 3)) 1 2 true),
    items := 3 }

/-! ## Routing keys and the crit-bit invariant -/

/-- Bit `p` of a key, counted from the most significant bit of byte 0. -/
def keyBit (k : List Nat) (p : Nat) : Bool := (k.getD (p / 8) 0).testBit (7 - p % 8)

/-- The position, as a bit index into the key, of the bit that an internal node
with `offset` and the single-bit mask `bit` tests. -/
def pos (offset bit : Nat) : Nat := 8 * offset + (7 - Nat.log2 bit)

/-- A canonical routing key of length `L`: `L - 1` address bytes followed by
the prefix length `m <= 8 * (L - 1)`, the address bits from `m` on being zero. -/
def canonKey (L : Nat) (k : List Nat) : Prop :=
  k.length = L ∧ isBytes k ∧ mask k ≤ 8 * (L - 1) ∧
    ∀ p, p < 8 * (L - 1) → mask k ≤ p → keyBit k p = false

instance canonKey.dec (L : Nat) (k : List Nat) : Decidable (canonKey L k) := by
  unfold canonKey; infer_instance

/-- The stored key `K` contains the probe `Q`: the prefix length `m` of `K` is at
most that of `Q` and the first `m` address bits of `K` equal those of `Q`. -/
def covers (K Q : List Nat) : Prop :=
  mask K ≤ mask Q ∧ ∀ p, p < mask K → keyBit K p = keyBit Q p

instance covers.dec (K Q : List Nat) : Decidable (covers K Q) := by
  unfold covers; infer_instance

/-- An insert, set or delete whose key is a canonical routing key of length `L`. -/
def canonOp {V : Type} (L : Nat) : Op V → Prop
  | Op.insert k _ => canonKey L k
  | Op.set k _ => canonKey L k
  | Op.delete k => canonKey L k
  | Op.clear => False

instance canonOp.dec {V : Type} (L : Nat) (op : Op V) : Decidable (canonOp L op) := by
  cases op <;> unfold canonOp <;> infer_instance

/-- The crit-bit invariant of a subtree whose keys are canonical routing keys of
length `L`: no internal node is a containment node, each tests a single bit,
the keys below `child[0]` have that bit clear, the keys below `child[1]` have
it set, and all keys below the node agree on every earlier bit. -/
def node.critInv {V : Type} (L : Nat) : node V → Prop
  | node.external k _ => canonKey L k
  | node.internal c0 c1 o b c =>
      c = false ∧ o < L ∧ (∃ j, j < 8 ∧ b = 2 ^ j) ∧
      (∀ k ∈ c0.keys, keyBit k (pos o b) = false) ∧
      (∀ k ∈ c1.keys, keyBit k (pos o b) = true) ∧
      (∀ k ∈ c0.keys ++ c1.keys, ∀ k' ∈ c0.keys ++ c1.keys,
        ∀ q, q < pos o b → keyBit k q = keyBit k' q) ∧
      node.critInv L c0 ∧ node.critInv L c1

/-- The invariant of a routing tree of key length `L`: `items` counts the
leaves and the root slot, when not empty, satisfies the crit-bit invariant. -/
def critBitTree.treeInv {V : Type} (L : Nat) (t : critBitTree V) : Prop :=
  t.wf ∧ ∀ r, t.root = some r → r.critInv L

/-- The result `r` is a longest-prefix match over the leaves below `n`: nil
when no stored key contains the probe, else a leaf whose key contains the
probe and has the largest prefix length among the stored keys that do. -/
def bestMatch {V : Type} (n : node V) (Q : List Nat) : Option (List Nat × Option V) → Prop
  | none => ∀ k ∈ n.keys, ¬ covers k Q
  | some (K, v) =>
      (K, v) ∈ n.leaves ∧ covers K Q ∧ ∀ k ∈ n.keys, covers k Q → mask k ≤ mask K

/-- The bit tested at the root of the subtree, when it is an internal node, is
at position `P0` or later. -/
def rootPosGe {V : Type} (P0 : Nat) : node V → Prop
  | node.external _ _ => True
  | node.internal _ _ o b _ => P0 ≤ pos o b

/-- Five operations of a routing table on IPv4 keys. -/
def routeOps : List (Op Nat) :=
  [Op.set [10, 0, 0, 0, 8] (some 1), Op.set [192, 168, 0, 0, 16] (some 2),
   Op.set [192, 168, 1, 0, 24] (some 3), Op.insert [192, 168, 1, 0, 28] (some 4),
   Op.delete [10, 0, 0, 0, 8]]

/-- The tree after `routeOps`. -/
def routeTree : critBitTree Nat :=
  { root := some (node.internal (node.external [192, 168, 0, 0, 16] (some 2))
      (node.internal (node.external [192, 168, 1, 0, 24] (some 3))
        (node.external [192, 168, 1, 0, 28] (some 4)) 4 4 false) 2 1 false),
    items := 3 }

/-! ## Longest string prefix and ordered walk -/

/-- The function `longestPrefixHelper` below a non-empty slot: `some (key, value)`
where the Go code returns `(key, value, true)`, `none` where it returns
`(nil, nil, false)`. -/
def longestPrefixHelper {V : Type} : node V → List Nat → Option (List Nat × Option V)
  | node.external k v, key => if k.isPrefixOf key then some (k, v) else none
  | node.internal c0 c1 o b c, key =>
      let d := direction o b c key
      match (if d then longestPrefixHelper c1 key else longestPrefixHelper c0 key) with
      | some r => some r
      | none => if d then longestPrefixHelper c0 key else none

/-- The method `longestPrefix`.  Outer `none`: `items` is not 0 and the root slot
is empty (nil dereference). -/
def critBitTree.longestPrefix {V : Type} (t : critBitTree V) (given : List Nat) :
    Option (Option (List Nat × Option V)) :=
  if t.items = 0 then some none
  else
    match t.root with
    | none => none
    | some r => some (longestPrefixHelper r given)

/-- The function `walkHelper` below a non-empty slot, for a visitor `handle`
that carries a state of type `σ`: the returned flag, the value of `*seek`
afterwards and the state of the visitor afterwards. -/
def walkHelper {V σ : Type} (key : List Nat) (handle : σ → List Nat → Option V → Bool × σ) :
    node V → Bool → σ → Bool × Bool × σ
  | node.external k v, seek, s =>
      if seek then
        if k = key then
          let r := handle s k v
          (r.1, false, r.2)
        else (false, true, s)
      else
        let r := handle s k v
        (r.1, false, r.2)
  | node.internal c0 c1 o b c, seek, s =>
      let d : Bool := if seek then direction o b c key else false
      let r := if d then walkHelper key handle c1 seek s else walkHelper key handle c0 seek s
      if !r.1 then (false, r.2.1, r.2.2)
      else if !r.2.1 && !d then walkHelper key handle c1 r.2.1 r.2.2
      else (true, r.2.1, r.2.2)

/-- The method `walk`: the returned flag and the state of the visitor
afterwards.  The start key is `none` for a nil slice.  Outer `none`: `items` is
not 0 and the root slot is empty (nil dereference). -/
def critBitTree.walk {V σ : Type} (t : critBitTree V) (start : Option (List Nat))
    (handle : σ → List Nat → Option V → Bool × σ) (s : σ) : Option (Bool × σ) :=
  if t.items = 0 then some (true, s)
  else
    match t.root with
    | none => none
    | some r =>
        let res := walkHelper (start.getD []) handle r start.isSome s
        some (res.1, res.2.2)

/-- The visitor invoked on the given leaves in order, up to and including the
first leaf on which it returns false: the flag is false exactly when it did. -/
def visit {V σ : Type} (handle : σ → List Nat → Option V → Bool × σ) :
    σ → List (List Nat × Option V) → Bool × σ
  | s, [] => (true, s)
  | s, (k, v) :: l =>
      if (handle s k v).1 then visit handle (handle s k v).2 l else (false, (handle s k v).2)

/-- The leaves a walk with start key `key` applies the visitor to: the leaf the
descent along `direction key` stops at, when it has the key `key`, followed by
the leaves after it in walk order; `none` when that leaf has another key. -/
def node.seekSuffix {V : Type} (key : List Nat) : node V → Option (List (List Nat × Option V))
  | node.external k v => if k = key then some [(k, v)] else none
  | node.internal c0 c1 o b c =>
      if direction o b c key then node.seekSuffix key c1
      else (node.seekSuffix key c0).map (fun l => l ++ c1.leaves)

/-- The leaves a walk applies the visitor to, for an optional start key. -/
def node.applicable {V : Type} (n : node V) : Option (List Nat) →
    Option (List (List Nat × Option V))
  | none => some n.leaves
  | some key => node.seekSuffix key n

/-- The outcome of a walk of a non-empty tree in the words of the
specification: false without any invocation when the seek fails (no applicable
leaves), else the visitor applied to the applicable leaves until it aborts. -/
def walkSpec {V σ : Type} (handle : σ → List Nat → Option V → Bool × σ) (s : σ) :
    Option (List (List Nat × Option V)) → Bool × σ
  | none => (false, s)
  | some l => visit handle s l

/-- A visitor that accepts every leaf and records the leaves it is invoked on. -/
def recordAll {V : Type} (log : List (List Nat × Option V)) (k : List Nat) (v : Option V) :
    Bool × List (List Nat × Option V) := (true, log ++ [(k, v)])

/-- A visitor that rejects every leaf and records the leaves it is invoked on. -/
def recordStop {V : Type} (log : List (List Nat × Option V)) (k : List Nat) (v : Option V) :
    Bool × List (List Nat × Option V) := (false, log ++ [(k, v)])

/-! ## The routing table -/

/-- The type `RouteTable`: one tree per address family. -/
structure RouteTable (V : Type) where
  tree4 : critBitTree V
  tree6 : critBitTree V

/-- The functions of `net/netip` that `RouteTable.Walk` uses on a prefix of
type `P`: `pfxToKey` (`none` for an invalid prefix), `p.Addr().Is4()` and
`keyToPfx`. -/
structure PrefixCodec (P : Type) where
  pfxToKey : P → Option (List Nat)
  is4 : P → Bool
  keyToPfx : List Nat → P

/-- The method `RouteTable.Walk` for a visitor carrying a state: the state of
the visitor afterwards.  `none`: a nil dereference in `walk`. -/
def RouteTable.Walk {V P σ : Type} (codec : PrefixCodec P) (t : RouteTable V) (p : P)
    (handle : σ → P → Option V → Bool × σ) (s : σ) : Option σ :=
  match codec.pfxToKey p with
  | none =>
      match t.tree4.walk none (fun s k v => handle s (codec.keyToPfx k) v) s with
      | none => none
      | some r4 =>
          (t.tree6.walk none (fun s k v => handle s (codec.keyToPfx k) v) r4.2).map Prod.snd
  | some key =>
      if codec.is4 p then
        (t.tree4.walk (some key) (fun s k v => handle s (codec.keyToPfx k) v) s).map Prod.snd
      else
        (t.tree6.walk (some key) (fun s k v => handle s (codec.keyToPfx k) v) s).map Prod.snd

/-- A codec on raw keys: the empty key is the invalid prefix, a key of five
bytes is an IPv4 prefix. -/
def rawCodec : PrefixCodec (List Nat) where
  pfxToKey := fun p => if p = [] then none else some p
  is4 := fun p => decide (p.length = 5)
  keyToPfx := fun k => k

/-- Six operations after which the walk order of the leaves is not the
lexicographic order of the keys: `lostKeyOps` followed by the insert of `[97, 0]`. -/
def unsortedOps : List (Op Nat) := lostKeyOps ++ [Op.insert [97, 0] (some 4)]

/-- Six operations after which the stored key `[97, 1, 1]` is off its own
search path and the shorter key `[97, 1]` is on it. -/
def shadowedOps : List (Op Nat) :=
  [Op.insert [97] (some 0), Op.insert [97, 0] (some 1), Op.insert [97, 1, 1] (some 2),
   Op.delete [97, 0], Op.insert [97, 2] (some 3), Op.insert [97, 1] (some 4)]

/-- A routing table with the IPv4 route `10.0.0.0/8` and the IPv6 route `::/0`. -/
def twoFamilies : RouteTable Nat :=
  { tree4 := { root := some (node.external [10, 0, 0, 0, 8] (some 1)), items := 1 },
    tree6 := { root := some (node.external
                [0, 0, 0, 0, 0, 0, 0, 0, 0, 0, 0, 0, 0, 0, 0, 0, 0] (some 2)), items := 1 } }

/-! ## Order of the internal nodes and the insertion slot -/

/-- Every internal node below the slot satisfies `p offset bit`. -/
def node.allInternal {V : Type} (p : Nat → Nat → Bool) : node V → Bool
  | node.external _ _ => true
  | node.internal c0 c1 o b _ => p o b && node.allInternal p c0 && node.allInternal p c1

/-- The pair `(o, b)` is strictly before `(o', b')`: smaller offset first, at
equal offset the numerically larger bit first. -/
def before (o b o' b' : Nat) : Bool := decide (o < o') || (decide (o = o') && decide (b > b'))

/-- The pair `(o, b)` is before or equal to `(o', b')`. -/
def notAfter (o b o' b' : Nat) : Bool := decide (o < o') || (decide (o = o') && decide (b ≥ b'))

/-- Every internal node is strictly before each internal node below it. -/
def node.ordered {V : Type} : node V → Bool
  | node.external _ _ => true
  | node.internal c0 c1 o b _ =>
      node.allInternal (before o b) c0 && node.allInternal (before o b) c1 &&
        node.ordered c0 && node.ordered c1

/-- Every internal node is before or equal to each internal node below it. -/
def node.weaklyOrdered {V : Type} : node V → Bool
  | node.external _ _ => true
  | node.internal c0 c1 o b _ =>
      node.allInternal (notAfter o b) c0 && node.allInternal (notAfter o b) c1 &&
        node.weaklyOrdered c0 && node.weaklyOrdered c1

/-- An insert, set or delete whose key satisfies `P`, or a clear. -/
def opKey {V : Type} (P : List Nat → Prop) : Op V → Prop
  | Op.insert k _ => P k
  | Op.set k _ => P k
  | Op.delete k => P k
  | Op.clear => True

instance opKey.dec {V : Type} (P : List Nat → Prop) [DecidablePred P] (op : Op V) :
    Decidable (opKey P op) := by
  cases op <;> unfold opKey <;> infer_instance

/-- The slot as the specification states it: the directions taken from the
root along `direction key` while the occupant is an internal node `X` with
`X.offset < offset` or `X.offset = offset` and `X.bit > bit`. -/
def slotPathStated {V : Type} (key : List Nat) (offset bit : Nat) : node V → List Bool
  | node.external _ _ => []
  | node.internal c0 c1 o b c =>
      if o < offset ∨ (o = offset ∧ b > bit) then
        if direction o b c key then true :: slotPathStated key offset bit c1
        else false :: slotPathStated key offset bit c0
      else []

/-- The slot with the tie resolved as the code does: the descent also
continues past an internal node `X` with `X.offset = offset` and
`X.bit = bit`. -/
def slotPathAmended {V : Type} (key : List Nat) (offset bit : Nat) : node V → List Bool
  | node.external _ _ => []
  | node.internal c0 c1 o b c =>
      if o < offset ∨ (o = offset ∧ b ≥ bit) then
        if direction o b c key then true :: slotPathAmended key offset bit c1
        else false :: slotPathAmended key offset bit c0
      else []

/-- The occupant of the slot at the end of `path` replaced by `f` of it. -/
def graftAt {V : Type} (f : node V → node V) : List Bool → node V → node V
  | [], n => f n
  | _ :: _, node.external k v => node.external k v
  | d :: path, node.internal c0 c1 o b c =>
      if d then node.internal c0 (graftAt f path c1) o b c
      else node.internal (graftAt f path c0) c1 o b c

/-- The new internal node `N` in the words of the specification: the previous
occupant is `N.child[1-d]` and the new leaf `N.child[d]`, `d = N.direction(k)`. -/
def specNewNode {V : Type} (key : List Nat) (value : Option V) (offset bit : Nat) (cont : Bool)
    (old : node V) : node V :=
  node.internal
    (if direction offset bit cont key then old else node.external key value)
    (if direction offset bit cont key then node.external key value else old)
    offset bit cont

/-- A containment node with offset 1 and bit 128 over `[97]` and `[97, 128]`. -/
def contRoot : node Nat :=
  node.internal (node.external [97] none) (node.external [97, 128] none) 1 128 true

/-- The tree after the inserts of `[97]` and `[97, 128]`. -/
def contTree : critBitTree Nat := { root := some contRoot, items := 2 }

/-! ## The empty key is never hidden -/

/-- The first byte of a key (0 for the empty key). -/
def firstByte (k : List Nat) : Nat := k.getD 0 0

/-- A value of the field `bit`: 0 or a single bit of a byte. -/
def isBit (b : Nat) : Prop := b = 0 ∨ ∃ j, j < 8 ∧ b = 2 ^ j

/-- The number of bits of a byte at or below the single bit `b` (0 for `b = 0`). -/
def lowBits (b : Nat) : Nat := if b = 0 then 0 else Nat.log2 b + 1

/-- The byte `x` has no bit set above the bit `b`. -/
def zeroAbove (b x : Nat) : Prop := ∀ i, lowBits b ≤ i → x.testBit i = false

/-- The bytes `x` and `y` agree on every bit above the bit `b`. -/
def agreeAbove (b x y : Nat) : Prop := ∀ i, lowBits b ≤ i → x.testBit i = y.testBit i

/-- The conditions on an internal node with `offset`, `bit`, `cont` and the
keys `ks` below it: `bit` is 0 or a single bit, and not 0 on a plain node;
when `offset >= 1` the keys are not empty and share their first byte; when
`offset = 0` on a plain node the non-empty keys agree above `bit`; when
`offset = 0` on a containment node, or on a node above the empty key, the
first bytes have no bit above `bit`. -/
def nodeConds (o b : Nat) (c : Bool) (ks : List (List Nat)) : Prop :=
  isBit b ∧ (c = false → b ≠ 0) ∧
  (1 ≤ o → ∀ k ∈ ks, k ≠ [] ∧ ∀ k' ∈ ks, firstByte k = firstByte k') ∧
  (o = 0 → c = false → ∀ k ∈ ks, ∀ k' ∈ ks,
    k ≠ [] → k' ≠ [] → agreeAbove b (firstByte k) (firstByte k')) ∧
  (o = 0 → (c = true ∨ [] ∈ ks) → ∀ k ∈ ks, k ≠ [] → zeroAbove b (firstByte k))

/-- An invariant of every tree built from byte keys, strong enough to keep the
empty key on its search path: every key is made of bytes, every internal node
satisfies `nodeConds`, and the empty key is not below a `child[1]`. -/
def node.emptyInv {V : Type} : node V → Prop
  | node.external k _ => isBytes k
  | node.internal c0 c1 o b c =>
      nodeConds o b c (c0.keys ++ c1.keys) ∧ [] ∉ c1.keys ∧
      node.emptyInv c0 ∧ node.emptyInv c1

/-- What `criticalBit` of the leaf key `L` and the key `key` tells about their
first bytes. -/
def firstFacts (L key : List Nat) (o b : Nat) (c : Bool) : Prop :=
  isBit b ∧ (c = false → b ≠ 0) ∧
  (1 ≤ o → L ≠ [] ∧ key ≠ [] ∧ firstByte L = firstByte key) ∧
  (c = false → o < L.length ∧ o < key.length) ∧
  (o = 0 → c = false → ∃ j, j < 8 ∧ b = 2 ^ j ∧
    (firstByte L).testBit j ≠ (firstByte key).testBit j ∧
    agreeAbove b (firstByte L) (firstByte key)) ∧
  (c = true →
    (L.length = o ∧ o < key.length ∧ zeroAbove b (key.getD o 0)) ∨
    (key.length = o ∧ o < L.length ∧ zeroAbove b (L.getD o 0)))

/-- What the keys `ks` below the slot a new node `(o, b)` is grafted into have
in common with the leaf key `L` that `search` stopped at. -/
def slotFacts (ks : List (List Nat)) (L : List Nat) (o b : Nat) : Prop :=
  (1 ≤ o → ∀ k ∈ ks, k ≠ [] ∧ firstByte k = firstByte L) ∧
  (o = 0 → L ≠ [] → ∀ k ∈ ks, k ≠ [] → agreeAbove b (firstByte k) (firstByte L)) ∧
  (o = 0 → [] ∈ ks → ∀ k ∈ ks, k ≠ [] →
    ∃ b', isBit b' ∧ b' < b ∧ zeroAbove b' (firstByte k))


/-! ## Fixed-length keys and the shape of their tree -/

/-- A key of `L` bytes. -/
def fixedKey (L : Nat) (k : List Nat) : Prop := k.length = L ∧ isBytes k

instance fixedKey.dec (L : Nat) (k : List Nat) : Decidable (fixedKey L k) := by
  unfold fixedKey; infer_instance

/-- The crit-bit invariant of a subtree whose keys all have `L` bytes: no
internal node is a containment node, each tests a single bit, the keys below
`child[0]` have that bit clear, the keys below `child[1]` have it set, and all
keys below the node agree on every earlier bit. -/
def node.fixedInv {V : Type} (L : Nat) : node V → Prop
  | node.external k _ => fixedKey L k
  | node.internal c0 c1 o b c =>
      c = false ∧ o < L ∧ (∃ j, j < 8 ∧ b = 2 ^ j) ∧
      (∀ k ∈ c0.keys, keyBit k (pos o b) = false) ∧
      (∀ k ∈ c1.keys, keyBit k (pos o b) = true) ∧
      (∀ k ∈ c0.keys ++ c1.keys, ∀ k' ∈ c0.keys ++ c1.keys,
        ∀ q, q < pos o b → keyBit k q = keyBit k' q) ∧
      node.fixedInv L c0 ∧ node.fixedInv L c1

/-- No internal node below the slot has `cont` set. -/
def node.noCont {V : Type} : node V → Bool
  | node.external _ _ => true
  | node.internal c0 c1 _ _ c => !c && node.noCont c0 && node.noCont c1

/-- The depth of a subtree: the largest number of internal nodes on a path
from its root to a leaf. -/
def node.depth {V : Type} : node V → Nat
  | node.external _ _ => 0
  | node.internal c0 c1 _ _ _ => 1 + max (node.depth c0) (node.depth c1)

/-- The run that inserts the given keys with their values, in the order of
the list. -/
def insertOps {V : Type} (kvs : List (List Nat × Option V)) : List (Op V) :=
  kvs.map (fun kv => Op.insert kv.1 kv.2)

/-- Three IPv4 routing keys with their values. -/
def threeRoutes : List (List Nat × Option Nat) :=
  [([10, 0, 0, 0, 8], some 1), ([192, 168, 0, 0, 16], some 2), ([192, 168, 1, 0, 24], some 3)]

/-- The keys of `threeRoutes` in another order. -/
def threeRoutesPermuted : List (List Nat × Option Nat) :=
  [([192, 168, 1, 0, 24], some 3), ([10, 0, 0, 0, 8], some 1), ([192, 168, 0, 0, 16], some 2)]

/-- The routing key of `10.1.0.0/12` as `MarshalBinary` encodes it: the prefix
length 12 leaves 4 bits of the second byte to the host part, and the lowest of
them is set. -/
def hostBitsKey : List Nat := [10, 1, 0, 0, 12]

/-! ## Basic facts about the node operations -/

theorem criticalBitFrom_eq_none_iff (nkey key : List Nat) (offset : Nat) :
    criticalBitFrom nkey key offset = none ↔ nkey = key := by
  induction nkey generalizing key offset with
  | nil =>
      cases key with
      | nil => simp [criticalBitFrom]
      | cons a key => simp [criticalBitFrom]
  | cons b nkey ih =>
      cases key with
      | nil => simp [criticalBitFrom]
      | cons a key =>
          by_cases h : a = b
          · subst h
            simp [criticalBitFrom, ih]
          · have h' : ¬ b = a := fun e => h e.symm
            simp [criticalBitFrom, h, h']

theorem criticalBit_eq_none_iff (nkey key : List Nat) :
    criticalBit nkey key = none ↔ nkey = key :=
  criticalBitFrom_eq_none_iff nkey key 0

namespace node

variable {V : Type}

theorem leaves_length_pos (n : node V) : 0 < n.leaves.length := by
  induction n with
  | external k v => simp [leaves]
  | internal c0 c1 o b c ih0 ih1 => simp [leaves]; omega

theorem search_mem (n : node V) (key : List Nat) : n.search key ∈ n.leaves := by
  induction n with
  | external k v => simp [search, leaves]
  | internal c0 c1 o b c ih0 ih1 =>
      by_cases h : direction o b c key = true
      · simp [search, leaves, h, ih1]
      · simp [search, leaves, h, ih0]

theorem search_newNode (key : List Nat) (value : Option V) (o b : Nat) (c : Bool)
    (old : node V) : (newNode key value o b c old).search key = (key, value) := by
  by_cases h : direction o b c key = true
  · simp [newNode, search, h]
  · simp [newNode, search, h]

theorem search_graft (key : List Nat) (value : Option V) (o b : Nat) (c : Bool)
    (n : node V) : (graft key value o b c n).search key = (key, value) := by
  induction n with
  | external k v => simp [graft, search_newNode]
  | internal c0 c1 o' b' c' ih0 ih1 =>
      by_cases h : o' > o ∨ (o' = o ∧ b' < b)
      · simp [graft, h, search_newNode]
      · by_cases hd : direction o' b' c' key = true
        · simp [graft, h, hd, search, ih1]
        · simp [graft, h, hd, search, ih0]

theorem leaves_newNode_perm (key : List Nat) (value : Option V) (o b : Nat) (c : Bool)
    (old : node V) : (newNode key value o b c old).leaves.Perm ((key, value) :: old.leaves) := by
  by_cases h : direction o b c key = true
  · simp only [newNode, h, leaves, if_true]
    exact List.perm_append_singleton _ _
  · simp [newNode, h, leaves]

theorem leaves_graft_perm (key : List Nat) (value : Option V) (o b : Nat) (c : Bool)
    (n : node V) : (graft key value o b c n).leaves.Perm ((key, value) :: n.leaves) := by
  induction n with
  | external k v => simpa [graft] using leaves_newNode_perm key value o b c (external k v)
  | internal c0 c1 o' b' c' ih0 ih1 =>
      by_cases h : o' > o ∨ (o' = o ∧ b' < b)
      · simpa [graft, h] using leaves_newNode_perm key value o b c (internal c0 c1 o' b' c')
      · by_cases hd : direction o' b' c' key = true
        · simp only [graft, h, hd, leaves, if_true, if_false]
          exact (List.Perm.append_left _ ih1).trans List.perm_middle
        · rw [Bool.not_eq_true] at hd
          simp only [graft, h, hd, leaves, Bool.false_eq_true, if_false]
          exact List.Perm.append_right _ ih0

theorem keys_setValue (key : List Nat) (value : Option V) (n : node V) :
    (setValue key value n).keys = n.keys := by
  induction n with
  | external k v => simp [setValue, keys, leaves]
  | internal c0 c1 o b c ih0 ih1 =>
      simp only [keys] at ih0 ih1
      by_cases hd : direction o b c key = true
      · simp [setValue, hd, keys, leaves, ih1]
      · simp [setValue, hd, keys, leaves, ih0]

theorem remove_eq_none_iff (n : node V) (key : List Nat) :
    n.remove key = none ↔ (n.search key).1 ≠ key := by
  induction n with
  | external k v =>
      by_cases h : k = key
      · simp [remove, search, h]
      · simp [remove, search, h]
  | internal c0 c1 o b c ih0 ih1 =>
      by_cases hd : direction o b c key = true
      · simp only [remove, search, hd, if_true]
        rw [← ih1]
        cases h : c1.remove key with
        | none => simp
        | some r =>
            obtain ⟨r', v⟩ := r
            cases r' <;> simp
      · rw [Bool.not_eq_true] at hd
        simp only [remove, search, hd, Bool.false_eq_true, if_false]
        rw [← ih0]
        cases h : c0.remove key with
        | none => simp
        | some r =>
            obtain ⟨r', v⟩ := r
            cases r' <;> simp

theorem remove_leaves_perm (n : node V) (key : List Nat) (r : Option (node V)) (v : Option V)
    (h : n.remove key = some (r, v)) : n.leaves.Perm ((key, v) :: slotLeaves r) := by
  induction n generalizing r v with
  | external k w =>
      by_cases hk : k = key
      · simp [remove, hk] at h
        obtain ⟨rfl, rfl⟩ := h
        simp [leaves, slotLeaves, hk]
      · simp [remove, hk] at h
  | internal c0 c1 o b c ih0 ih1 =>
      by_cases hd : direction o b c key = true
      · simp only [remove, hd, if_true] at h
        cases h1 : c1.remove key with
        | none => simp [h1] at h
        | some p =>
            obtain ⟨r1, v1⟩ := p
            have := ih1 r1 v1 h1
            cases r1 with
            | none =>
                simp [h1] at h
                obtain ⟨rfl, rfl⟩ := h
                simp only [leaves, slotLeaves] at this ⊢
                exact (List.Perm.append_left _ this).trans
                  (by simp)
            | some c1' =>
                simp [h1] at h
                obtain ⟨rfl, rfl⟩ := h
                simp only [leaves, slotLeaves] at this ⊢
                exact (List.Perm.append_left _ this).trans List.perm_middle
      · rw [Bool.not_eq_true] at hd
        simp only [remove, hd, Bool.false_eq_true, if_false] at h
        cases h0 : c0.remove key with
        | none => simp [h0] at h
        | some p =>
            obtain ⟨r0, v0⟩ := p
            have := ih0 r0 v0 h0
            cases r0 with
            | none =>
                simp [h0] at h
                obtain ⟨rfl, rfl⟩ := h
                simp only [leaves, slotLeaves] at this ⊢
                exact List.Perm.append_right _ this
            | some c0' =>
                simp [h0] at h
                obtain ⟨rfl, rfl⟩ := h
                simp only [leaves, slotLeaves] at this ⊢
                exact List.Perm.append_right _ this

end node

/-! ## The counter `items` and totality on reachable trees -/

namespace critBitTree

variable {V : Type}

theorem wf_newTree : (newTree : critBitTree V).wf := by
  simp [wf, newTree, leaves, node.slotLeaves]

theorem root_eq_none_of_items_zero (t : critBitTree V) (h : t.wf) (h0 : t.items = 0) :
    t.root = none := by
  cases hr : t.root with
  | none => rfl
  | some r =>
      have := node.leaves_length_pos r
      simp only [wf, leaves, hr, node.slotLeaves] at h
      omega

theorem root_ne_none_of_items_ne_zero (t : critBitTree V) (h : t.wf) (h0 : t.items ≠ 0) :
    ∃ r, t.root = some r := by
  cases hr : t.root with
  | none => simp [wf, leaves, hr, node.slotLeaves] at h; exact absurd h h0
  | some r => exact ⟨r, rfl⟩

theorem insertHelper_wf (t : critBitTree V) (h : t.wf) (key : List Nat) (value : Option V)
    (replace : Bool) : ∃ t' b, t.insertHelper key value replace = some (t', b) ∧ t'.wf := by
  by_cases h0 : t.items = 0
  · have hr := root_eq_none_of_items_zero t h h0
    refine ⟨{ root := some (node.external key value), items := 1 }, true, ?_, ?_⟩
    · simp [insertHelper, h0, hr]
    · simp [wf, leaves, node.slotLeaves, node.leaves]
  · obtain ⟨r, hr⟩ := root_ne_none_of_items_ne_zero t h h0
    cases hc : criticalBit (r.search key).1 key with
    | none =>
        cases replace with
        | false => exact ⟨t, false, by simp [insertHelper, h0, hr, hc], h⟩
        | true =>
            refine ⟨{ t with root := some (r.setValue key value) }, true,
              by simp [insertHelper, h0, hr, hc], ?_⟩
            have hk := congrArg List.length (node.keys_setValue key value r)
            simp only [node.keys, List.length_map] at hk
            simp only [wf, leaves, hr, node.slotLeaves] at h ⊢
            omega
    | some p =>
        obtain ⟨o, b, c⟩ := p
        refine ⟨{ root := some (r.graft key value o b c), items := t.items + 1 }, true,
          by simp [insertHelper, h0, hr, hc], ?_⟩
        have hp := (node.leaves_graft_perm key value o b c r).length_eq
        simp only [wf, leaves, hr, node.slotLeaves] at h ⊢
        simp only [List.length_cons] at hp
        omega

theorem delete_wf (t : critBitTree V) (h : t.wf) (key : List Nat) :
    ∃ t' v b, t.delete key = some (t', v, b) ∧ t'.wf := by
  by_cases h0 : t.items = 0
  · exact ⟨t, none, false, by simp [delete, h0], h⟩
  · obtain ⟨r, hr⟩ := root_ne_none_of_items_ne_zero t h h0
    cases hm : r.remove key with
    | none => exact ⟨t, none, false, by simp [delete, h0, hr, hm], h⟩
    | some p =>
        obtain ⟨r', v⟩ := p
        refine ⟨{ root := r', items := t.items - 1 }, v, true,
          by simp [delete, h0, hr, hm], ?_⟩
        have hp := (node.remove_leaves_perm r key r' v hm).length_eq
        have h' : t.items = (r.leaves.length : Int) := by
          simpa [wf, leaves, hr, node.slotLeaves] using h
        show (t.items - 1 : Int) = ((node.slotLeaves r').length : Int)
        simp only [List.length_cons] at hp
        omega

end critBitTree

theorem step_wf {V : Type} (t : critBitTree V) (h : t.wf) (op : Op V) :
    ∃ t', step t op = some t' ∧ t'.wf := by
  cases op with
  | insert k v =>
      obtain ⟨t', b, he, hw⟩ := critBitTree.insertHelper_wf t h k v false
      exact ⟨t', by simp [step, critBitTree.insert, he], hw⟩
  | set k v =>
      obtain ⟨t', b, he, hw⟩ := critBitTree.insertHelper_wf t h k v true
      exact ⟨t', by simp [step, critBitTree.set, he], hw⟩
  | delete k =>
      obtain ⟨t', v, b, he, hw⟩ := critBitTree.delete_wf t h k
      exact ⟨t', by simp [step, he], hw⟩
  | clear => exact ⟨t.clear, rfl, by simp [critBitTree.clear, critBitTree.wf,
      critBitTree.leaves, node.slotLeaves]⟩

theorem runFrom_wf {V : Type} (ops : List (Op V)) (t : critBitTree V) (h : t.wf) :
    ∃ t', runFrom t ops = some t' ∧ t'.wf := by
  induction ops generalizing t with
  | nil => exact ⟨t, rfl, h⟩
  | cons op ops ih =>
      obtain ⟨t1, h1, hw1⟩ := step_wf t h op
      obtain ⟨t2, h2, hw2⟩ := ih t1 hw1
      exact ⟨t2, by simp [runFrom, h1, h2], hw2⟩

theorem reachable_wf {V : Type} (t : critBitTree V) (h : reachable t) : t.wf := by
  obtain ⟨ops, hops⟩ := h
  obtain ⟨t', h', hw⟩ := runFrom_wf ops newTree critBitTree.wf_newTree
  have : t' = t := by
    have := h'.symm.trans hops
    simpa using this
  exact this ▸ hw

/-! ## Insert, get and delete on reachable trees -/

/-- C3: on every tree reachable from the empty tree by insert, set, delete and
clear, `insert k v` returns, and when it returns true, `get k` on the tree
afterwards is `(v, true)` and `contains k` is true. -/
theorem insert_true_then_get {V : Type} (t : critBitTree V) (ht : reachable t)
    (k : List Nat) (v : Option V) :
    ∃ t' b, t.insert k v = some (t', b) ∧
      (b = true → t'.get k = (v, true) ∧ t'.contains k = true) := by
  have h := reachable_wf t ht
  by_cases h0 : t.items = 0
  · have hr := critBitTree.root_eq_none_of_items_zero t h h0
    refine ⟨{ root := some (node.external k v), items := 1 }, true, ?_, ?_⟩
    · simp [critBitTree.insert, critBitTree.insertHelper, h0, hr]
    · intro _
      simp [critBitTree.get, critBitTree.contains, critBitTree.search, node.search]
  · obtain ⟨r, hr⟩ := critBitTree.root_ne_none_of_items_ne_zero t h h0
    cases hc : criticalBit (r.search k).1 k with
    | none =>
        exact ⟨t, false, by simp [critBitTree.insert, critBitTree.insertHelper, h0, hr, hc],
          by simp⟩
    | some p =>
        obtain ⟨o, b, c⟩ := p
        refine ⟨{ root := some (r.graft k v o b c), items := t.items + 1 }, true,
          by simp [critBitTree.insert, critBitTree.insertHelper, h0, hr, hc], ?_⟩
        intro _
        simp [critBitTree.get, critBitTree.contains, critBitTree.search, node.search_graft]

theorem insert_true_then_get_witness :
    reachable lostKeyTree ∧
    ∃ t' b, lostKeyTree.insert [98] (some 7) = some (t', b) ∧
      (b = true → t'.get [98] = (some 7, true) ∧ t'.contains [98] = true) :=
  ⟨⟨lostKeyOps, by decide⟩,
   insert_true_then_get lostKeyTree ⟨lostKeyOps, by decide⟩ [98] (some 7)⟩

/-- C7: on every reachable tree, `delete k` for a key `k` held by no leaf
returns `(nil, false)` and the tree afterwards is the tree before: same
structure, same values, same `items`. -/
theorem delete_absent_unchanged {V : Type} (t : critBitTree V) (ht : reachable t)
    (k : List Nat) (hk : k ∉ t.keys) : t.delete k = some (t, none, false) := by
  have h := reachable_wf t ht
  by_cases h0 : t.items = 0
  · simp [critBitTree.delete, h0]
  · obtain ⟨r, hr⟩ := critBitTree.root_ne_none_of_items_ne_zero t h h0
    have hm : r.remove k = none := by
      rw [node.remove_eq_none_iff]
      intro he
      apply hk
      have := node.search_mem r k
      simp only [critBitTree.keys, critBitTree.leaves, hr, node.slotLeaves, List.mem_map]
      exact ⟨r.search k, this, he⟩
    simp [critBitTree.delete, h0, hr, hm]

theorem delete_absent_unchanged_witness :
    reachable lostKeyTree ∧ [98] ∉ lostKeyTree.keys ∧
    lostKeyTree.delete [98] = some (lostKeyTree, none, false) :=
  ⟨⟨lostKeyOps, by decide⟩, by decide,
   delete_absent_unchanged lostKeyTree ⟨lostKeyOps, by decide⟩ [98] (by decide)⟩

/-! ## The leaf lost by a containment node grafted above a plain node -/

/-- C4: after `lostKeyOps` the key `[97, 1]` is stored with value 1, and
`insert [97, 1] 9` returns true, adds a second leaf for the key and raises
`items` from 3 to 4. -/
theorem insert_stored_key_returns_true :
    run lostKeyOps = some lostKeyTree ∧
    ([97, 1], some 1) ∈ lostKeyTree.leaves ∧
    ∃ t', lostKeyTree.insert [97, 1] (some 9) = some (t', true) ∧
      t'.size = 4 ∧ t'.keys = [[97], [97, 1], [97, 1], [97, 2]] := by
  refine ⟨by decide, by decide, _, rfl, by decide, by decide⟩

/-- C5: after `lostKeyOps` the key `[97, 1]` is stored, and `set [97, 1] 9`
does not replace the value in its leaf: it grafts a second leaf, so `items`
goes from 3 to 4 and the leaf with value 1 stays. -/
theorem set_stored_key_grows_tree :
    run lostKeyOps = some lostKeyTree ∧
    ([97, 1], some 1) ∈ lostKeyTree.leaves ∧
    ∃ t', lostKeyTree.set [97, 1] (some 9) = some t' ∧
      t'.size = 4 ∧ lostKeyTree.size = 3 ∧
      t'.leaves = [([97], some 2), ([97, 1], some 1), ([97, 1], some 9), ([97, 2], some 3)] := by
  refine ⟨by decide, by decide, _, rfl, by decide, by decide, by decide⟩

/-- C6: after `lostKeyOps` the key `[97, 1]` is stored with value 1, and
`delete [97, 1]` returns `(nil, false)` and removes nothing. -/
theorem delete_stored_key_not_found :
    run lostKeyOps = some lostKeyTree ∧
    ([97, 1], some 1) ∈ lostKeyTree.leaves ∧
    lostKeyTree.delete [97, 1] = some (lostKeyTree, none, false) := by
  refine ⟨by decide, by decide, by decide⟩

/-- C8: after `lostKeyOps` followed by `insert [97, 1]`, `size()` is 4 (the
number of leaves) while three distinct keys were inserted and not deleted. -/
theorem size_exceeds_distinct_keys :
    ∃ t, run (lostKeyOps ++ [Op.insert [97, 1] (some 9)]) = some t ∧
      t.size = 4 ∧ t.leaves.length = 4 ∧
      specKeys [] (lostKeyOps ++ [Op.insert [97, 1] (some 9)]) = [[97, 2], [97], [97, 1]] := by
  refine ⟨_, rfl, by decide, by decide, by decide⟩

/-- C9: after the first four operations of `lostKeyOps`, `get [97, 1]` is
`(1, true)`; the insert of the other key `[97, 2]` turns it into `(nil, false)`
and `contains [97, 1]` into false, although the leaf of `[97, 1]` is still in
the tree. -/
theorem insert_other_key_hides_stored_key :
    ∃ t, run (lostKeyOps.take 4) = some t ∧
      t.get [97, 1] = (some 1, true) ∧ t.contains [97, 1] = true ∧
      t.insert [97, 2] (some 3) = some (lostKeyTree, true) ∧
      lostKeyTree.get [97, 1] = (none, false) ∧ lostKeyTree.contains [97, 1] = false ∧
      [97, 1] ∈ lostKeyTree.keys := by
  refine ⟨_, rfl, by decide, by decide, by decide, by decide, by decide, by decide⟩

/-- C10: the keys `[97]`, `[97, 1]`, `[97, 128]` inserted in two orders give
two different trees: one has the containment node at the root, the other the
plain node of bit 128. -/
theorem insertion_order_changes_shape :
    run ([Op.insert [97] none, Op.insert [97, 128] none, Op.insert [97, 1] none] : List (Op Nat))
      = some { root := some (node.internal (node.external [97] none)
                 (node.internal (node.external [97, 1] none) (node.external [97, 128] none)
                   1 128 false) 1 128 true), items := 3 } ∧
    run ([Op.insert [97] none, Op.insert [97, 1] none, Op.insert [97, 128] none] : List (Op Nat))
      = some { root := some (node.internal
                 (node.internal (node.external [97] none) (node.external [97, 1] none) 1 1 true)
                 (node.external [97, 128] none) 1 128 false), items := 3 } := by
  refine ⟨by decide, by decide⟩

/-! ## Soundness of the leaf check of `lookup` -/

theorem lookupCompare_true (nkey key : List Nat) (n i : Nat)
    (h : lookupCompare nkey key n i = some true) :
    ∀ j, i ≤ j → j < i + n → j < nkey.length ∧ j < key.length ∧ nkey.getD j 0 = key.getD j 0 := by
  induction n generalizing i with
  | zero => intro j h1 h2; omega
  | succ n ih =>
      intro j h1 h2
      simp only [lookupCompare] at h
      cases ha : nkey[i]? with
      | none => simp [ha] at h
      | some a =>
          cases hb : key[i]? with
          | none => simp [ha, hb] at h
          | some b =>
              simp only [ha, hb] at h
              by_cases hab : a = b
              · subst hab
                simp only [ne_eq, not_true_eq_false, if_false] at h
                by_cases hj : j = i
                · subst hj
                  obtain ⟨hl, hg⟩ := List.getElem?_eq_some_iff.mp ha
                  obtain ⟨hl', hg'⟩ := List.getElem?_eq_some_iff.mp hb
                  refine ⟨hl, hl', ?_⟩
                  simp [List.getD_eq_getElem?_getD, ha, hb]
                · exact ih (i + 1) h j (by omega) (by omega)
              · simp [hab] at h

set_option maxRecDepth 1000000 in
theorem and_clear_low (bit : Nat) (h1 : 1 ≤ bit) (h7 : bit ≤ 7) (b : Nat) (hb : b < 256) :
    b &&& (((255 >>> bit) <<< bit) % 256) = b / 2 ^ bit * 2 ^ bit := by
  have key : ∀ bit < 8, ∀ b < 256,
      b &&& (((255 >>> bit) <<< bit) % 256) = b / 2 ^ bit * 2 ^ bit := by decide
  exact key bit (by omega) b hb

theorem getD_lt_of_isBytes (k : List Nat) (hk : isBytes k) (i : Nat) : k.getD i 0 < 256 := by
  by_cases h : i < k.length
  · rw [List.getD_eq_getElem _ _ h]
    exact hk _ (List.getElem_mem h)
  · rw [List.getD_eq_default _ _ (by omega)]
    omega

theorem getElem?_eq_some_getD (k : List Nat) (i : Nat) (h : i < k.length) :
    k[i]? = some (k.getD i 0) := by
  simp [List.getD_eq_getElem?_getD, List.getElem?_eq_getElem h]

theorem leafCheck_true (K Q : List Nat) (hQ : isBytes Q) (h : leafCheck K Q = some true) :
    K.length = Q.length ∧ 0 < K.length ∧ mask K ≤ mask Q ∧
    (∀ i, i < mask K / 8 → i < K.length ∧ K.getD i 0 = Q.getD i 0) ∧
    (0 < mask K % 8 → mask K / 8 < K.length ∧
      K.getD (mask K / 8) 0 = Q.getD (mask K / 8) 0 / 2 ^ (8 - mask K % 8) * 2 ^ (8 - mask K % 8)) := by
  unfold leafCheck at h
  simp only at h
  by_cases hlen : K.length = Q.length
  swap
  · rw [if_pos hlen] at h
    exact absurd h (by simp)
  rw [if_neg (not_not.mpr hlen)] at h
  by_cases h0 : K.length = 0
  · rw [if_pos h0] at h
    exact absurd h (by simp)
  rw [if_neg h0] at h
  have hKl : K[K.length - 1]? = some (mask K) :=
    getElem?_eq_some_getD K _ (by omega)
  have hQl : Q[K.length - 1]? = some (mask Q) := by
    rw [hlen]; exact getElem?_eq_some_getD Q _ (by omega)
  simp only [hKl, hQl] at h
  by_cases hm : mask K > mask Q
  · simp [hm] at h
  simp only [hm, if_false] at h
  have hshift : mask K >>> 3 = mask K / 8 := by
    rw [Nat.shiftRight_eq_div_pow]
  have hand : mask K &&& 7 = mask K % 8 := by
    have := Nat.and_pow_two_sub_one_eq_mod (mask K) 3
    simpa using this
  rw [hshift, hand] at h
  cases hc : lookupCompare K Q (mask K / 8) 0 with
  | none => simp [hc] at h
  | some r =>
      cases r with
      | false => simp [hc] at h
      | true =>
          simp only [hc] at h
          have hcmp := lookupCompare_true K Q _ 0 hc
          refine ⟨hlen, by omega, by omega, ?_, ?_⟩
          · intro i hi
            have := hcmp i (by omega) (by omega)
            exact ⟨this.1, this.2.2⟩
          · intro hr
            simp only [hr, if_true] at h
            cases ha : K[mask K / 8]? with
            | none => simp [ha] at h
            | some a =>
                cases hb : Q[mask K / 8]? with
                | none => simp [ha, hb] at h
                | some b =>
                    simp only [ha, hb] at h
                    obtain ⟨hl, hg⟩ := List.getElem?_eq_some_iff.mp ha
                    obtain ⟨hl', hg'⟩ := List.getElem?_eq_some_iff.mp hb
                    have hb256 : b < 256 := by
                      rw [← hg']; exact hQ _ (List.getElem_mem hl')
                    have hmod : mask K % 8 < 8 := Nat.mod_lt _ (by norm_num)
                    rw [and_clear_low (8 - mask K % 8) (by omega) (by omega) b hb256] at h
                    refine ⟨hl, ?_⟩
                    rw [List.getD_eq_getElem _ _ hl, List.getD_eq_getElem _ _ hl', hg, hg']
                    by_contra hne
                    simp [hne] at h

theorem lookup_some_leafCheck {V : Type} (n : node V) (Q : List Nat) (b : Bool)
    (K : List Nat) (v : Option V) (h : lookup n Q b = some (some (K, v))) :
    (K, v) ∈ n.leaves ∧ leafCheck K Q = some true := by
  induction n generalizing b with
  | external k w =>
      simp only [lookup] at h
      cases hc : leafCheck k Q with
      | none => simp [hc] at h
      | some r =>
          cases r with
          | false => simp [hc] at h
          | true =>
              simp [hc] at h
              obtain ⟨rfl, rfl⟩ := h
              exact ⟨by simp [node.leaves], hc⟩
  | internal c0 c1 o bit c ih0 ih1 =>
      simp only [lookup] at h
      generalize hd : (if o + 1 = Q.length then true else if b = true then false
        else direction o bit c Q) = d at h
      cases d with
      | true =>
          simp only [if_true] at h
          cases h1 : lookup c1 Q b with
          | none => simp [h1] at h
          | some r1 =>
              cases r1 with
              | some kv =>
                  simp [h1] at h
                  subst h
                  have := ih1 b h1
                  exact ⟨by simp [node.leaves, this.1], this.2⟩
              | none =>
                  simp [h1] at h
                  have := ih0 true h
                  exact ⟨by simp [node.leaves, this.1], this.2⟩
      | false =>
          simp only [Bool.false_eq_true, if_false] at h
          cases h0 : lookup c0 Q b with
          | none => simp [h0] at h
          | some r0 =>
              cases r0 with
              | some kv =>
                  simp [h0] at h
                  subst h
                  have := ih0 b h0
                  exact ⟨by simp [node.leaves, this.1], this.2⟩
              | none => simp [h0] at h

/-- C2: on every node and for every probe `Q` made of bytes, when
`lookup n Q b` returns a leaf with key `K`, then `K` and `Q` have the same
length, the last byte `m` of `K` is at most the last byte of `Q`, `K[i] = Q[i]`
for every `i < m / 8`, and when `r = m % 8 > 0` the byte `K[m / 8]` is
`Q[m / 8]` with its low `8 - r` bits cleared. -/
theorem lookup_sound {V : Type} (n : node V) (Q : List Nat) (hQ : isBytes Q) (b : Bool)
    (K : List Nat) (v : Option V) (h : lookup n Q b = some (some (K, v))) :
    K.length = Q.length ∧ 0 < K.length ∧ mask K ≤ mask Q ∧
    (∀ i, i < mask K / 8 → i < K.length ∧ K.getD i 0 = Q.getD i 0) ∧
    (0 < mask K % 8 → mask K / 8 < K.length ∧
      K.getD (mask K / 8) 0 = Q.getD (mask K / 8) 0 / 2 ^ (8 - mask K % 8) * 2 ^ (8 - mask K % 8)) :=
  leafCheck_true K Q hQ (lookup_some_leafCheck n Q b K v h).2

theorem lookup_sound_witness :
    isBytes [192, 168, 1, 77, 32] ∧
    lookup (node.internal (node.external [192, 168, 1, 0, 24] (some 1))
        (node.external [192, 168, 1, 64, 26] (some 2)) 3 64 false) [192, 168, 1, 77, 32] false
      = some (some ([192, 168, 1, 64, 26], some 2)) ∧
    (0 < mask [192, 168, 1, 64, 26] % 8 → mask [192, 168, 1, 64, 26] / 8 < 5 ∧
      [192, 168, 1, 64, 26].getD (mask [192, 168, 1, 64, 26] / 8) 0
        = [192, 168, 1, 77, 32].getD (mask [192, 168, 1, 64, 26] / 8) 0
            / 2 ^ (8 - mask [192, 168, 1, 64, 26] % 8) * 2 ^ (8 - mask [192, 168, 1, 64, 26] % 8)) :=
  ⟨by decide, by decide,
   (lookup_sound (node.internal (node.external [192, 168, 1, 0, 24] (some 1))
        (node.external [192, 168, 1, 64, 26] (some 2)) 3 64 false) [192, 168, 1, 77, 32]
      (by decide) false [192, 168, 1, 64, 26] (some 2) (by decide)).2.2.2.2⟩

/-! ## Bits of bytes -/

set_option maxRecDepth 1000000 in
theorem msbMatrix_range : ∀ x, x < 256 → x ≠ 0 →
    ∃ j, j < 8 ∧ (msbMatrix x = 2 ^ j ∧ 2 ^ j ≤ x ∧ x < 2 ^ (j + 1)) := by
  decide

theorem msbMatrix_spec (x : Nat) (hx : x < 256) (h0 : x ≠ 0) :
    ∃ j, j < 8 ∧ msbMatrix x = 2 ^ j ∧ x.testBit j = true ∧
      ∀ i, j < i → x.testBit i = false := by
  obtain ⟨j, hj, hm, hlo, hhi⟩ := msbMatrix_range x hx h0
  refine ⟨j, hj, hm, ?_, ?_⟩
  · rw [Nat.testBit_to_div_mod]
    have h1 : x / 2 ^ j = 1 := by
      apply Nat.div_eq_of_lt_le
      · simpa using hlo
      · rw [Nat.pow_succ] at hhi; omega
    simp [h1]
  · intro i hi
    apply Nat.testBit_lt_two_pow
    exact lt_of_lt_of_le hhi (Nat.pow_le_pow_right (by norm_num) hi)

theorem and_two_pow_ne_zero_iff (x j : Nat) : x &&& 2 ^ j ≠ 0 ↔ x.testBit j = true := by
  constructor
  · intro h
    by_contra hb
    apply h
    apply Nat.eq_of_testBit_eq
    intro i
    simp only [Nat.testBit_and, Nat.testBit_two_pow, Nat.zero_testBit]
    by_cases hij : j = i
    · subst hij; simp [hb]
    · simp [hij]
  · intro h he
    have : (x &&& 2 ^ j).testBit j = true := by
      simp [Nat.testBit_and, Nat.testBit_two_pow, h]
    rw [he] at this
    simp at this

theorem pos_two_pow (o j : Nat) : pos o (2 ^ j) = 8 * o + (7 - j) := by
  simp [pos, Nat.log2_two_pow]

theorem keyBit_pos (k : List Nat) (o j : Nat) (hj : j < 8) :
    keyBit k (pos o (2 ^ j)) = (k.getD o 0).testBit j := by
  rw [pos_two_pow]
  unfold keyBit
  have h1 : (8 * o + (7 - j)) / 8 = o := by omega
  have h2 : 7 - (8 * o + (7 - j)) % 8 = j := by omega
  rw [h1, h2]

theorem direction_eq_keyBit (k : List Nat) (o j : Nat) (hj : j < 8) (ho : o < k.length) :
    direction o (2 ^ j) false k = keyBit k (pos o (2 ^ j)) := by
  rw [keyBit_pos k o j hj]
  unfold direction
  generalize k.getD o 0 = x
  by_cases h : x.testBit j = true
  · have := (and_two_pow_ne_zero_iff x j).mpr h
    simp [ho, h, this]
  · have := mt (and_two_pow_ne_zero_iff x j).mp h
    simp only [ne_eq, not_not] at this
    simp [ho, h, this]

theorem pos_lt_pos_iff (o o' j j' : Nat) (hj : j < 8) (hj' : j' < 8) :
    (o' > o ∨ (o' = o ∧ 2 ^ j' < 2 ^ j)) ↔ pos o (2 ^ j) < pos o' (2 ^ j') := by
  rw [pos_two_pow, pos_two_pow]
  have : (2 : Nat) ^ j' < 2 ^ j ↔ j' < j := Nat.pow_lt_pow_iff_right (by norm_num)
  rw [this]
  omega

theorem testBit_eq_false_of_byte (x i : Nat) (hx : x < 256) (hi : 8 ≤ i) :
    x.testBit i = false := by
  apply Nat.testBit_lt_two_pow
  exact lt_of_lt_of_le hx (by
    have : (2 : Nat) ^ 8 ≤ 2 ^ i := Nat.pow_le_pow_right (by norm_num) hi
    simpa using this)

theorem byte_eq_of_testBit (x y : Nat) (hx : x < 256) (hy : y < 256)
    (h : ∀ i, i < 8 → x.testBit i = y.testBit i) : x = y := by
  apply Nat.eq_of_testBit_eq
  intro i
  by_cases hi : i < 8
  · exact h i hi
  · rw [testBit_eq_false_of_byte x i hx (by omega), testBit_eq_false_of_byte y i hy (by omega)]

/-- The bit of byte `o` with index `t` is the key bit at `8 * o + (7 - t)`. -/
theorem keyBit_byte (k : List Nat) (o t : Nat) (ht : t < 8) :
    keyBit k (8 * o + (7 - t)) = (k.getD o 0).testBit t := by
  have := keyBit_pos k o t ht
  rwa [pos_two_pow] at this

theorem criticalBitFrom_spec (nkey key : List Nat) (off o b : Nat) (c : Bool)
    (hlen : nkey.length = key.length) (hn : isBytes nkey) (hk : isBytes key)
    (h : criticalBitFrom nkey key off = some (o, b, c)) :
    c = false ∧ off ≤ o ∧ o - off < key.length ∧
    (∀ i, i < o - off → nkey.getD i 0 = key.getD i 0) ∧
    ∃ j, j < 8 ∧ b = 2 ^ j ∧
      (nkey.getD (o - off) 0).testBit j ≠ (key.getD (o - off) 0).testBit j ∧
      ∀ i, j < i → (nkey.getD (o - off) 0).testBit i = (key.getD (o - off) 0).testBit i := by
  induction nkey generalizing key off with
  | nil =>
      cases key with
      | nil => simp [criticalBitFrom] at h
      | cons a key => simp at hlen
  | cons x nkey ih =>
      cases key with
      | nil => simp at hlen
      | cons a key =>
          have hx : x < 256 := hn x (by simp)
          have ha : a < 256 := hk a (by simp)
          by_cases hax : a = x
          · subst hax
            simp only [criticalBitFrom, ne_eq, not_true_eq_false, if_false] at h
            have hn' : isBytes nkey := fun y hy => hn y (by simp [hy])
            have hk' : isBytes key := fun y hy => hk y (by simp [hy])
            obtain ⟨hc, hoff, hlt, heq, j, hj, hb, hne, hhi⟩ :=
              ih key (off + 1) (by simpa using hlen) hn' hk' h
            have e : o - off = (o - (off + 1)) + 1 := by omega
            refine ⟨hc, by omega, ?_, ?_, j, hj, hb, ?_, ?_⟩
            · simp only [List.length_cons]; omega
            · intro i hi
              cases i with
              | zero => simp
              | succ i =>
                  simp only [List.getD_cons_succ]
                  exact heq i (by omega)
            · rw [e]; simpa using hne
            · rw [e]; simpa using hhi
          · simp only [criticalBitFrom, ne_eq, hax, not_false_eq_true, if_true] at h
            simp only [Option.some.injEq, Prod.mk.injEq] at h
            obtain ⟨rfl, rfl, rfl⟩ := h
            have hxor : a ^^^ x < 256 := by
              have := @Nat.xor_lt_two_pow a x 8 (by simpa using ha) (by simpa using hx)
              simpa using this
            have hxne : a ^^^ x ≠ 0 := by
              intro e; exact hax (Nat.xor_eq_zero.mp e)
            obtain ⟨j, hj, hm, ht, hhi⟩ := msbMatrix_spec (a ^^^ x) hxor hxne
            refine ⟨rfl, le_refl _, by simp, by simp, j, hj, hm, ?_, ?_⟩
            · simp only [Nat.sub_self, List.getD_cons_zero]
              rw [Nat.testBit_xor] at ht
              intro e
              rw [e] at ht
              simp at ht
            · intro i hi
              simp only [Nat.sub_self, List.getD_cons_zero]
              have := hhi i hi
              rw [Nat.testBit_xor] at this
              revert this
              cases x.testBit i <;> cases a.testBit i <;> simp

/-- What `criticalBit` returns for two different byte keys of one length: a
plain node testing the first bit at which the keys differ. -/
theorem criticalBit_spec (K k : List Nat) (o b : Nat) (c : Bool)
    (hlen : K.length = k.length) (hK : isBytes K) (hk : isBytes k)
    (h : criticalBit K k = some (o, b, c)) :
    c = false ∧ o < k.length ∧ (∃ j, j < 8 ∧ b = 2 ^ j) ∧
    keyBit K (pos o b) ≠ keyBit k (pos o b) ∧
    ∀ q, q < pos o b → keyBit K q = keyBit k q := by
  obtain ⟨hc, _, hlt, heq, j, hj, hb, hne, hhi⟩ :=
    criticalBitFrom_spec K k 0 o b c hlen hK hk h
  simp only [Nat.sub_zero] at hlt heq hne hhi
  subst hb
  refine ⟨hc, hlt, ⟨j, hj, rfl⟩, ?_, ?_⟩
  · rw [keyBit_pos K o j hj, keyBit_pos k o j hj]
    exact hne
  · intro q hq
    rw [pos_two_pow] at hq
    unfold keyBit
    by_cases hq8 : q / 8 < o
    · rw [heq (q / 8) hq8]
    · have e : q / 8 = o := by omega
      rw [e]
      exact hhi _ (by omega)

/-! ## The crit-bit invariant is kept by insert, set and delete -/

namespace node

variable {V : Type}

theorem search_fst_mem_keys (n : node V) (key : List Nat) : (n.search key).1 ∈ n.keys := by
  simp only [keys, List.mem_map]
  exact ⟨n.search key, search_mem n key, rfl⟩

theorem keys_internal (c0 c1 : node V) (o b : Nat) (c : Bool) :
    (internal c0 c1 o b c).keys = c0.keys ++ c1.keys := by
  simp [keys, leaves]

theorem keys_external (k : List Nat) (v : Option V) : (external k v).keys = [k] := by
  simp [keys, leaves]

theorem mem_keys_graft (key : List Nat) (value : Option V) (o b : Nat) (c : Bool)
    (n : node V) (k : List Nat) :
    k ∈ (graft key value o b c n).keys ↔ k = key ∨ k ∈ n.keys := by
  have h := (leaves_graft_perm key value o b c n).map Prod.fst
  simp only [keys]
  rw [h.mem_iff]
  simp

theorem critInv_keys_canon (L : Nat) (n : node V) (h : n.critInv L) :
    ∀ k ∈ n.keys, canonKey L k := by
  induction n with
  | external k v =>
      intro k' hk'
      simp only [keys_external, List.mem_singleton] at hk'
      subst hk'
      exact h
  | internal c0 c1 o b c ih0 ih1 =>
      intro k' hk'
      simp only [critInv] at h
      rw [keys_internal, List.mem_append] at hk'
      rcases hk' with hk' | hk'
      · exact ih0 h.2.2.2.2.2.2.1 k' hk'
      · exact ih1 h.2.2.2.2.2.2.2 k' hk'

theorem newNode_critInv (L : Nat) (key : List Nat) (value : Option V) (o j : Nat)
    (hj : j < 8) (hkey : canonKey L key) (ho : o < L) (old : node V) (hold : old.critInv L)
    (hne : ∀ k ∈ old.keys, keyBit k (pos o (2 ^ j)) ≠ keyBit key (pos o (2 ^ j)))
    (hag : ∀ k ∈ old.keys, ∀ q, q < pos o (2 ^ j) → keyBit k q = keyBit key q) :
    (newNode key value o (2 ^ j) false old).critInv L := by
  have hdir : direction o (2 ^ j) false key = keyBit key (pos o (2 ^ j)) :=
    direction_eq_keyBit key o j hj (by rw [hkey.1]; exact ho)
  have hall : ∀ k ∈ old.keys ++ [key], ∀ q, q < pos o (2 ^ j) → keyBit k q = keyBit key q := by
    intro k hk q hq
    rw [List.mem_append] at hk
    rcases hk with hk | hk
    · exact hag k hk q hq
    · simp only [List.mem_singleton] at hk; rw [hk]
  unfold newNode
  rw [hdir]
  by_cases hb : keyBit key (pos o (2 ^ j)) = true
  · rw [if_pos hb]
    simp only [critInv, keys_external]
    refine ⟨trivial, ho, ⟨j, hj, rfl⟩, ?_, ?_, ?_, hold, hkey⟩
    · intro k hk
      have := hne k hk
      rw [hb] at this
      simpa using this
    · intro k hk
      simp only [List.mem_singleton] at hk
      rw [hk]; exact hb
    · intro k hk k' hk' q hq
      rw [hall k hk q hq, hall k' hk' q hq]
  · rw [if_neg hb]
    have hb' : keyBit key (pos o (2 ^ j)) = false := by simpa using hb
    simp only [critInv, keys_external]
    refine ⟨trivial, ho, ⟨j, hj, rfl⟩, ?_, ?_, ?_, hkey, hold⟩
    · intro k hk
      simp only [List.mem_singleton] at hk
      rw [hk]; exact hb'
    · intro k hk
      have := hne k hk
      rw [hb'] at this
      simpa using this
    · intro k hk k' hk' q hq
      have hk2 : k ∈ old.keys ++ [key] := by
        simp only [List.mem_append, List.mem_singleton] at hk ⊢; tauto
      have hk2' : k' ∈ old.keys ++ [key] := by
        simp only [List.mem_append, List.mem_singleton] at hk' ⊢; tauto
      rw [hall k hk2 q hq, hall k' hk2' q hq]

theorem graft_critInv (L : Nat) (key : List Nat) (value : Option V) (o j : Nat)
    (hj : j < 8) (hkey : canonKey L key) (ho : o < L) (n : node V) (hn : n.critInv L)
    (hne : keyBit (n.search key).1 (pos o (2 ^ j)) ≠ keyBit key (pos o (2 ^ j)))
    (hag : ∀ q, q < pos o (2 ^ j) → keyBit (n.search key).1 q = keyBit key q) :
    (graft key value o (2 ^ j) false n).critInv L := by
  induction n with
  | external k v =>
      simp only [graft]
      simp only [search] at hne hag
      apply newNode_critInv L key value o j hj hkey ho _ hn
      · intro k' hk'
        simp only [keys_external, List.mem_singleton] at hk'
        rw [hk']; exact hne
      · intro k' hk' q hq
        simp only [keys_external, List.mem_singleton] at hk'
        rw [hk']; exact hag q hq
  | internal c0 c1 o' b' c' ih0 ih1 =>
      have hn' := hn
      simp only [critInv] at hn
      obtain ⟨hc, ho', ⟨j', hj', hb'⟩, h0, h1, hagree, hi0, hi1⟩ := hn
      subst hc
      subst hb'
      have hK := search_fst_mem_keys (internal c0 c1 o' (2 ^ j') false) key
      rw [keys_internal] at hK
      simp only [graft]
      by_cases hcmp : o' > o ∨ (o' = o ∧ 2 ^ j' < 2 ^ j)
      · rw [if_pos hcmp]
        have hlt : pos o (2 ^ j) < pos o' (2 ^ j') := (pos_lt_pos_iff o o' j j' hj hj').mp hcmp
        apply newNode_critInv L key value o j hj hkey ho _ hn'
        · intro k hk
          rw [keys_internal] at hk
          rw [hagree k hk _ hK _ hlt]
          exact hne
        · intro k hk q hq
          rw [keys_internal] at hk
          rw [hagree k hk _ hK q (by omega)]
          exact hag q hq
      · rw [if_neg hcmp]
        have hle : pos o' (2 ^ j') ≤ pos o (2 ^ j) := by
          have := mt (pos_lt_pos_iff o o' j j' hj hj').mpr hcmp
          omega
        have hdir : direction o' (2 ^ j') false key = keyBit key (pos o' (2 ^ j')) :=
          direction_eq_keyBit key o' j' hj' (by rw [hkey.1]; exact ho')
        have hkeyag : ∀ k ∈ c0.keys ++ c1.keys, ∀ q, q < pos o' (2 ^ j') →
            keyBit k q = keyBit key q := by
          intro k hk q hq
          rw [hagree k hk _ hK q hq]
          exact hag q (by omega)
        by_cases hd : direction o' (2 ^ j') false key = true
        · simp only [search, hd, if_true] at hne hag
          rw [if_pos hd]
          simp only [critInv]
          refine ⟨trivial, ho', ⟨j', hj', rfl⟩, h0, ?_, ?_, hi0, ih1 hi1 hne hag⟩
          · intro k hk
            rw [mem_keys_graft] at hk
            rcases hk with hk | hk
            · rw [hk, ← hdir]; exact hd
            · exact h1 k hk
          · intro k hk k' hk' q hq
            have e : ∀ k, k ∈ c0.keys ++ (graft key value o (2 ^ j) false c1).keys →
                keyBit k q = keyBit key q := by
              intro k hk
              rw [List.mem_append, mem_keys_graft] at hk
              rcases hk with hk | hk | hk
              · exact hkeyag k (List.mem_append.mpr (Or.inl hk)) q hq
              · rw [hk]
              · exact hkeyag k (List.mem_append.mpr (Or.inr hk)) q hq
            rw [e k hk, e k' hk']
        · rw [Bool.not_eq_true] at hd
          simp only [search, hd, Bool.false_eq_true, if_false] at hne hag
          rw [if_neg (by simp [hd])]
          simp only [critInv]
          refine ⟨trivial, ho', ⟨j', hj', rfl⟩, ?_, h1, ?_, ih0 hi0 hne hag, hi1⟩
          · intro k hk
            rw [mem_keys_graft] at hk
            rcases hk with hk | hk
            · rw [hk, ← hdir]; exact hd
            · exact h0 k hk
          · intro k hk k' hk' q hq
            have e : ∀ k, k ∈ (graft key value o (2 ^ j) false c0).keys ++ c1.keys →
                keyBit k q = keyBit key q := by
              intro k hk
              rw [List.mem_append, mem_keys_graft] at hk
              rcases hk with (hk | hk) | hk
              · rw [hk]
              · exact hkeyag k (List.mem_append.mpr (Or.inl hk)) q hq
              · exact hkeyag k (List.mem_append.mpr (Or.inr hk)) q hq
            rw [e k hk, e k' hk']

theorem setValue_critInv (L : Nat) (key : List Nat) (value : Option V) (n : node V)
    (hn : n.critInv L) : (setValue key value n).critInv L := by
  induction n with
  | external k v => simpa [setValue, critInv] using hn
  | internal c0 c1 o b c ih0 ih1 =>
      simp only [critInv] at hn
      obtain ⟨hc, ho, hb, h0, h1, hag, hi0, hi1⟩ := hn
      by_cases hd : direction o b c key = true
      · simp only [setValue, hd, if_true, critInv, keys_setValue]
        exact ⟨hc, ho, hb, h0, h1, hag, hi0, ih1 hi1⟩
      · rw [Bool.not_eq_true] at hd
        simp only [setValue, hd, Bool.false_eq_true, if_false, critInv, keys_setValue]
        exact ⟨hc, ho, hb, h0, h1, hag, ih0 hi0, hi1⟩

theorem keys_subset_of_remove (n n' : node V) (key : List Nat) (v : Option V)
    (h : n.remove key = some (some n', v)) : ∀ k ∈ n'.keys, k ∈ n.keys := by
  intro k hk
  have hp := (remove_leaves_perm n key (some n') v h).map Prod.fst
  simp only [keys]
  rw [hp.mem_iff]
  simp only [slotLeaves, List.map_cons, List.mem_cons]
  exact Or.inr hk

theorem remove_critInv (L : Nat) (key : List Nat) (n n' : node V) (v : Option V)
    (hn : n.critInv L) (h : n.remove key = some (some n', v)) : n'.critInv L := by
  induction n generalizing n' v with
  | external k w =>
      by_cases hk : k = key
      · simp [remove, hk] at h
      · simp [remove, hk] at h
  | internal c0 c1 o b c ih0 ih1 =>
      simp only [critInv] at hn
      obtain ⟨hc, ho, hb, h0, h1, hag, hi0, hi1⟩ := hn
      by_cases hd : direction o b c key = true
      · simp only [remove, hd, if_true] at h
        cases hr : c1.remove key with
        | none => simp [hr] at h
        | some p =>
            obtain ⟨r1, v1⟩ := p
            cases r1 with
            | none =>
                simp [hr] at h
                rw [← h.1]; exact hi0
            | some c1' =>
                simp [hr] at h
                rw [← h.1]
                have hsub := keys_subset_of_remove c1 c1' key v1 hr
                simp only [critInv]
                refine ⟨hc, ho, hb, h0, fun k hk => h1 k (hsub k hk), ?_, hi0, ih1 c1' v1 hi1 hr⟩
                intro k hk k' hk' q hq
                apply hag k _ k' _ q hq
                · rw [List.mem_append] at hk ⊢
                  exact hk.imp id (hsub k)
                · rw [List.mem_append] at hk' ⊢
                  exact hk'.imp id (hsub k')
      · rw [Bool.not_eq_true] at hd
        simp only [remove, hd, Bool.false_eq_true, if_false] at h
        cases hr : c0.remove key with
        | none => simp [hr] at h
        | some p =>
            obtain ⟨r0, v0⟩ := p
            cases r0 with
            | none =>
                simp [hr] at h
                rw [← h.1]; exact hi1
            | some c0' =>
                simp [hr] at h
                rw [← h.1]
                have hsub := keys_subset_of_remove c0 c0' key v0 hr
                simp only [critInv]
                refine ⟨hc, ho, hb, fun k hk => h0 k (hsub k hk), h1, ?_, ih0 c0' v0 hi0 hr, hi1⟩
                intro k hk k' hk' q hq
                apply hag k _ k' _ q hq
                · rw [List.mem_append] at hk ⊢
                  exact hk.imp (hsub k) id
                · rw [List.mem_append] at hk' ⊢
                  exact hk'.imp (hsub k') id

end node

/-! ## The leaf check on canonical keys decides containment -/

theorem lookupCompare_spec (K Q : List Nat) (n i : Nat) (hK : i + n ≤ K.length)
    (hlen : K.length = Q.length) :
    (lookupCompare K Q n i = some true ∧
      ∀ j, i ≤ j → j < i + n → K.getD j 0 = Q.getD j 0) ∨
    (lookupCompare K Q n i = some false ∧
      ∃ j, i ≤ j ∧ j < i + n ∧ K.getD j 0 ≠ Q.getD j 0) := by
  induction n generalizing i with
  | zero =>
      left
      exact ⟨rfl, fun j h1 h2 => by omega⟩
  | succ n ih =>
      have ha := getElem?_eq_some_getD K i (by omega)
      have hb := getElem?_eq_some_getD Q i (by omega)
      simp only [lookupCompare, ha, hb]
      by_cases hab : K.getD i 0 = Q.getD i 0
      · simp only [hab, ne_eq, not_true_eq_false, if_false]
        rcases ih (i + 1) (by omega) with ⟨h1, h2⟩ | ⟨h1, j, h2, h3, h4⟩
        · left
          refine ⟨h1, ?_⟩
          intro j hj1 hj2
          by_cases e : j = i
          · rw [e]; exact hab
          · exact h2 j (by omega) (by omega)
        · right
          exact ⟨h1, j, by omega, by omega, h4⟩
      · right
        simp only [ne_eq, hab, not_false_eq_true, if_true, true_and]
        exact ⟨i, le_refl _, by omega, hab⟩

theorem whole_bytes_iff_bits (K Q : List Nat) (hK : isBytes K) (hQ : isBytes Q) (d : Nat) :
    (∀ i, i < d → K.getD i 0 = Q.getD i 0) ↔ (∀ p, p < 8 * d → keyBit K p = keyBit Q p) := by
  constructor
  · intro h p hp
    unfold keyBit
    rw [h (p / 8) (by omega)]
  · intro h i hi
    apply byte_eq_of_testBit _ _ (getD_lt_of_isBytes K hK i) (getD_lt_of_isBytes Q hQ i)
    intro t ht
    rw [← keyBit_byte K i t ht, ← keyBit_byte Q i t ht]
    exact h _ (by omega)

theorem testBit_clear_low (b s t : Nat) :
    (b / 2 ^ s * 2 ^ s).testBit t = (decide (s ≤ t) && b.testBit t) := by
  rw [← Nat.shiftRight_eq_div_pow, ← Nat.shiftLeft_eq, Nat.testBit_shiftLeft,
    Nat.testBit_shiftRight]
  by_cases h : s ≤ t
  · have e : s + (t - s) = t := by omega
    simp [h, e]
  · simp [h]

theorem low_cleared_iff_bits (a b s : Nat) (ha : a < 256) (hb : b < 256) :
    a = b / 2 ^ s * 2 ^ s ↔
      (∀ t, s ≤ t → t < 8 → a.testBit t = b.testBit t) ∧ (∀ t, t < s → a.testBit t = false) := by
  constructor
  · intro h
    constructor
    · intro t h1 _
      rw [h, testBit_clear_low]
      simp [h1]
    · intro t h1
      rw [h, testBit_clear_low]
      have : ¬ s ≤ t := by omega
      simp [this]
  · intro ⟨h1, h2⟩
    apply Nat.eq_of_testBit_eq
    intro t
    rw [testBit_clear_low]
    by_cases hs : s ≤ t
    · by_cases h8 : t < 8
      · simp [hs, h1 t hs h8]
      · rw [testBit_eq_false_of_byte a t ha (by omega),
          testBit_eq_false_of_byte b t hb (by omega)]
        simp
    · simp [hs, h2 t (by omega)]

/-- On a canonical stored key `K` and a probe `Q` of the same length the leaf
branch of `lookup` never indexes out of range and accepts the leaf exactly
when `K` contains `Q`. -/
theorem leafCheck_canon (L : Nat) (hL : 0 < L) (K Q : List Nat) (hK : canonKey L K)
    (hQlen : Q.length = L) (hQ : isBytes Q) :
    (covers K Q ∧ leafCheck K Q = some true) ∨ (¬ covers K Q ∧ leafCheck K Q = some false) := by
  obtain ⟨hKlen, hKb, hmask, hzero⟩ := hK
  have hlen : K.length = Q.length := by omega
  unfold leafCheck
  simp only
  rw [if_neg (not_not.mpr hlen), if_neg (by omega)]
  have hKl : K[K.length - 1]? = some (mask K) := getElem?_eq_some_getD K _ (by omega)
  have hQl : Q[K.length - 1]? = some (mask Q) := by
    rw [hlen]; exact getElem?_eq_some_getD Q _ (by omega)
  simp only [hKl, hQl]
  by_cases hm : mask K > mask Q
  · right
    rw [if_pos hm]
    exact ⟨fun hc => by have := hc.1; omega, rfl⟩
  rw [if_neg hm]
  have hshift : mask K >>> 3 = mask K / 8 := by rw [Nat.shiftRight_eq_div_pow]
  have hand : mask K &&& 7 = mask K % 8 := by
    have := Nat.and_pow_two_sub_one_eq_mod (mask K) 3
    simpa using this
  rw [hshift, hand]
  have hd : mask K / 8 ≤ L - 1 := by omega
  rcases lookupCompare_spec K Q (mask K / 8) 0 (by omega) hlen with ⟨hc, hall⟩ | ⟨hc, j, _, hj, hne⟩
  swap
  · right
    simp only [hc]
    refine ⟨?_, trivial⟩
    intro hcov
    have hbits : ∀ p, p < 8 * (mask K / 8) → keyBit K p = keyBit Q p :=
      fun p hp => hcov.2 p (by omega)
    exact hne ((whole_bytes_iff_bits K Q hKb hQ _).mpr hbits j (by omega))
  simp only [hc]
  have hwhole : ∀ p, p < 8 * (mask K / 8) → keyBit K p = keyBit Q p :=
    (whole_bytes_iff_bits K Q hKb hQ _).mp (fun i hi => hall i (by omega) (by omega))
  by_cases hr : mask K % 8 > 0
  swap
  · left
    rw [if_neg hr]
    refine ⟨⟨by omega, ?_⟩, rfl⟩
    intro p hp
    exact hwhole p (by omega)
  rw [if_pos hr]
  have hdlt : mask K / 8 < L - 1 := by omega
  have ha := getElem?_eq_some_getD K (mask K / 8) (by omega)
  have hb := getElem?_eq_some_getD Q (mask K / 8) (by omega)
  simp only [ha, hb]
  have ha256 := getD_lt_of_isBytes K hKb (mask K / 8)
  have hb256 := getD_lt_of_isBytes Q hQ (mask K / 8)
  have hmod : mask K % 8 < 8 := Nat.mod_lt _ (by norm_num)
  rw [and_clear_low (8 - mask K % 8) (by omega) (by omega) _ hb256]
  have hlow : ∀ t, t < 8 - mask K % 8 → (K.getD (mask K / 8) 0).testBit t = false := by
    intro t ht
    rw [← keyBit_byte K (mask K / 8) t (by omega)]
    exact hzero _ (by omega) (by omega)
  by_cases he : K.getD (mask K / 8) 0
      = Q.getD (mask K / 8) 0 / 2 ^ (8 - mask K % 8) * 2 ^ (8 - mask K % 8)
  · left
    rw [if_neg (not_not.mpr he)]
    refine ⟨⟨by omega, ?_⟩, rfl⟩
    intro p hp
    by_cases hp8 : p < 8 * (mask K / 8)
    · exact hwhole p hp8
    · have hhi := ((low_cleared_iff_bits _ _ _ ha256 hb256).mp he).1
      have e : p = 8 * (mask K / 8) + (7 - (7 - p % 8)) := by omega
      rw [e, keyBit_byte K _ _ (by omega), keyBit_byte Q _ _ (by omega)]
      exact hhi _ (by omega) (by omega)
  · right
    rw [if_pos he]
    refine ⟨?_, rfl⟩
    intro hcov
    apply he
    rw [low_cleared_iff_bits _ _ _ ha256 hb256]
    refine ⟨?_, hlow⟩
    intro t ht1 ht2
    rw [← keyBit_byte K (mask K / 8) t ht2, ← keyBit_byte Q (mask K / 8) t ht2]
    exact hcov.2 _ (by omega)

/-! ## The lookup returns the longest stored prefix containing the probe -/

theorem node.exists_mem_keys {V : Type} (n : node V) : ∃ k, k ∈ n.keys := by
  have h := node.leaves_length_pos n
  cases hl : n.leaves with
  | nil => rw [hl] at h; simp at h
  | cons kv l => exact ⟨kv.1, by simp [node.keys, hl]⟩

theorem rootPosGe_of_inv {V : Type} (L : Nat) (ch : node V) (P : Nat) (d : Bool)
    (hch : ch.critInv L) (hside : ∀ k ∈ ch.keys, keyBit k P = d)
    (hag : ∀ k ∈ ch.keys, ∀ k' ∈ ch.keys, ∀ q, q < P → keyBit k q = keyBit k' q) :
    rootPosGe (P + 1) ch := by
  cases ch with
  | external k v => trivial
  | internal c0 c1 o b c =>
      simp only [rootPosGe]
      simp only [node.critInv] at hch
      obtain ⟨_, _, _, h0, h1, _, _, _⟩ := hch
      obtain ⟨k0, hk0⟩ := node.exists_mem_keys c0
      obtain ⟨k1, hk1⟩ := node.exists_mem_keys c1
      have m0 : k0 ∈ (node.internal c0 c1 o b c).keys := by
        rw [node.keys_internal]; exact List.mem_append.mpr (Or.inl hk0)
      have m1 : k1 ∈ (node.internal c0 c1 o b c).keys := by
        rw [node.keys_internal]; exact List.mem_append.mpr (Or.inr hk1)
      by_contra hlt
      have hle : pos o b ≤ P := by omega
      have e0 := h0 k0 hk0
      have e1 := h1 k1 hk1
      by_cases heq : pos o b = P
      · rw [heq] at e0 e1
        rw [hside k0 m0] at e0
        rw [hside k1 m1] at e1
        rw [e0] at e1
        exact absurd e1 (by simp)
      · have := hag k0 m0 k1 m1 (pos o b) (by omega)
        rw [e0, e1] at this
        exact absurd this (by simp)

theorem children_rootPosGe {V : Type} (L : Nat) (c0 c1 : node V) (o b : Nat) (c : Bool)
    (h : (node.internal c0 c1 o b c).critInv L) :
    rootPosGe (pos o b + 1) c0 ∧ rootPosGe (pos o b + 1) c1 := by
  simp only [node.critInv] at h
  obtain ⟨_, _, _, h0, h1, hag, hi0, hi1⟩ := h
  constructor
  · exact rootPosGe_of_inv L c0 _ false hi0 h0
      (fun k hk k' hk' q hq => hag k (List.mem_append.mpr (Or.inl hk)) k'
        (List.mem_append.mpr (Or.inl hk')) q hq)
  · exact rootPosGe_of_inv L c1 _ true hi1 h1
      (fun k hk k' hk' q hq => hag k (List.mem_append.mpr (Or.inr hk)) k'
        (List.mem_append.mpr (Or.inr hk')) q hq)

theorem rootPosGe_mono {V : Type} (P P' : Nat) (h : P ≤ P') (n : node V)
    (hn : rootPosGe P' n) : rootPosGe P n := by
  cases n with
  | external k v => trivial
  | internal c0 c1 o b c => simp only [rootPosGe] at hn ⊢; omega

theorem lookup_external {V : Type} (L : Nat) (hL : 0 < L) (Q : List Nat) (hQlen : Q.length = L)
    (hQ : isBytes Q) (k : List Nat) (v : Option V) (hk : canonKey L k) (bt : Bool) :
    ∃ r, lookup (node.external k v) Q bt = some r ∧ bestMatch (node.external k v) Q r := by
  rcases leafCheck_canon L hL k Q hk hQlen hQ with ⟨hc, he⟩ | ⟨hc, he⟩
  · refine ⟨some (k, v), by simp [lookup, he], ?_⟩
    simp only [bestMatch, node.leaves, node.keys_external, List.mem_singleton]
    exact ⟨trivial, hc, fun k' hk' _ => by rw [hk']⟩
  · refine ⟨none, by simp [lookup, he], ?_⟩
    simp only [bestMatch, node.keys_external, List.mem_singleton]
    intro k' hk'
    rw [hk']; exact hc

theorem lookup_internal_one {V : Type} (c0 c1 : node V) (o b : Nat) (c : Bool) (Q : List Nat)
    (bt : Bool)
    (hd : (if o + 1 = Q.length then true else if bt = true then false
      else direction o b c Q) = true) :
    lookup (node.internal c0 c1 o b c) Q bt =
      match lookup c1 Q bt with
      | none => none
      | some (some r) => some (some r)
      | some none => lookup c0 Q true := by
  simp only [lookup, hd, if_true]

theorem lookup_internal_zero {V : Type} (c0 c1 : node V) (o b : Nat) (c : Bool) (Q : List Nat)
    (bt : Bool)
    (hd : (if o + 1 = Q.length then true else if bt = true then false
      else direction o b c Q) = false) :
    lookup (node.internal c0 c1 o b c) Q bt = lookup c0 Q bt := by
  simp only [lookup, hd, Bool.false_eq_true, if_false]
  cases lookup c0 Q bt with
  | none => rfl
  | some r => cases r <;> rfl

theorem bestMatch_of_child1 {V : Type} (c0 c1 : node V) (o b : Nat) (c : Bool) (Q : List Nat)
    (K : List Nat) (v : Option V) (h1 : bestMatch c1 Q (some (K, v)))
    (h0 : ∀ k ∈ c0.keys, covers k Q → mask k ≤ mask K) :
    bestMatch (node.internal c0 c1 o b c) Q (some (K, v)) := by
  simp only [bestMatch] at h1 ⊢
  refine ⟨by simp [node.leaves, h1.1], h1.2.1, ?_⟩
  intro k hk hc
  rw [node.keys_internal, List.mem_append] at hk
  rcases hk with hk | hk
  · exact h0 k hk hc
  · exact h1.2.2 k hk hc

theorem bestMatch_of_child0 {V : Type} (c0 c1 : node V) (o b : Nat) (c : Bool) (Q : List Nat)
    (r : Option (List Nat × Option V)) (h0 : bestMatch c0 Q r)
    (h1 : ∀ k ∈ c1.keys, ¬ covers k Q) :
    bestMatch (node.internal c0 c1 o b c) Q r := by
  cases r with
  | none =>
      simp only [bestMatch] at h0 ⊢
      intro k hk
      rw [node.keys_internal, List.mem_append] at hk
      rcases hk with hk | hk
      · exact h0 k hk
      · exact h1 k hk
  | some kv =>
      obtain ⟨K, v⟩ := kv
      simp only [bestMatch] at h0 ⊢
      refine ⟨by simp [node.leaves, h0.1], h0.2.1, ?_⟩
      intro k hk hc
      rw [node.keys_internal, List.mem_append] at hk
      rcases hk with hk | hk
      · exact h0.2.2 k hk hc
      · exact absurd hc (h1 k hk)

/-- Below a node that tests a bit of the last byte, the keys on the side of
the set bit have the larger prefix length. -/
theorem mask_lt_of_last_byte (L : Nat) (k0 k1 : List Nat) (j : Nat) (hj : j < 8)
    (h0 : canonKey L k0) (h1 : canonKey L k1)
    (hb0 : keyBit k0 (pos (L - 1) (2 ^ j)) = false)
    (hb1 : keyBit k1 (pos (L - 1) (2 ^ j)) = true)
    (hag : ∀ q, q < pos (L - 1) (2 ^ j) → keyBit k0 q = keyBit k1 q) :
    mask k0 < mask k1 := by
  rw [keyBit_pos _ _ _ hj] at hb0 hb1
  have e0 : mask k0 = k0.getD (L - 1) 0 := by simp [mask, h0.1]
  have e1 : mask k1 = k1.getD (L - 1) 0 := by simp [mask, h1.1]
  rw [e0, e1]
  apply Nat.lt_of_testBit j hb0 hb1
  intro i hi
  by_cases h8 : i < 8
  · rw [← keyBit_byte k0 (L - 1) i h8, ← keyBit_byte k1 (L - 1) i h8]
    apply hag
    rw [pos_two_pow]
    omega
  · rw [testBit_eq_false_of_byte _ i (getD_lt_of_isBytes k0 h0.2.1 _) (by omega),
      testBit_eq_false_of_byte _ i (getD_lt_of_isBytes k1 h1.2.1 _) (by omega)]

/-- A canonical key whose address bit at `P` is set has a prefix length
beyond `P`. -/
theorem lt_mask_of_keyBit (L : Nat) (k : List Nat) (hk : canonKey L k) (P : Nat)
    (hP : P < 8 * (L - 1)) (hb : keyBit k P = true) : P < mask k := by
  by_contra h
  have := hk.2.2.2 P hP (by omega)
  rw [this] at hb
  exact absurd hb (by simp)

theorem lookup_backtracking {V : Type} (L : Nat) (hL : 0 < L) (Q : List Nat)
    (hQlen : Q.length = L) (hQ : isBytes Q) (P0 : Nat) (n : node V) (hn : n.critInv L)
    (hroot : rootPosGe P0 n) (hm : ∀ k ∈ n.keys, covers k Q → mask k ≤ P0) :
    ∃ r, lookup n Q true = some r ∧ bestMatch n Q r := by
  induction n with
  | external k v => exact lookup_external L hL Q hQlen hQ k v hn true
  | internal c0 c1 o b c ih0 ih1 =>
      have hch := children_rootPosGe L c0 c1 o b c hn
      have hcanon := node.critInv_keys_canon L _ hn
      simp only [node.critInv] at hn
      obtain ⟨hc, ho, ⟨j, hj, hb⟩, h0, h1, hag, hi0, hi1⟩ := hn
      subst hb
      simp only [rootPosGe] at hroot
      have hm0 : ∀ k ∈ c0.keys, covers k Q → mask k ≤ P0 := fun k hk =>
        hm k (by rw [node.keys_internal]; exact List.mem_append.mpr (Or.inl hk))
      have hm1 : ∀ k ∈ c1.keys, covers k Q → mask k ≤ P0 := fun k hk =>
        hm k (by rw [node.keys_internal]; exact List.mem_append.mpr (Or.inr hk))
      obtain ⟨r0, hr0, hb0⟩ := ih0 hi0 (rootPosGe_mono _ _ (by omega) c0 hch.1) hm0
      obtain ⟨r1, hr1, hb1⟩ := ih1 hi1 (rootPosGe_mono _ _ (by omega) c1 hch.2) hm1
      by_cases hlast : o + 1 = Q.length
      · rw [lookup_internal_one c0 c1 o _ c Q true (by simp [hlast]), hr1]
        cases r1 with
        | some kv =>
            obtain ⟨K, v⟩ := kv
            refine ⟨some (K, v), rfl, bestMatch_of_child1 c0 c1 o _ c Q K v hb1 ?_⟩
            intro k hk _
            have hK : K ∈ c1.keys := by
              simp only [node.keys, List.mem_map]
              exact ⟨(K, v), hb1.1, rfl⟩
            have eo : o = L - 1 := by omega
            apply le_of_lt
            apply mask_lt_of_last_byte L k K j hj
              (hcanon k (by rw [node.keys_internal]; exact List.mem_append.mpr (Or.inl hk)))
              (hcanon K (by rw [node.keys_internal]; exact List.mem_append.mpr (Or.inr hK)))
            · rw [← eo]; exact h0 k hk
            · rw [← eo]; exact h1 K hK
            · rw [← eo]
              exact hag k (List.mem_append.mpr (Or.inl hk)) K (List.mem_append.mpr (Or.inr hK))
        | none =>
            refine ⟨r0, hr0, bestMatch_of_child0 c0 c1 o _ c Q r0 hb0 ?_⟩
            simpa [bestMatch] using hb1
      · rw [lookup_internal_zero c0 c1 o _ c Q true (by simp [hlast])]
        refine ⟨r0, hr0, bestMatch_of_child0 c0 c1 o _ c Q r0 hb0 ?_⟩
        intro k hk hcov
        have hP : pos o (2 ^ j) < 8 * (L - 1) := by rw [pos_two_pow]; omega
        have := lt_mask_of_keyBit L k
          (hcanon k (by rw [node.keys_internal]; exact List.mem_append.mpr (Or.inr hk)))
          _ hP (h1 k hk)
        have := hm1 k hk hcov
        omega

theorem lookup_forward {V : Type} (L : Nat) (hL : 0 < L) (Q : List Nat)
    (hQlen : Q.length = L) (hQ : isBytes Q) (n : node V) (hn : n.critInv L) :
    ∃ r, lookup n Q false = some r ∧ bestMatch n Q r := by
  induction n with
  | external k v => exact lookup_external L hL Q hQlen hQ k v hn false
  | internal c0 c1 o b c ih0 ih1 =>
      have hch := children_rootPosGe L c0 c1 o b c hn
      have hcanon := node.critInv_keys_canon L _ hn
      simp only [node.critInv] at hn
      obtain ⟨hc, ho, ⟨j, hj, hb⟩, h0, h1, hag, hi0, hi1⟩ := hn
      subst hb
      subst hc
      have hcanon0 : ∀ k ∈ c0.keys, canonKey L k := fun k hk =>
        hcanon k (by rw [node.keys_internal]; exact List.mem_append.mpr (Or.inl hk))
      have hcanon1 : ∀ k ∈ c1.keys, canonKey L k := fun k hk =>
        hcanon k (by rw [node.keys_internal]; exact List.mem_append.mpr (Or.inr hk))
      obtain ⟨r0, hr0, hb0⟩ := ih0 hi0
      obtain ⟨r1, hr1, hb1⟩ := ih1 hi1
      by_cases hlast : o + 1 = Q.length
      · rw [lookup_internal_one c0 c1 o _ false Q false (by simp [hlast]), hr1]
        cases r1 with
        | some kv =>
            obtain ⟨K, v⟩ := kv
            refine ⟨some (K, v), rfl, bestMatch_of_child1 c0 c1 o _ false Q K v hb1 ?_⟩
            intro k hk _
            have hK : K ∈ c1.keys := by
              simp only [node.keys, List.mem_map]
              exact ⟨(K, v), hb1.1, rfl⟩
            have eo : o = L - 1 := by omega
            apply le_of_lt
            apply mask_lt_of_last_byte L k K j hj (hcanon0 k hk) (hcanon1 K hK)
            · rw [← eo]; exact h0 k hk
            · rw [← eo]; exact h1 K hK
            · rw [← eo]
              exact hag k (List.mem_append.mpr (Or.inl hk)) K (List.mem_append.mpr (Or.inr hK))
        | none =>
            obtain ⟨r, hr, hbm⟩ := lookup_backtracking L hL Q hQlen hQ (8 * (L - 1)) c0 hi0
              (rootPosGe_mono _ _ (by rw [pos_two_pow]; omega) c0 hch.1)
              (fun k hk _ => (hcanon0 k hk).2.2.1)
            refine ⟨r, hr, bestMatch_of_child0 c0 c1 o _ false Q r hbm ?_⟩
            simpa [bestMatch] using hb1
      · have hP : pos o (2 ^ j) < 8 * (L - 1) := by rw [pos_two_pow]; omega
        have hdir : direction o (2 ^ j) false Q = keyBit Q (pos o (2 ^ j)) :=
          direction_eq_keyBit Q o j hj (by omega)
        have hcov0 : keyBit Q (pos o (2 ^ j)) = true →
            ∀ k ∈ c0.keys, covers k Q → mask k ≤ pos o (2 ^ j) := by
          intro hq k hk hcov
          by_contra hlt
          have := hcov.2 (pos o (2 ^ j)) (by omega)
          rw [h0 k hk, hq] at this
          exact absurd this (by simp)
        by_cases hd : keyBit Q (pos o (2 ^ j)) = true
        · rw [lookup_internal_one c0 c1 o _ false Q false (by simp [hlast, hdir, hd]), hr1]
          cases r1 with
          | some kv =>
              obtain ⟨K, v⟩ := kv
              refine ⟨some (K, v), rfl, bestMatch_of_child1 c0 c1 o _ false Q K v hb1 ?_⟩
              intro k hk hcov
              have hK : K ∈ c1.keys := by
                simp only [node.keys, List.mem_map]
                exact ⟨(K, v), hb1.1, rfl⟩
              have := lt_mask_of_keyBit L K (hcanon1 K hK) _ hP (h1 K hK)
              have := hcov0 hd k hk hcov
              omega
          | none =>
              obtain ⟨r, hr, hbm⟩ := lookup_backtracking L hL Q hQlen hQ (pos o (2 ^ j)) c0 hi0
                (rootPosGe_mono _ _ (by omega) c0 hch.1) (hcov0 hd)
              refine ⟨r, hr, bestMatch_of_child0 c0 c1 o _ false Q r hbm ?_⟩
              simpa [bestMatch] using hb1
        · rw [Bool.not_eq_true] at hd
          rw [lookup_internal_zero c0 c1 o _ false Q false (by simp [hlast, hdir, hd])]
          refine ⟨r0, hr0, bestMatch_of_child0 c0 c1 o _ false Q r0 hb0 ?_⟩
          intro k hk hcov
          have hlt := lt_mask_of_keyBit L k (hcanon1 k hk) _ hP (h1 k hk)
          have := hcov.2 (pos o (2 ^ j)) hlt
          rw [h1 k hk, hd] at this
          exact absurd this (by simp)

/-! ## Routing trees built from canonical keys -/

namespace critBitTree

variable {V : Type}

theorem treeInv_newTree (L : Nat) : (newTree : critBitTree V).treeInv L :=
  ⟨wf_newTree, fun r hr => by simp [newTree] at hr⟩

theorem insertHelper_treeInv (L : Nat) (t : critBitTree V) (h : t.treeInv L)
    (key : List Nat) (hkey : canonKey L key) (value : Option V) (replace : Bool) :
    ∃ t' b, t.insertHelper key value replace = some (t', b) ∧ t'.treeInv L := by
  obtain ⟨t', b, he, hw⟩ := insertHelper_wf t h.1 key value replace
  refine ⟨t', b, he, hw, ?_⟩
  intro r' hr'
  by_cases h0 : t.items = 0
  · have hr := root_eq_none_of_items_zero t h.1 h0
    simp only [insertHelper, h0, hr, if_true, Option.some.injEq, Prod.mk.injEq] at he
    rw [← he.1] at hr'
    simp only [Option.some.injEq] at hr'
    rw [← hr']
    exact hkey
  · obtain ⟨r, hr⟩ := root_ne_none_of_items_ne_zero t h.1 h0
    have hinv := h.2 r hr
    have hKmem := node.search_fst_mem_keys r key
    have hK := node.critInv_keys_canon L r hinv _ hKmem
    simp only [insertHelper, h0, hr, if_false] at he
    cases hc : criticalBit (r.search key).1 key with
    | none =>
        simp only [hc] at he
        cases replace with
        | false =>
            simp only [Bool.false_eq_true, if_false, Option.some.injEq, Prod.mk.injEq] at he
            rw [← he.1] at hr'
            rw [hr] at hr'
            simp only [Option.some.injEq] at hr'
            rw [← hr']; exact hinv
        | true =>
            simp only [if_true, Option.some.injEq, Prod.mk.injEq] at he
            rw [← he.1] at hr'
            simp only [Option.some.injEq] at hr'
            rw [← hr']
            exact node.setValue_critInv L key value r hinv
    | some p =>
        obtain ⟨o, b', c⟩ := p
        simp only [hc, Option.some.injEq, Prod.mk.injEq] at he
        rw [← he.1] at hr'
        simp only [Option.some.injEq] at hr'
        rw [← hr']
        obtain ⟨hcf, ho, ⟨j, hj, hb⟩, hne, hag⟩ :=
          criticalBit_spec (r.search key).1 key o b' c (by rw [hK.1, hkey.1]) hK.2.1 hkey.2.1 hc
        subst hcf
        subst hb
        exact node.graft_critInv L key value o j hj hkey (by rw [← hkey.1]; exact ho) r hinv
          hne hag

theorem delete_treeInv (L : Nat) (t : critBitTree V) (h : t.treeInv L) (key : List Nat) :
    ∃ t' v b, t.delete key = some (t', v, b) ∧ t'.treeInv L := by
  obtain ⟨t', v, b, he, hw⟩ := delete_wf t h.1 key
  refine ⟨t', v, b, he, hw, ?_⟩
  intro r' hr'
  by_cases h0 : t.items = 0
  · simp only [delete, h0, if_true, Option.some.injEq, Prod.mk.injEq] at he
    rw [← he.1] at hr'
    exact h.2 r' hr'
  · obtain ⟨r, hr⟩ := root_ne_none_of_items_ne_zero t h.1 h0
    have hinv := h.2 r hr
    simp only [delete, h0, hr, if_false] at he
    cases hm : r.remove key with
    | none =>
        simp only [hm, Option.some.injEq, Prod.mk.injEq] at he
        rw [← he.1] at hr'
        exact h.2 r' hr'
    | some p =>
        obtain ⟨r1, v1⟩ := p
        simp only [hm, Option.some.injEq, Prod.mk.injEq] at he
        rw [← he.1] at hr'
        simp only at hr'
        subst hr'
        exact node.remove_critInv L key r r' v1 hinv hm

end critBitTree

theorem step_treeInv {V : Type} (L : Nat) (t : critBitTree V) (h : t.treeInv L) (op : Op V)
    (hop : canonOp L op) : ∃ t', step t op = some t' ∧ t'.treeInv L := by
  cases op with
  | insert k v =>
      obtain ⟨t', b, he, hw⟩ := critBitTree.insertHelper_treeInv L t h k hop v false
      exact ⟨t', by simp [step, critBitTree.insert, he], hw⟩
  | set k v =>
      obtain ⟨t', b, he, hw⟩ := critBitTree.insertHelper_treeInv L t h k hop v true
      exact ⟨t', by simp [step, critBitTree.set, he], hw⟩
  | delete k =>
      obtain ⟨t', v, b, he, hw⟩ := critBitTree.delete_treeInv L t h k
      exact ⟨t', by simp [step, he], hw⟩
  | clear => exact absurd hop (by simp [canonOp])

theorem runFrom_treeInv {V : Type} (L : Nat) (ops : List (Op V))
    (hops : ∀ op ∈ ops, canonOp L op) (t : critBitTree V) (h : t.treeInv L) :
    ∃ t', runFrom t ops = some t' ∧ t'.treeInv L := by
  induction ops generalizing t with
  | nil => exact ⟨t, rfl, h⟩
  | cons op ops ih =>
      obtain ⟨t1, h1, hw1⟩ := step_treeInv L t h op (hops op (by simp))
      obtain ⟨t2, h2, hw2⟩ := ih (fun op' h' => hops op' (by simp [h'])) t1 hw1
      exact ⟨t2, by simp [runFrom, h1, h2], hw2⟩

theorem run_treeInv {V : Type} (L : Nat) (ops : List (Op V))
    (hops : ∀ op ∈ ops, canonOp L op) (t : critBitTree V) (ht : run ops = some t) :
    t.treeInv L := by
  obtain ⟨t', h', hw⟩ := runFrom_treeInv L ops hops newTree (critBitTree.treeInv_newTree L)
  have : t' = t := by
    have := h'.symm.trans ht
    simpa using this
  exact this ▸ hw

/-- C1: let `L` be 5 or 17 and let `t` be reached from the empty tree by
insert, set and delete of canonical routing keys of length `L` (prefix length
`m <= 8 * (L - 1)` in the last byte, address bits from `m` on zero).  For
every probe `Q` of `L` bytes the lookup of `match4`/`match6` returns; a leaf
it returns is a leaf of the tree whose key contains `Q` and whose prefix
length is the largest among the stored keys containing `Q`; and it returns nil
exactly when no stored key contains `Q`. -/
theorem lookup_longest_match {V : Type} (L : Nat) (hL : L = 5 ∨ L = 17)
    (ops : List (Op V)) (hops : ∀ op ∈ ops, canonOp L op) (t : critBitTree V)
    (ht : run ops = some t) (Q : List Nat) (hQlen : Q.length = L) (hQ : isBytes Q) :
    ∃ r, matchTree t Q = some r ∧
      (∀ K v, r = some (K, v) →
        (K, v) ∈ t.leaves ∧ covers K Q ∧ ∀ k ∈ t.keys, covers k Q → mask k ≤ mask K) ∧
      (r = none ↔ ∀ k ∈ t.keys, ¬ covers k Q) := by
  have hpos : 0 < L := by omega
  have hinv := run_treeInv L ops hops t ht
  by_cases h0 : t.items = 0
  · have hr := critBitTree.root_eq_none_of_items_zero t hinv.1 h0
    refine ⟨none, by simp [matchTree, h0], by simp, ?_⟩
    simp [critBitTree.keys, critBitTree.leaves, hr, node.slotLeaves]
  · obtain ⟨r, hr⟩ := critBitTree.root_ne_none_of_items_ne_zero t hinv.1 h0
    have hgt : t.items > 0 := by
      have := hinv.1
      simp only [critBitTree.wf] at this
      omega
    obtain ⟨res, hres, hbest⟩ := lookup_forward L hpos Q hQlen hQ r (hinv.2 r hr)
    have hk : t.keys = r.keys := by
      simp [critBitTree.keys, critBitTree.leaves, hr, node.slotLeaves, node.keys]
    have hl : t.leaves = r.leaves := by
      simp [critBitTree.leaves, hr, node.slotLeaves]
    refine ⟨res, by simp [matchTree, hgt, hr, hres], ?_, ?_⟩
    · intro K v e
      subst e
      rw [hk, hl]
      exact hbest
    · rw [hk]
      cases res with
      | none => simpa [bestMatch] using hbest
      | some kv =>
          obtain ⟨K, v⟩ := kv
          simp only [bestMatch] at hbest
          simp only [reduceCtorEq, false_iff, not_forall]
          refine ⟨K, ?_, not_not.mpr hbest.2.1⟩
          simp only [node.keys, List.mem_map]
          exact ⟨(K, v), hbest.1, rfl⟩

theorem lookup_longest_match_witness :
    (∀ op ∈ routeOps, canonOp 5 op) ∧ run routeOps = some routeTree ∧
    ∃ r, matchTree routeTree [192, 168, 1, 3, 32] = some r ∧
      (∀ K v, r = some (K, v) →
        (K, v) ∈ routeTree.leaves ∧ covers K [192, 168, 1, 3, 32] ∧
          ∀ k ∈ routeTree.keys, covers k [192, 168, 1, 3, 32] → mask k ≤ mask K) ∧
      (r = none ↔ ∀ k ∈ routeTree.keys, ¬ covers k [192, 168, 1, 3, 32]) :=
  ⟨by decide, by decide,
   lookup_longest_match 5 (Or.inl rfl) routeOps (by decide) routeTree (by decide)
     [192, 168, 1, 3, 32] rfl (by decide)⟩

/-! ## Walk and longest string prefix on concrete trees -/

/-- C11: after `unsortedOps` four distinct keys are stored, and the walk with a
nil start key and a visitor that always returns true visits `[97, 1]` before
`[97, 0]`: the order of the visits is not the lexicographic order. -/
theorem walk_visits_out_of_order :
    ∃ t, run unsortedOps = some t ∧
      t.keys = [[97], [97, 1], [97, 0], [97, 2]] ∧
      t.walk none recordAll [] =
        some (true, [([97], some 2), ([97, 1], some 1), ([97, 0], some 4), ([97, 2], some 3)]) := by
  refine ⟨_, rfl, by decide, by decide⟩

/-- C12: after `lostKeyOps` the key `[97, 1]` is stored, and the walk with
start key `[97, 1]` returns false without invoking the visitor. -/
theorem walk_from_stored_key_visits_nothing :
    run lostKeyOps = some lostKeyTree ∧
    ([97, 1], some 1) ∈ lostKeyTree.leaves ∧
    lostKeyTree.walk (some [97, 1]) recordAll [] = some (false, []) := by
  refine ⟨by decide, by decide, by decide⟩

/-- C15: after `shadowedOps` the key `[97, 1, 1]` is stored, and
`longestPrefix [97, 1, 1]` returns the shorter stored key `[97, 1]`. -/
theorem longestPrefix_returns_shorter_key :
    ∃ t, run shadowedOps = some t ∧
      ([97, 1, 1], some 2) ∈ t.leaves ∧
      t.longestPrefix [97, 1, 1] = some (some ([97, 1], some 4)) := by
  refine ⟨_, rfl, by decide, by decide⟩

/-- C16: on a table with one IPv4 and one IPv6 route, `Walk` with the invalid
prefix and a visitor that always returns false invokes the visitor on the
IPv4 route, where it returns false, and then again on the IPv6 route. -/
theorem Walk_continues_after_abort :
    rawCodec.pfxToKey [] = none ∧
    (recordStop ([] : List (List Nat × Option Nat)) [10, 0, 0, 0, 8] (some 1)).1 = false ∧
    RouteTable.Walk rawCodec twoFamilies [] recordStop [] =
      some [([10, 0, 0, 0, 8], some 1),
            ([0, 0, 0, 0, 0, 0, 0, 0, 0, 0, 0, 0, 0, 0, 0, 0, 0], some 2)] := by
  refine ⟨rfl, rfl, ?_⟩
  decide

/-- C17: on the empty tree, for every key, `contains` is false, `get` is
`(nil, false)`, `delete` returns `(nil, false)`, `longestPrefix` returns
`ok = false`, and `walk`, with any start key and any visitor, returns without
invoking the visitor; each of them returns (no nil dereference) and the tree
stays the empty tree. -/
theorem empty_tree_total {V σ : Type} (key : List Nat) (start : Option (List Nat))
    (handle : σ → List Nat → Option V → Bool × σ) (s : σ) :
    (newTree : critBitTree V).contains key = false ∧
    (newTree : critBitTree V).get key = (none, false) ∧
    (newTree : critBitTree V).delete key = some (newTree, none, false) ∧
    (newTree : critBitTree V).longestPrefix key = some none ∧
    (newTree : critBitTree V).walk start handle s = some (true, s) ∧
    (newTree : critBitTree V).clear = newTree := by
  refine ⟨rfl, rfl, rfl, rfl, rfl, rfl⟩

/-! ## The walk is the visitor applied to the applicable leaves -/

theorem visit_append {V σ : Type} (handle : σ → List Nat → Option V → Bool × σ)
    (l1 l2 : List (List Nat × Option V)) (s : σ) :
    visit handle s (l1 ++ l2) =
      if (visit handle s l1).1 then visit handle (visit handle s l1).2 l2
      else (false, (visit handle s l1).2) := by
  induction l1 generalizing s with
  | nil => simp [visit]
  | cons kv l ih =>
      obtain ⟨k, v⟩ := kv
      simp only [List.cons_append, visit]
      by_cases h : (handle s k v).1 = true
      · simp only [h, if_true]
        exact ih _
      · simp [h]

theorem visit_singleton {V σ : Type} (handle : σ → List Nat → Option V → Bool × σ)
    (k : List Nat) (v : Option V) (s : σ) :
    visit handle s [(k, v)] = ((handle s k v).1, (handle s k v).2) := by
  by_cases h : (handle s k v).1 = true
  · simp [visit, h]
  · rw [Bool.not_eq_true] at h
    simp [visit, h]

theorem walkHelper_noseek {V σ : Type} (key : List Nat)
    (handle : σ → List Nat → Option V → Bool × σ) (n : node V) (s : σ) :
    walkHelper key handle n false s =
      ((visit handle s n.leaves).1, false, (visit handle s n.leaves).2) := by
  induction n generalizing s with
  | external k v => simp [walkHelper, node.leaves, visit_singleton]
  | internal c0 c1 o b c ih0 ih1 =>
      simp only [walkHelper, Bool.false_eq_true, if_false, node.leaves, visit_append]
      rw [ih0]
      by_cases h : (visit handle s c0.leaves).1 = true
      · simp [h, ih1]
      · rw [Bool.not_eq_true] at h
        simp [h]

theorem walkHelper_seek {V σ : Type} (key : List Nat)
    (handle : σ → List Nat → Option V → Bool × σ) (n : node V) (s : σ) :
    walkHelper key handle n true s =
      match node.seekSuffix key n with
      | none => (false, true, s)
      | some l => ((visit handle s l).1, false, (visit handle s l).2) := by
  induction n generalizing s with
  | external k v =>
      by_cases h : k = key
      · simp [walkHelper, node.seekSuffix, h, visit_singleton]
      · simp [walkHelper, node.seekSuffix, h]
  | internal c0 c1 o b c ih0 ih1 =>
      by_cases hd : direction o b c key = true
      · simp only [walkHelper, if_true, hd, node.seekSuffix]
        rw [ih1]
        cases h1 : node.seekSuffix key c1 with
        | none => simp
        | some l =>
            by_cases hv : (visit handle s l).1 = true
            · simp [hv]
            · rw [Bool.not_eq_true] at hv
              simp [hv]
      · rw [Bool.not_eq_true] at hd
        simp only [walkHelper, if_true, hd, node.seekSuffix, Bool.false_eq_true, if_false]
        rw [ih0]
        cases h0 : node.seekSuffix key c0 with
        | none => simp
        | some l =>
            simp only [Option.map_some', visit_append]
            by_cases hv : (visit handle s l).1 = true
            · simp [hv, walkHelper_noseek]
            · rw [Bool.not_eq_true] at hv
              simp [hv]

theorem seekSuffix_eq_none_iff {V : Type} (key : List Nat) (n : node V) :
    node.seekSuffix key n = none ↔ (n.search key).1 ≠ key := by
  induction n with
  | external k v =>
      by_cases h : k = key
      · simp [node.seekSuffix, node.search, h]
      · simp [node.seekSuffix, node.search, h]
  | internal c0 c1 o b c ih0 ih1 =>
      by_cases hd : direction o b c key = true
      · simp [node.seekSuffix, node.search, hd, ih1]
      · rw [Bool.not_eq_true] at hd
        simp [node.seekSuffix, node.search, hd, ih0]

/-- The leaves a seek selects start with the leaf the descent stops at and are
the rest of the leaves in walk order. -/
theorem seekSuffix_some {V : Type} (key : List Nat) (n : node V)
    (l : List (List Nat × Option V)) (h : node.seekSuffix key n = some l) :
    (n.search key).1 = key ∧ ∃ pre rest, l = n.search key :: rest ∧ n.leaves = pre ++ l := by
  induction n generalizing l with
  | external k v =>
      by_cases hk : k = key
      · simp only [node.seekSuffix, hk, if_true, Option.some.injEq] at h
        subst h
        exact ⟨by simp [node.search, hk], [], [], by simp [node.search, hk],
          by simp [node.leaves, hk]⟩
      · simp [node.seekSuffix, hk] at h
  | internal c0 c1 o b c ih0 ih1 =>
      by_cases hd : direction o b c key = true
      · simp only [node.seekSuffix, hd, if_true] at h
        obtain ⟨h1, pre, rest, h2, h3⟩ := ih1 l h
        refine ⟨by simpa [node.search, hd] using h1, c0.leaves ++ pre, rest,
          by simpa [node.search, hd] using h2, ?_⟩
        simp [node.leaves, h3]
      · rw [Bool.not_eq_true] at hd
        simp only [node.seekSuffix, hd, Bool.false_eq_true, if_false] at h
        cases h0 : node.seekSuffix key c0 with
        | none => simp [h0] at h
        | some l0 =>
            simp only [h0, Option.map_some', Option.some.injEq] at h
            obtain ⟨h1, pre, rest, h2, h3⟩ := ih0 l0 h0
            refine ⟨by simpa [node.search, hd] using h1, pre, rest ++ c1.leaves, ?_, ?_⟩
            · rw [← h, h2]; simp [node.search, hd]
            · rw [← h]; simp [node.leaves, h3]

/-- The walk below a non-empty root, for every start key and visitor. -/
theorem walk_eq_visit {V σ : Type} (t : critBitTree V) (r : node V) (hr : t.root = some r)
    (h0 : t.items ≠ 0) (start : Option (List Nat))
    (handle : σ → List Nat → Option V → Bool × σ) (s : σ) :
    t.walk start handle s = some (walkSpec handle s (r.applicable start)) := by
  cases start with
  | none =>
      simp [critBitTree.walk, h0, hr, node.applicable, walkHelper_noseek, walkSpec]
  | some key =>
      simp only [critBitTree.walk, h0, hr, if_false, node.applicable, Option.getD_some,
        Option.isSome_some, walkHelper_seek]
      cases node.seekSuffix key r <;> simp [walkSpec]

/-- C13 (as stated, on the empty tree): the key `[1]` is not stored in the
empty tree, and the walk with start key `[1]` returns true. -/
theorem walk_absent_start_on_empty_tree :
    [1] ∉ (newTree : critBitTree Nat).keys ∧
    (newTree : critBitTree Nat).walk (some [1]) recordAll [] = some (true, []) := by
  refine ⟨by decide, by decide⟩

/-- The walk of a non-empty tree with a start key that the leaf its seek
stops at does not have returns false and does not invoke the visitor. -/
theorem walk_seek_fails {V σ : Type} (t : critBitTree V) (r : node V) (hr : t.root = some r)
    (h0 : t.items ≠ 0) (s : List Nat) (hs : (r.search s).1 ≠ s)
    (handle : σ → List Nat → Option V → Bool × σ) (st : σ) :
    t.walk (some s) handle st = some (false, st) := by
  rw [walk_eq_visit t r hr h0]
  have := (seekSuffix_eq_none_iff s r).mpr hs
  simp [node.applicable, this, walkSpec]

theorem search_ne_of_not_mem {V : Type} (t : critBitTree V) (r : node V)
    (hr : t.root = some r) (s : List Nat) (hs : s ∉ t.keys) : (r.search s).1 ≠ s := by
  intro he
  apply hs
  simp only [critBitTree.keys, critBitTree.leaves, hr, node.slotLeaves, List.mem_map]
  exact ⟨r.search s, node.search_mem r s, he⟩

/-- C13 (amended): on every tree whose counter `items` is not 0 and whose root
slot is not empty, the walk with a non-nil start key `s` held by no leaf
returns false and leaves the state of the visitor as it was (the visitor is
not invoked); when `items` is 0 the walk returns true, again without invoking
the visitor. -/
theorem walk_absent_start {V σ : Type} (t : critBitTree V) (s : List Nat)
    (hs : s ∉ t.keys) (handle : σ → List Nat → Option V → Bool × σ) (st : σ) :
    (t.items = 0 → t.walk (some s) handle st = some (true, st)) ∧
    (t.items ≠ 0 → t.root ≠ none → t.walk (some s) handle st = some (false, st)) := by
  constructor
  · intro h0
    simp [critBitTree.walk, h0]
  · intro h0 hroot
    cases hr : t.root with
    | none => exact absurd hr hroot
    | some r =>
        exact walk_seek_fails t r hr h0 s (search_ne_of_not_mem t r hr s hs) handle st

theorem walk_absent_start_witness :
    [98] ∉ lostKeyTree.keys ∧
    (lostKeyTree.items = 0 → lostKeyTree.walk (some [98]) recordAll [] = some (true, [])) ∧
    (lostKeyTree.items ≠ 0 → lostKeyTree.root ≠ none →
      lostKeyTree.walk (some [98]) recordAll [] = some (false, [])) :=
  ⟨by decide, walk_absent_start lostKeyTree [98] (by decide) recordAll []⟩

/-- C14 (as stated, on the empty tree): the walk of the empty tree with start
key `[1]` returns true although no leaf has the key `[1]`, so no seek found it. -/
theorem walk_true_without_start_key :
    (newTree : critBitTree Nat).walk (some [1]) recordStop [] = some (true, []) ∧
    (newTree : critBitTree Nat).search [1] = none ∧
    (newTree : critBitTree Nat).contains [1] = false := by
  refine ⟨by decide, by decide, by decide⟩

/-- C14 (amended): on every reachable tree, for every start key and every
visitor, the walk returns.  On the empty tree it returns true without
invoking the visitor.  On a non-empty tree, when a start key is given and the
leaf the seek stops at has another key, it returns false without invoking the
visitor; otherwise the visitor is invoked on the applicable leaves in order up
to and including the first on which it returns false and on no leaf after it,
and the walk returns false exactly when the visitor did. -/
theorem walk_abort {V σ : Type} (t : critBitTree V) (ht : reachable t)
    (start : Option (List Nat)) (handle : σ → List Nat → Option V → Bool × σ) (s : σ) :
    (t.root = none → t.walk start handle s = some (true, s)) ∧
    (∀ r, t.root = some r →
      t.walk start handle s = some (walkSpec handle s (r.applicable start))) := by
  have hw := reachable_wf t ht
  constructor
  · intro hr
    have h0 : t.items = 0 := by
      simp only [critBitTree.wf, critBitTree.leaves, hr, node.slotLeaves] at hw
      simpa using hw
    simp [critBitTree.walk, h0]
  · intro r hr
    have h0 : t.items ≠ 0 := by
      intro h0
      have := critBitTree.root_eq_none_of_items_zero t hw h0
      rw [hr] at this
      exact absurd this (by simp)
    exact walk_eq_visit t r hr h0 start handle s

theorem walk_abort_witness :
    reachable lostKeyTree ∧
    (lostKeyTree.root = none → lostKeyTree.walk (some [97]) recordStop [] = some (true, [])) ∧
    (∀ r, lostKeyTree.root = some r →
      lostKeyTree.walk (some [97]) recordStop [] =
        some (walkSpec recordStop [] (r.applicable (some [97])))) :=
  ⟨⟨lostKeyOps, by decide⟩,
   walk_abort lostKeyTree ⟨lostKeyOps, by decide⟩ (some [97]) recordStop []⟩

/-! ## What an operation does to the root slot -/

theorem insertHelper_root {V : Type} (t t' : critBitTree V) (key : List Nat)
    (value : Option V) (replace b : Bool) (r' : node V)
    (h : t.insertHelper key value replace = some (t', b)) (hr' : t'.root = some r') :
    r' = node.external key value ∨
    ∃ r, t.root = some r ∧
      (r' = r ∨ r' = r.setValue key value ∨
        ∃ o bit c, criticalBit (r.search key).1 key = some (o, bit, c) ∧
          r' = r.graft key value o bit c) := by
  unfold critBitTree.insertHelper at h
  by_cases h0 : t.items = 0
  · rw [if_pos h0] at h
    left
    cases hr : t.root with
    | none =>
        simp only [hr, Option.some.injEq, Prod.mk.injEq] at h
        rw [← h.1] at hr'
        simpa using hr'.symm
    | some r =>
        cases r with
        | external k v =>
            simp only [hr, Option.some.injEq, Prod.mk.injEq] at h
            rw [← h.1] at hr'
            simpa using hr'.symm
        | internal c0 c1 o bit c => simp [hr] at h
  · rw [if_neg h0] at h
    right
    cases hr : t.root with
    | none => simp [hr] at h
    | some r =>
        refine ⟨r, rfl, ?_⟩
        simp only [hr] at h
        cases hc : criticalBit (r.search key).1 key with
        | none =>
            simp only [hc] at h
            cases replace with
            | false =>
                simp only [Bool.false_eq_true, if_false, Option.some.injEq, Prod.mk.injEq] at h
                left
                rw [← h.1, hr] at hr'
                simpa using hr'.symm
            | true =>
                simp only [if_true, Option.some.injEq, Prod.mk.injEq] at h
                right; left
                rw [← h.1] at hr'
                simpa using hr'.symm
        | some p =>
            obtain ⟨o, bit, c⟩ := p
            simp only [hc, Option.some.injEq, Prod.mk.injEq] at h
            right; right
            refine ⟨o, bit, c, rfl, ?_⟩
            rw [← h.1] at hr'
            simpa using hr'.symm

theorem delete_root {V : Type} (t t' : critBitTree V) (key : List Nat) (v : Option V)
    (b : Bool) (r' : node V) (h : t.delete key = some (t', v, b)) (hr' : t'.root = some r') :
    t.root = some r' ∨ ∃ r w, t.root = some r ∧ r.remove key = some (some r', w) := by
  unfold critBitTree.delete at h
  by_cases h0 : t.items = 0
  · rw [if_pos h0] at h
    simp only [Option.some.injEq, Prod.mk.injEq] at h
    left
    rw [← h.1] at hr'
    exact hr'
  · rw [if_neg h0] at h
    cases hr : t.root with
    | none => simp [hr] at h
    | some r =>
        simp only [hr] at h
        cases hm : r.remove key with
        | none =>
            simp only [hm, Option.some.injEq, Prod.mk.injEq] at h
            left
            rw [← h.1, hr] at hr'
            exact hr'
        | some p =>
            obtain ⟨r1, w⟩ := p
            simp only [hm, Option.some.injEq, Prod.mk.injEq] at h
            right
            rw [← h.1] at hr'
            simp only at hr'
            subst hr'
            exact ⟨r, w, rfl, hm⟩

/-- A property of the root slot that a first leaf has and that graft, the
replacement of a value and the splice of delete keep holds after every run of
operations whose keys satisfy `P`. -/
theorem run_root_inv {V : Type} (I : node V → Prop) (P : List Nat → Prop)
    (hleaf : ∀ k v, P k → I (node.external k v))
    (hgraft : ∀ n k v o b c, P k → I n → criticalBit (n.search k).1 k = some (o, b, c) →
      I (n.graft k v o b c))
    (hset : ∀ n k v, I n → I (n.setValue k v))
    (hremove : ∀ n n' k v, I n → n.remove k = some (some n', v) → I n')
    (ops : List (Op V)) (hops : ∀ op ∈ ops, opKey P op) (t0 t : critBitTree V)
    (h0 : ∀ r, t0.root = some r → I r) (ht : runFrom t0 ops = some t) :
    ∀ r, t.root = some r → I r := by
  induction ops generalizing t0 with
  | nil =>
      simp only [runFrom, Option.some.injEq] at ht
      rw [← ht]; exact h0
  | cons op ops ih =>
      simp only [runFrom] at ht
      cases hs : step t0 op with
      | none => simp [hs] at ht
      | some t1 =>
          simp only [hs] at ht
          apply ih (fun op' h' => hops op' (by simp [h'])) t1 _ ht
          intro r1 hr1
          have hop := hops op (by simp)
          cases op with
          | insert k v =>
              simp only [step, critBitTree.insert, Option.map_eq_some'] at hs
              obtain ⟨⟨t1', b⟩, he, rfl⟩ := hs
              rcases insertHelper_root t0 t1' k v false b r1 he hr1 with
                rfl | ⟨r, hr, rfl | rfl | ⟨o, bit, c, hc, rfl⟩⟩
              · exact hleaf k v hop
              · exact h0 _ hr
              · exact hset _ k v (h0 _ hr)
              · exact hgraft _ k v o bit c hop (h0 _ hr) hc
          | set k v =>
              simp only [step, critBitTree.set, Option.map_eq_some'] at hs
              obtain ⟨⟨t1', b⟩, he, rfl⟩ := hs
              rcases insertHelper_root t0 t1' k v true b r1 he hr1 with
                rfl | ⟨r, hr, rfl | rfl | ⟨o, bit, c, hc, rfl⟩⟩
              · exact hleaf k v hop
              · exact h0 _ hr
              · exact hset _ k v (h0 _ hr)
              · exact hgraft _ k v o bit c hop (h0 _ hr) hc
          | delete k =>
              simp only [step, Option.map_eq_some'] at hs
              obtain ⟨⟨t1', v, b⟩, he, rfl⟩ := hs
              rcases delete_root t0 t1' k v b r1 he hr1 with hr | ⟨r, w, hr, hm⟩
              · exact h0 _ hr
              · exact hremove r r1 k w (h0 _ hr) hm
          | clear =>
              simp only [step, critBitTree.clear, Option.some.injEq] at hs
              rw [← hs] at hr1
              simp at hr1

/-! ## The order of the internal nodes along a path -/

namespace node

variable {V : Type}

theorem allInternal_mono (p q : Nat → Nat → Bool) (hpq : ∀ o b, p o b = true → q o b = true)
    (n : node V) (h : n.allInternal p = true) : n.allInternal q = true := by
  induction n with
  | external k v => rfl
  | internal c0 c1 o b c ih0 ih1 =>
      simp only [allInternal, Bool.and_eq_true] at h ⊢
      exact ⟨⟨hpq o b h.1.1, ih0 h.1.2⟩, ih1 h.2⟩

theorem allInternal_newNode (p : Nat → Nat → Bool) (key : List Nat) (value : Option V)
    (o b : Nat) (c : Bool) (old : node V) (hp : p o b = true) (h : old.allInternal p = true) :
    (newNode key value o b c old).allInternal p = true := by
  unfold newNode
  split <;> simp [allInternal, hp, h]

theorem allInternal_graft (p : Nat → Nat → Bool) (key : List Nat) (value : Option V)
    (o b : Nat) (c : Bool) (n : node V) (hp : p o b = true) (h : n.allInternal p = true) :
    (graft key value o b c n).allInternal p = true := by
  induction n with
  | external k v => exact allInternal_newNode p key value o b c _ hp h
  | internal c0 c1 o' b' c' ih0 ih1 =>
      simp only [graft]
      split
      · exact allInternal_newNode p key value o b c _ hp h
      · simp only [allInternal, Bool.and_eq_true] at h
        split
        · simp only [allInternal, Bool.and_eq_true]
          exact ⟨⟨h.1.1, h.1.2⟩, ih1 h.2⟩
        · simp only [allInternal, Bool.and_eq_true]
          exact ⟨⟨h.1.1, ih0 h.1.2⟩, h.2⟩

theorem notAfter_trans (o1 b1 o2 b2 o3 b3 : Nat) (h12 : notAfter o1 b1 o2 b2 = true)
    (h23 : notAfter o2 b2 o3 b3 = true) : notAfter o1 b1 o3 b3 = true := by
  simp only [notAfter, Bool.or_eq_true, Bool.and_eq_true, decide_eq_true_eq] at *
  omega

theorem weaklyOrdered_newNode (key : List Nat) (value : Option V) (o b : Nat) (c : Bool)
    (old : node V) (hold : old.weaklyOrdered = true)
    (hall : old.allInternal (notAfter o b) = true) :
    (newNode key value o b c old).weaklyOrdered = true := by
  unfold newNode
  split <;> simp [weaklyOrdered, allInternal, hold, hall]

theorem weaklyOrdered_graft (key : List Nat) (value : Option V) (o b : Nat) (c : Bool)
    (n : node V) (h : n.weaklyOrdered = true) :
    (graft key value o b c n).weaklyOrdered = true := by
  induction n with
  | external k v => exact weaklyOrdered_newNode key value o b c _ h rfl
  | internal c0 c1 o' b' c' ih0 ih1 =>
      have h' := h
      simp only [weaklyOrdered, Bool.and_eq_true] at h
      obtain ⟨⟨⟨ha0, ha1⟩, hw0⟩, hw1⟩ := h
      simp only [graft]
      by_cases hcmp : o' > o ∨ (o' = o ∧ b' < b)
      · rw [if_pos hcmp]
        apply weaklyOrdered_newNode key value o b c _ h'
        have hroot : notAfter o b o' b' = true := by
          simp only [notAfter, Bool.or_eq_true, Bool.and_eq_true, decide_eq_true_eq]
          omega
        simp only [allInternal, Bool.and_eq_true]
        exact ⟨⟨hroot,
          allInternal_mono _ _ (fun o3 b3 h3 => notAfter_trans _ _ _ _ _ _ hroot h3) c0 ha0⟩,
          allInternal_mono _ _ (fun o3 b3 h3 => notAfter_trans _ _ _ _ _ _ hroot h3) c1 ha1⟩
      · rw [if_neg hcmp]
        have hN : notAfter o' b' o b = true := by
          simp only [notAfter, Bool.or_eq_true, Bool.and_eq_true, decide_eq_true_eq]
          omega
        split
        · simp only [weaklyOrdered, Bool.and_eq_true]
          exact ⟨⟨⟨ha0, allInternal_graft _ key value o b c c1 hN ha1⟩, hw0⟩, ih1 hw1⟩
        · simp only [weaklyOrdered, Bool.and_eq_true]
          exact ⟨⟨⟨allInternal_graft _ key value o b c c0 hN ha0, ha1⟩, ih0 hw0⟩, hw1⟩

theorem allInternal_setValue (p : Nat → Nat → Bool) (key : List Nat) (value : Option V)
    (n : node V) : (setValue key value n).allInternal p = n.allInternal p := by
  induction n with
  | external k v => rfl
  | internal c0 c1 o b c ih0 ih1 =>
      simp only [setValue]
      split <;> simp [allInternal, ih0, ih1]

theorem weaklyOrdered_setValue (key : List Nat) (value : Option V) (n : node V) :
    (setValue key value n).weaklyOrdered = n.weaklyOrdered := by
  induction n with
  | external k v => rfl
  | internal c0 c1 o b c ih0 ih1 =>
      simp only [setValue]
      split <;> simp [weaklyOrdered, allInternal_setValue, ih0, ih1]

theorem allInternal_remove (p : Nat → Nat → Bool) (key : List Nat) (n n' : node V)
    (v : Option V) (h : n.allInternal p = true) (hm : n.remove key = some (some n', v)) :
    n'.allInternal p = true := by
  induction n generalizing n' v with
  | external k w =>
      by_cases hk : k = key <;> simp [remove, hk] at hm
  | internal c0 c1 o b c ih0 ih1 =>
      simp only [allInternal, Bool.and_eq_true] at h
      simp only [remove] at hm
      split at hm
      · cases hr : c1.remove key with
        | none => simp [hr] at hm
        | some q =>
            obtain ⟨r1, v1⟩ := q
            cases r1 with
            | none =>
                simp [hr] at hm
                rw [← hm.1]; exact h.1.2
            | some c1' =>
                simp [hr] at hm
                rw [← hm.1]
                simp only [allInternal, Bool.and_eq_true]
                exact ⟨⟨h.1.1, h.1.2⟩, ih1 c1' v1 h.2 hr⟩
      · cases hr : c0.remove key with
        | none => simp [hr] at hm
        | some q =>
            obtain ⟨r0, v0⟩ := q
            cases r0 with
            | none =>
                simp [hr] at hm
                rw [← hm.1]; exact h.2
            | some c0' =>
                simp [hr] at hm
                rw [← hm.1]
                simp only [allInternal, Bool.and_eq_true]
                exact ⟨⟨h.1.1, ih0 c0' v0 h.1.2 hr⟩, h.2⟩

theorem weaklyOrdered_remove (key : List Nat) (n n' : node V) (v : Option V)
    (h : n.weaklyOrdered = true) (hm : n.remove key = some (some n', v)) :
    n'.weaklyOrdered = true := by
  induction n generalizing n' v with
  | external k w =>
      by_cases hk : k = key <;> simp [remove, hk] at hm
  | internal c0 c1 o b c ih0 ih1 =>
      simp only [weaklyOrdered, Bool.and_eq_true] at h
      obtain ⟨⟨⟨ha0, ha1⟩, hw0⟩, hw1⟩ := h
      simp only [remove] at hm
      split at hm
      · cases hr : c1.remove key with
        | none => simp [hr] at hm
        | some q =>
            obtain ⟨r1, v1⟩ := q
            cases r1 with
            | none =>
                simp [hr] at hm
                rw [← hm.1]; exact hw0
            | some c1' =>
                simp [hr] at hm
                rw [← hm.1]
                simp only [weaklyOrdered, Bool.and_eq_true]
                exact ⟨⟨⟨ha0, allInternal_remove _ key c1 c1' v1 ha1 hr⟩, hw0⟩,
                  ih1 c1' v1 hw1 hr⟩
      · cases hr : c0.remove key with
        | none => simp [hr] at hm
        | some q =>
            obtain ⟨r0, v0⟩ := q
            cases r0 with
            | none =>
                simp [hr] at hm
                rw [← hm.1]; exact hw1
            | some c0' =>
                simp [hr] at hm
                rw [← hm.1]
                simp only [weaklyOrdered, Bool.and_eq_true]
                exact ⟨⟨⟨allInternal_remove _ key c0 c0' v0 ha0 hr, ha1⟩,
                  ih0 c0' v0 hw0 hr⟩, hw1⟩

end node

/-- C19 (as stated): the tree after the inserts of `[97]`, `[97, 128]` and
`[97, 1]` has a containment node with offset 1 and bit 128 at the root and,
below it on one path, a plain node with the same offset and bit: the order is
not strict. -/
theorem same_offset_and_bit_on_one_path :
    ∃ t r, run ([Op.insert [97] none, Op.insert [97, 128] none, Op.insert [97, 1] none]
        : List (Op Nat)) = some t ∧
      t.root = some r ∧ r.ordered = false ∧
      r = node.internal (node.external [97] none)
            (node.internal (node.external [97, 1] none) (node.external [97, 128] none)
              1 128 false) 1 128 true := by
  refine ⟨_, _, rfl, rfl, by decide, rfl⟩

/-- C19 (amended): in every tree reachable from the empty tree by insert, set,
delete and clear of arbitrary keys, on every root-to-leaf path each internal
node's (offset, bit) is before or equal to that of every internal node below
it, in the order smaller offset first and, at equal offset, larger bit first. -/
theorem reachable_weaklyOrdered {V : Type} (t : critBitTree V) (ht : reachable t)
    (r : node V) (hr : t.root = some r) : r.weaklyOrdered = true := by
  obtain ⟨ops, hops⟩ := ht
  exact run_root_inv (fun n => n.weaklyOrdered = true) (fun _ => True)
    (fun _ _ _ => rfl)
    (fun n k v o b c _ hn _ => node.weaklyOrdered_graft k v o b c n hn)
    (fun n k v hn => by
      show (node.setValue k v n).weaklyOrdered = true
      rw [node.weaklyOrdered_setValue]; exact hn)
    (fun n n' k v hn hm => node.weaklyOrdered_remove k n n' v hn hm)
    ops (fun op _ => by cases op <;> trivial) newTree t
    (fun r hr => by simp [newTree] at hr) hops r hr

theorem reachable_weaklyOrdered_witness :
    reachable lostKeyTree ∧
    (node.internal
      (node.internal (node.external [97] (some 2)) (node.external [97, 1] (some 1)) 1 1 false)
      (node.external [97, 2] (some 3)) 1 2 true : node Nat).weaklyOrdered = true :=
  ⟨⟨lostKeyOps, by decide⟩,
   reachable_weaklyOrdered lostKeyTree ⟨lostKeyOps, by decide⟩ _ rfl⟩

/-! ## The insertion slot -/

theorem newNode_eq_specNewNode {V : Type} (key : List Nat) (value : Option V) (o b : Nat)
    (c : Bool) (old : node V) :
    node.newNode key value o b c old = specNewNode key value o b c old := by
  unfold node.newNode specNewNode
  split <;> simp_all

theorem graft_eq_graftAt {V : Type} (key : List Nat) (value : Option V) (o b : Nat) (c : Bool)
    (n : node V) :
    n.graft key value o b c =
      graftAt (specNewNode key value o b c) (slotPathAmended key o b n) n := by
  induction n with
  | external k v => simp [node.graft, slotPathAmended, graftAt, newNode_eq_specNewNode]
  | internal c0 c1 o' b' c' ih0 ih1 =>
      by_cases hcmp : o' > o ∨ (o' = o ∧ b' < b)
      · have hn : ¬ (o' < o ∨ (o' = o ∧ b' ≥ b)) := by omega
        simp [node.graft, slotPathAmended, graftAt, hcmp, hn, newNode_eq_specNewNode]
      · have hn : o' < o ∨ (o' = o ∧ b' ≥ b) := by omega
        by_cases hd : direction o' b' c' key = true
        · simp only [node.graft, slotPathAmended, if_neg hcmp, if_pos hn, if_pos hd, graftAt,
            if_true]
          rw [ih1]
        · simp only [node.graft, slotPathAmended, if_neg hcmp, if_pos hn, if_neg hd, graftAt,
            Bool.false_eq_true, if_false]
          rw [ih0]

/-- C20 (as stated): on the tree `contTree`, whose root is a containment node
with offset 1 and bit 128, the insert of `[97, 1]` creates a node with offset 1
and bit 128; the stated rule stops at the root slot, while the code descends
past the root and grafts the node into `child[1]`. -/
theorem stated_slot_differs_from_code :
    run ([Op.insert [97] none, Op.insert [97, 128] none] : List (Op Nat)) = some contTree ∧
    ∃ r t', contTree.root = some r ∧
      criticalBit (r.search [97, 1]).1 [97, 1] = some (1, 128, false) ∧
      contTree.insert [97, 1] none = some (t', true) ∧
      slotPathStated [97, 1] 1 128 r = [] ∧
      slotPathAmended [97, 1] 1 128 r = [true] ∧
      t'.root ≠ some (graftAt (specNewNode [97, 1] none 1 128 false)
        (slotPathStated [97, 1] 1 128 r) r) := by
  refine ⟨by decide, _, _, rfl, by decide, rfl, by decide, by decide, by decide⟩

/-- C20 (amended): when the insert of a key `k` into a non-empty tree creates
an internal node `N` (the leaf `search` stops at has another key), the slot it
is grafted into is found by descending from the root along `direction(k)`
while the occupant is an internal node `X` with `X.offset < N.offset` or
`X.offset = N.offset` and `X.bit >= N.bit`, stopping at the first slot whose
occupant is a leaf or an internal node strictly after `N`; the previous
occupant becomes `N.child[1-d]` and the new leaf `N.child[d]`,
`d = N.direction(k)`; `items` grows by one and insert returns true. -/
theorem insert_slot {V : Type} (t : critBitTree V) (r : node V) (hr : t.root = some r)
    (h0 : t.items ≠ 0) (k : List Nat) (v : Option V) (o b : Nat) (c : Bool)
    (hc : criticalBit (r.search k).1 k = some (o, b, c)) :
    t.insert k v =
      some ({ root := some (graftAt (specNewNode k v o b c) (slotPathAmended k o b r) r),
              items := t.items + 1 }, true) := by
  have hg := graft_eq_graftAt k v o b c r
  unfold critBitTree.insert critBitTree.insertHelper
  rw [if_neg h0]
  simp only [hr, hc]
  rw [hg]

theorem insert_slot_witness :
    contTree.root = some contRoot ∧
    contTree.insert [97, 1] none =
      some ({ root := some (graftAt (specNewNode [97, 1] none 1 128 false)
                (slotPathAmended [97, 1] 1 128 contRoot) contRoot),
              items := contTree.items + 1 }, true) :=
  ⟨rfl, insert_slot contTree contRoot rfl (by decide) [97, 1] none 1 128 false (by decide)⟩

/-! ## First bytes and the field `bit` -/

theorem lowBits_two_pow (j : Nat) : lowBits (2 ^ j) = j + 1 := by
  have : (2 : Nat) ^ j ≠ 0 := by positivity
  simp [lowBits, this, Nat.log2_two_pow]

theorem lowBits_mono (b b' : Nat) (hb : isBit b) (hb' : isBit b') (h : b ≤ b') :
    lowBits b ≤ lowBits b' := by
  rcases hb with rfl | ⟨j, _, rfl⟩
  · simp [lowBits]
  · rcases hb' with rfl | ⟨j', _, rfl⟩
    · have : (2 : Nat) ^ j ≠ 0 := by positivity
      exact absurd (Nat.le_zero.mp h) this
    · rw [lowBits_two_pow, lowBits_two_pow]
      have := (Nat.pow_le_pow_iff_right (by norm_num : 1 < 2)).mp h
      omega

theorem lowBits_le_of_lt_two_pow (b j : Nat) (hb : isBit b) (h : b < 2 ^ j) :
    lowBits b ≤ j := by
  rcases hb with rfl | ⟨j', _, rfl⟩
  · simp [lowBits]
  · rw [lowBits_two_pow]
    have := (Nat.pow_lt_pow_iff_right (by norm_num : 1 < 2)).mp h
    omega

theorem zeroAbove_mono (b b' x : Nat) (hb : isBit b) (hb' : isBit b') (h : b ≤ b')
    (hz : zeroAbove b x) : zeroAbove b' x :=
  fun i hi => hz i (le_trans (lowBits_mono b b' hb hb' h) hi)

theorem agreeAbove_mono (b b' x y : Nat) (hb : isBit b) (hb' : isBit b') (h : b ≤ b')
    (ha : agreeAbove b x y) : agreeAbove b' x y :=
  fun i hi => ha i (le_trans (lowBits_mono b b' hb hb' h) hi)

theorem agreeAbove_of_zeroAbove (b x y : Nat) (hx : zeroAbove b x) (hy : zeroAbove b y) :
    agreeAbove b x y :=
  fun i hi => by rw [hx i hi, hy i hi]

theorem zeroAbove_of_agreeAbove (b x y : Nat) (ha : agreeAbove b x y) (hx : zeroAbove b x) :
    zeroAbove b y :=
  fun i hi => by rw [← ha i hi]; exact hx i hi

theorem agreeAbove_symm (b x y : Nat) (ha : agreeAbove b x y) : agreeAbove b y x :=
  fun i hi => (ha i hi).symm

theorem agreeAbove_trans (b x y z : Nat) (h1 : agreeAbove b x y) (h2 : agreeAbove b y z) :
    agreeAbove b x z :=
  fun i hi => (h1 i hi).trans (h2 i hi)

theorem msbMatrix_isBit (x : Nat) (hx : x < 256) :
    isBit (msbMatrix x) ∧ zeroAbove (msbMatrix x) x := by
  by_cases h0 : x = 0
  · subst h0
    have : msbMatrix 0 = 0 := by decide
    rw [this]
    exact ⟨Or.inl rfl, fun i _ => Nat.zero_testBit i⟩
  · obtain ⟨j, hj, hm, _, hhi⟩ := msbMatrix_spec x hx h0
    rw [hm]
    refine ⟨Or.inr ⟨j, hj, rfl⟩, ?_⟩
    intro i hi
    rw [lowBits_two_pow] at hi
    exact hhi i (by omega)

theorem criticalBitFrom_gen (nkey key : List Nat) (off o b : Nat) (c : Bool)
    (hn : isBytes nkey) (hk : isBytes key)
    (h : criticalBitFrom nkey key off = some (o, b, c)) :
    off ≤ o ∧ (∀ t, t < o - off → nkey.getD t 0 = key.getD t 0) ∧
    ((c = false ∧ o - off < nkey.length ∧ o - off < key.length ∧
        ∃ j, j < 8 ∧ b = 2 ^ j ∧
          (nkey.getD (o - off) 0).testBit j ≠ (key.getD (o - off) 0).testBit j ∧
          ∀ i, j < i → (nkey.getD (o - off) 0).testBit i = (key.getD (o - off) 0).testBit i) ∨
     (c = true ∧ nkey.length = o - off ∧ o - off < key.length ∧
        b = msbMatrix (key.getD (o - off) 0)) ∨
     (c = true ∧ key.length = o - off ∧ o - off < nkey.length ∧
        b = msbMatrix (nkey.getD (o - off) 0))) := by
  induction nkey generalizing key off with
  | nil =>
      cases key with
      | nil => simp [criticalBitFrom] at h
      | cons a key =>
          simp only [criticalBitFrom, Option.some.injEq, Prod.mk.injEq] at h
          obtain ⟨rfl, rfl, rfl⟩ := h
          refine ⟨le_refl _, by simp, Or.inr (Or.inl ?_)⟩
          simp
  | cons x nkey ih =>
      cases key with
      | nil =>
          simp only [criticalBitFrom, Option.some.injEq, Prod.mk.injEq] at h
          obtain ⟨rfl, rfl, rfl⟩ := h
          refine ⟨le_refl _, by simp, Or.inr (Or.inr ?_)⟩
          simp
      | cons a key =>
          have hx : x < 256 := hn x (by simp)
          have ha : a < 256 := hk a (by simp)
          by_cases hax : a = x
          · subst hax
            simp only [criticalBitFrom, ne_eq, not_true_eq_false, if_false] at h
            have hn' : isBytes nkey := fun y hy => hn y (by simp [hy])
            have hk' : isBytes key := fun y hy => hk y (by simp [hy])
            obtain ⟨hoff, heq, hcases⟩ := ih key (off + 1) hn' hk' h
            have e : o - off = (o - (off + 1)) + 1 := by omega
            refine ⟨by omega, ?_, ?_⟩
            · intro t ht
              cases t with
              | zero => simp
              | succ t =>
                  simp only [List.getD_cons_succ]
                  exact heq t (by omega)
            · rw [e]
              simp only [List.length_cons, List.getD_cons_succ, Nat.add_lt_add_iff_right,
                Nat.add_right_cancel_iff]
              exact hcases
          · simp only [criticalBitFrom, ne_eq, hax, not_false_eq_true, if_true] at h
            simp only [Option.some.injEq, Prod.mk.injEq] at h
            obtain ⟨rfl, rfl, rfl⟩ := h
            have hxor : a ^^^ x < 256 := by
              have := @Nat.xor_lt_two_pow a x 8 (by simpa using ha) (by simpa using hx)
              simpa using this
            have hxne : a ^^^ x ≠ 0 := by
              intro e; exact hax (Nat.xor_eq_zero.mp e)
            obtain ⟨j, hj, hm, ht, hhi⟩ := msbMatrix_spec (a ^^^ x) hxor hxne
            refine ⟨le_refl _, by simp, Or.inl ⟨rfl, by simp, by simp, j, hj, hm, ?_, ?_⟩⟩
            · simp only [Nat.sub_self, List.getD_cons_zero]
              rw [Nat.testBit_xor] at ht
              intro e
              rw [e] at ht
              simp at ht
            · intro i hi
              simp only [Nat.sub_self, List.getD_cons_zero]
              have := hhi i hi
              rw [Nat.testBit_xor] at this
              revert this
              cases x.testBit i <;> cases a.testBit i <;> simp

theorem ne_nil_of_length_pos (k : List Nat) (h : 0 < k.length) : k ≠ [] := by
  intro e; rw [e] at h; simp at h

theorem criticalBit_firstFacts (L key : List Nat) (o b : Nat) (c : Bool)
    (hL : isBytes L) (hk : isBytes key) (h : criticalBit L key = some (o, b, c)) :
    firstFacts L key o b c := by
  obtain ⟨_, heq, hcases⟩ := criticalBitFrom_gen L key 0 o b c hL hk h
  simp only [Nat.sub_zero] at heq hcases
  have hlen : o ≤ L.length ∧ o ≤ key.length := by
    rcases hcases with ⟨_, h1, h2, _⟩ | ⟨_, h1, h2, _⟩ | ⟨_, h1, h2, _⟩ <;> omega
  have hbit : isBit b ∧ (c = false → b ≠ 0) := by
    rcases hcases with ⟨_, _, _, j, hj, hb, _⟩ | ⟨hc, _, _, hb⟩ | ⟨hc, _, _, hb⟩
    · refine ⟨Or.inr ⟨j, hj, hb⟩, fun _ => ?_⟩
      rw [hb]; positivity
    · exact ⟨hb ▸ (msbMatrix_isBit _ (getD_lt_of_isBytes key hk o)).1, fun e => by simp [hc] at e⟩
    · exact ⟨hb ▸ (msbMatrix_isBit _ (getD_lt_of_isBytes L hL o)).1, fun e => by simp [hc] at e⟩
  refine ⟨hbit.1, hbit.2, ?_, ?_, ?_, ?_⟩
  · intro ho
    exact ⟨ne_nil_of_length_pos L (by omega), ne_nil_of_length_pos key (by omega),
      heq 0 (by omega)⟩
  · intro hc
    rcases hcases with ⟨_, h1, h2, _⟩ | ⟨hc', _⟩ | ⟨hc', _⟩
    · exact ⟨h1, h2⟩
    · simp [hc] at hc'
    · simp [hc] at hc'
  · intro ho hc
    subst ho
    rcases hcases with ⟨_, _, _, j, hj, hb, hne, hhi⟩ | ⟨hc', _⟩ | ⟨hc', _⟩
    · refine ⟨j, hj, hb, hne, ?_⟩
      intro i hi
      rw [hb, lowBits_two_pow] at hi
      exact hhi i (by omega)
    · simp [hc] at hc'
    · simp [hc] at hc'
  · intro hc
    rcases hcases with ⟨hc', _⟩ | ⟨_, h1, h2, hb⟩ | ⟨_, h1, h2, hb⟩
    · simp [hc] at hc'
    · exact Or.inl ⟨h1, h2, hb ▸ (msbMatrix_isBit _ (getD_lt_of_isBytes key hk o)).2⟩
    · exact Or.inr ⟨h1, h2, hb ▸ (msbMatrix_isBit _ (getD_lt_of_isBytes L hL o)).2⟩

theorem direction_lt_length (o b : Nat) (c : Bool) (key : List Nat)
    (h : direction o b c key = true) : o < key.length := by
  simp only [direction, Bool.and_eq_true, decide_eq_true_eq] at h
  exact h.1

theorem direction_nil (o b : Nat) (c : Bool) : direction o b c [] = false := by
  simp [direction]

theorem direction_plain_zero (j : Nat) (hj : j < 8) (key : List Nat) (hk : key ≠ []) :
    direction 0 (2 ^ j) false key = (firstByte key).testBit j := by
  have hlen : 0 < key.length := List.length_pos.mpr hk
  rw [direction_eq_keyBit key 0 j hj hlen, keyBit_pos key 0 j hj]
  rfl

/-! ## Graft keeps the empty key on its path -/

theorem nodeConds_congr (o b : Nat) (c : Bool) (ks ks' : List (List Nat))
    (hmem : ∀ k, k ∈ ks' ↔ k ∈ ks) (h : nodeConds o b c ks) : nodeConds o b c ks' := by
  obtain ⟨hb, hc, hW, hH, hE⟩ := h
  refine ⟨hb, hc, ?_, ?_, ?_⟩
  · intro ho k hk
    have := hW ho k ((hmem k).mp hk)
    exact ⟨this.1, fun k' hk' => this.2 k' ((hmem k').mp hk')⟩
  · intro ho hcf k hk k' hk'
    exact hH ho hcf k ((hmem k).mp hk) k' ((hmem k').mp hk')
  · intro ho hp k hk
    refine hE ho ?_ k ((hmem k).mp hk)
    rcases hp with hp | hp
    · exact Or.inl hp
    · exact Or.inr ((hmem []).mp hp)

theorem nodeConds_subset (o b : Nat) (c : Bool) (ks ks' : List (List Nat))
    (hsub : ∀ k, k ∈ ks' → k ∈ ks) (h : nodeConds o b c ks) : nodeConds o b c ks' := by
  obtain ⟨hb, hc, hW, hH, hE⟩ := h
  refine ⟨hb, hc, ?_, ?_, ?_⟩
  · intro ho k hk
    have := hW ho k (hsub k hk)
    exact ⟨this.1, fun k' hk' => this.2 k' (hsub k' hk')⟩
  · intro ho hcf k hk k' hk'
    exact hH ho hcf k (hsub k hk) k' (hsub k' hk')
  · intro ho hp k hk
    refine hE ho ?_ k (hsub k hk)
    rcases hp with hp | hp
    · exact Or.inl hp
    · exact Or.inr (hsub [] hp)

/-- The conditions of the new node: its keys are the new key and the keys of
the slot it is grafted into. -/
theorem nodeConds_new (L key : List Nat) (o b : Nat) (c : Bool) (ks : List (List Nat))
    (hF : firstFacts L key o b c) (hS : slotFacts ks L o b) (hL : L ∈ ks) :
    nodeConds o b c (key :: ks) := by
  obtain ⟨hbit, hcb, hF1, hFlen, hF0, hFc⟩ := hF
  obtain ⟨hS1, hS4, hS3⟩ := hS
  refine ⟨hbit, hcb, ?_, ?_, ?_⟩
  · intro ho
    obtain ⟨hLne, hkne, hfb⟩ := hF1 ho
    have hall : ∀ k ∈ key :: ks, k ≠ [] ∧ firstByte k = firstByte L := by
      intro k hk
      rcases List.mem_cons.mp hk with rfl | hk
      · exact ⟨hkne, hfb.symm⟩
      · exact hS1 ho k hk
    intro k hk
    exact ⟨(hall k hk).1, fun k' hk' => by rw [(hall k hk).2, (hall k' hk').2]⟩
  · intro ho hc
    obtain ⟨j, hj, hb, hne, hag⟩ := hF0 ho hc
    have hLne : L ≠ [] := ne_nil_of_length_pos L (by have := (hFlen hc).1; omega)
    have hall : ∀ k ∈ key :: ks, k ≠ [] → agreeAbove b (firstByte k) (firstByte L) := by
      intro k hk hkne
      rcases List.mem_cons.mp hk with rfl | hk
      · exact agreeAbove_symm _ _ _ hag
      · exact hS4 ho hLne k hk hkne
    intro k hk k' hk' hkne hkne'
    exact agreeAbove_trans _ _ _ _ (hall k hk hkne) (agreeAbove_symm _ _ _ (hall k' hk' hkne'))
  · intro ho hp k hk hkne
    subst ho
    by_cases hc : c = true
    · rcases hFc hc with ⟨hlen, hklen, hz⟩ | ⟨hlen, hLlen, hz⟩
      · have hLnil : L = [] := List.length_eq_zero.mp hlen
        rcases List.mem_cons.mp hk with rfl | hk
        · exact hz
        · obtain ⟨b', hb', hlt, hz'⟩ := hS3 rfl (hLnil ▸ hL) k hk hkne
          exact zeroAbove_mono b' b _ hb' hbit (le_of_lt hlt) hz'
      · have hknil : key = [] := List.length_eq_zero.mp hlen
        have hLne : L ≠ [] := ne_nil_of_length_pos L hLlen
        rcases List.mem_cons.mp hk with rfl | hk
        · exact absurd hknil hkne
        · exact zeroAbove_of_agreeAbove _ _ _
            (agreeAbove_symm _ _ _ (hS4 rfl hLne k hk hkne)) hz
    · have hcf : c = false := by simpa using hc
      have hkeyne : key ≠ [] := ne_nil_of_length_pos key (by have := (hFlen hcf).2; omega)
      have hLne : L ≠ [] := ne_nil_of_length_pos L (by have := (hFlen hcf).1; omega)
      have hnil : [] ∈ ks := by
        rcases hp with hp | hp
        · exact absurd hp hc
        · rcases List.mem_cons.mp hp with h | h
          · exact absurd h.symm hkeyne
          · exact h
      have hzs : ∀ k ∈ ks, k ≠ [] → zeroAbove b (firstByte k) := by
        intro k hk hkne
        obtain ⟨b', hb', hlt, hz'⟩ := hS3 rfl hnil k hk hkne
        exact zeroAbove_mono b' b _ hb' hbit (le_of_lt hlt) hz'
      rcases List.mem_cons.mp hk with rfl | hk
      · obtain ⟨j, hj, hb, hne, hag⟩ := hF0 rfl hcf
        exact zeroAbove_of_agreeAbove _ _ _ hag (hzs L hL hLne)
      · exact hzs k hk hkne

/-- The conditions of a node the graft loop descends past, with the new key
added to its keys. -/
theorem nodeConds_insert (L key : List Nat) (o b : Nat) (c : Bool) (o' b' : Nat) (c' : Bool)
    (ks : List (List Nat)) (hF : firstFacts L key o b c) (hX : nodeConds o' b' c' ks)
    (hL : L ∈ ks) (hcmp : ¬ (o' > o ∨ (o' = o ∧ b' < b))) :
    nodeConds o' b' c' (key :: ks) := by
  obtain ⟨hbit, hcb, hF1, hFlen, hF0, hFc⟩ := hF
  obtain ⟨hb', hc', hW, hH, hE⟩ := hX
  have hoo : o' ≤ o := by omega
  have hbb : o' = o → b ≤ b' := by omega
  -- what the new key shares with `L` at a node with offset 0
  have hkeyL : o' = 0 → key ≠ [] → L ≠ [] → agreeAbove b' (firstByte key) (firstByte L) := by
    intro ho' hkne hLne
    by_cases ho : 1 ≤ o
    · rw [(hF1 ho).2.2]
      exact fun i _ => rfl
    · have ho0 : o = 0 := by omega
      by_cases hc : c = true
      · rcases hFc hc with ⟨hlen, _⟩ | ⟨hlen, _⟩
        · exact absurd (List.length_eq_zero.mp (by omega)) hLne
        · exact absurd (List.length_eq_zero.mp (by omega)) hkne
      · have hcf : c = false := by simpa using hc
        obtain ⟨j, hj, hb, hne, hag⟩ := hF0 ho0 hcf
        exact agreeAbove_mono b b' _ _ hbit hb' (hbb (by omega))
          (agreeAbove_symm _ _ _ hag)
  have hkeyZ : o' = 0 → key ≠ [] → L = [] → zeroAbove b' (firstByte key) := by
    intro ho' hkne hLnil
    have ho0 : o = 0 := by
      by_contra ho
      exact (hF1 (by omega)).1 hLnil
    have hc : c = true := by
      by_contra hc
      have := (hFlen (by simpa using hc)).1
      rw [hLnil] at this
      simp at this
    rcases hFc hc with ⟨_, _, hz⟩ | ⟨hlen, _⟩
    · rw [ho0] at hz
      exact zeroAbove_mono b b' _ hbit hb' (hbb (by omega)) hz
    · exact absurd (List.length_eq_zero.mp (by omega)) hkne
  refine ⟨hb', hc', ?_, ?_, ?_⟩
  · intro ho'
    obtain ⟨hLne, hkne, hfb⟩ := hF1 (by omega)
    have hall : ∀ k ∈ key :: ks, k ≠ [] ∧ firstByte k = firstByte L := by
      intro k hk
      rcases List.mem_cons.mp hk with rfl | hk
      · exact ⟨hkne, hfb.symm⟩
      · exact ⟨(hW ho' k hk).1, (hW ho' k hk).2 L hL⟩
    intro k hk
    exact ⟨(hall k hk).1, fun k' hk' => by rw [(hall k hk).2, (hall k' hk').2]⟩
  · intro ho' hcf'
    -- every non-empty key agrees with every old non-empty key above `b'`
    have hnew : ∀ k ∈ ks, k ≠ [] → key ≠ [] → agreeAbove b' (firstByte key) (firstByte k) := by
      intro k hk hkne hkeyne
      by_cases hLnil : L = []
      · have hz := hkeyZ ho' hkeyne hLnil
        have hzk := hE ho' (Or.inr (hLnil ▸ hL)) k hk hkne
        exact agreeAbove_of_zeroAbove _ _ _ hz hzk
      · exact agreeAbove_trans _ _ _ _ (hkeyL ho' hkeyne hLnil) (hH ho' hcf' L hL k hk hLnil hkne)
    intro k hk k' hk' hkne hkne'
    rcases List.mem_cons.mp hk with e1 | m1
    · rcases List.mem_cons.mp hk' with e2 | m2
      · rw [e1, e2]; exact fun i _ => rfl
      · rw [e1]; exact hnew k' m2 hkne' (e1 ▸ hkne)
    · rcases List.mem_cons.mp hk' with e2 | m2
      · rw [e2]; exact agreeAbove_symm _ _ _ (hnew k m1 hkne (e2 ▸ hkne'))
      · exact hH ho' hcf' k m1 k' m2 hkne hkne'
  · intro ho' hp k hk hkne
    by_cases hold : c' = true ∨ [] ∈ ks
    · rcases List.mem_cons.mp hk with rfl | hk
      · by_cases hLnil : L = []
        · exact hkeyZ ho' hkne hLnil
        · exact zeroAbove_of_agreeAbove _ _ _
            (agreeAbove_symm _ _ _ (hkeyL ho' hkne hLnil)) (hE ho' hold L hL hLnil)
      · exact hE ho' hold k hk hkne
    · have hcf' : c' = false := by
        by_contra h
        exact hold (Or.inl (by simpa using h))
      have hnil : [] ∉ ks := fun h => hold (Or.inr h)
      have hknil : key = [] := by
        rcases hp with hp | hp
        · rw [hcf'] at hp; exact absurd hp (by simp)
        · rcases List.mem_cons.mp hp with h | h
          · exact h.symm
          · exact absurd h hnil
      have hLne : L ≠ [] := fun h => hnil (h ▸ hL)
      have ho0 : o = 0 := by
        by_contra ho
        exact (hF1 (by omega)).2.1 hknil
      have hc : c = true := by
        by_contra hc
        have := (hFlen (by simpa using hc)).2
        rw [hknil] at this
        simp at this
      have hzL : zeroAbove b' (firstByte L) := by
        rcases hFc hc with ⟨hlen, _⟩ | ⟨_, _, hz⟩
        · exact absurd (List.length_eq_zero.mp (by omega)) hLne
        · rw [ho0] at hz
          exact zeroAbove_mono b b' _ hbit hb' (hbb (by omega)) hz
      rcases List.mem_cons.mp hk with rfl | hk
      · exact absurd hknil hkne
      · exact zeroAbove_of_agreeAbove _ _ _ (hH ho' hcf' L hL k hk hLne hkne) hzL

namespace node

variable {V : Type}

theorem emptyInv_keys_bytes (n : node V) (h : n.emptyInv) : ∀ k ∈ n.keys, isBytes k := by
  induction n with
  | external k v =>
      intro k' hk'
      simp only [keys_external, List.mem_singleton] at hk'
      rw [hk']; exact h
  | internal c0 c1 o b c ih0 ih1 =>
      intro k hk
      simp only [emptyInv] at h
      rw [keys_internal, List.mem_append] at hk
      rcases hk with hk | hk
      · exact ih0 h.2.2.1 k hk
      · exact ih1 h.2.2.2 k hk

/-- The empty key, when stored, is the key of the leaf its search stops at. -/
theorem search_nil_of_mem (n : node V) (h : n.emptyInv) (hm : [] ∈ n.keys) :
    (n.search []).1 = [] := by
  induction n with
  | external k v =>
      simp only [keys_external, List.mem_singleton] at hm
      simp [search, ← hm]
  | internal c0 c1 o b c ih0 ih1 =>
      simp only [emptyInv] at h
      rw [keys_internal, List.mem_append] at hm
      simp only [search, direction_nil, Bool.false_eq_true, if_false]
      rcases hm with hm | hm
      · exact ih0 h.2.2.1 hm
      · exact absurd hm h.2.1

end node

theorem slotFacts_leaf (L key : List Nat) (o b : Nat) (c : Bool)
    (hF : firstFacts L key o b c) : slotFacts [L] L o b := by
  refine ⟨?_, ?_, ?_⟩
  · intro ho k hk
    simp only [List.mem_singleton] at hk
    rw [hk]
    exact ⟨(hF.2.2.1 ho).1, rfl⟩
  · intro _ _ k hk _
    simp only [List.mem_singleton] at hk
    rw [hk]
    exact fun i _ => rfl
  · intro _ hnil k hk hkne
    simp only [List.mem_singleton] at hk hnil
    rw [hk, ← hnil] at hkne
    exact absurd rfl hkne

theorem slotFacts_internal (L : List Nat) (o b o' b' : Nat) (c' : Bool)
    (ks : List (List Nat)) (hX : nodeConds o' b' c' ks) (hL : L ∈ ks) (hbit : isBit b)
    (hcmp : o' > o ∨ (o' = o ∧ b' < b)) : slotFacts ks L o b := by
  obtain ⟨hb', hc', hW, hH, hE⟩ := hX
  refine ⟨?_, ?_, ?_⟩
  · intro ho k hk
    have := hW (by omega) k hk
    exact ⟨this.1, this.2 L hL⟩
  · intro ho hLne k hk hkne
    by_cases ho' : 1 ≤ o'
    · rw [(hW ho' k hk).2 L hL]
      exact fun i _ => rfl
    · have ho0 : o' = 0 := by omega
      have hlt : b' ≤ b := by omega
      by_cases hc : c' = true
      · exact agreeAbove_mono b' b _ _ hb' hbit hlt
          (agreeAbove_of_zeroAbove _ _ _ (hE ho0 (Or.inl hc) k hk hkne)
            (hE ho0 (Or.inl hc) L hL hLne))
      · exact agreeAbove_mono b' b _ _ hb' hbit hlt
          (hH ho0 (by simpa using hc) k hk L hL hkne hLne)
  · intro ho hnil k hk hkne
    by_cases ho' : 1 ≤ o'
    · exact absurd rfl (hW ho' [] hnil).1
    · have ho0 : o' = 0 := by omega
      exact ⟨b', hb', by omega, hE ho0 (Or.inr hnil) k hk hkne⟩

namespace node

variable {V : Type}

theorem emptyInv_newNode (key : List Nat) (value : Option V) (o b : Nat) (c : Bool)
    (S : node V) (hS : S.emptyInv) (hkey : isBytes key)
    (hF : firstFacts (S.search key).1 key o b c)
    (hSF : slotFacts S.keys (S.search key).1 o b) :
    (newNode key value o b c S).emptyInv := by
  have hL := search_fst_mem_keys S key
  have hconds := nodeConds_new _ key o b c S.keys hF hSF hL
  obtain ⟨hbit, hcb, hF1, hFlen, hF0, hFc⟩ := hF
  obtain ⟨hS1, hS4, hS3⟩ := hSF
  unfold newNode
  by_cases hd : direction o b c key = true
  · rw [if_pos hd]
    simp only [emptyInv, keys_external]
    refine ⟨nodeConds_congr _ _ _ _ _ (fun k => by simp [or_comm]) hconds, ?_, hS, hkey⟩
    simp only [List.mem_singleton]
    intro e
    have := direction_lt_length o b c key hd
    rw [← e] at this
    simp at this
  · rw [if_neg hd]
    rw [Bool.not_eq_true] at hd
    simp only [emptyInv, keys_external]
    refine ⟨nodeConds_congr _ _ _ _ _ (fun k => by simp) hconds, ?_, hkey, hS⟩
    intro hnil
    by_cases hknil : key = []
    · have hLnil : (S.search key).1 = [] := by
        rw [hknil]; exact search_nil_of_mem S hS hnil
      by_cases hc : c = true
      · rcases hFc hc with ⟨_, h2, _⟩ | ⟨h1, h2, _⟩
        · rw [hknil] at h2; simp at h2
        · rw [hLnil] at h2; simp at h2
      · have := (hFlen (by simpa using hc)).2
        rw [hknil] at this
        simp at this
    · by_cases ho : 1 ≤ o
      · exact (hS1 ho [] hnil).1 rfl
      · have ho0 : o = 0 := by omega
        subst ho0
        by_cases hc : c = true
        · rcases hFc hc with ⟨_, h2, _⟩ | ⟨h1, _, _⟩
          · subst hc
            simp [direction, h2] at hd
          · exact hknil (List.length_eq_zero.mp h1)
        · have hcf : c = false := by simpa using hc
          subst hcf
          obtain ⟨j, hj, hb, hne, hag⟩ := hF0 rfl rfl
          subst hb
          rw [direction_plain_zero j hj key hknil] at hd
          have hLne : (S.search key).1 ≠ [] :=
            ne_nil_of_length_pos _ (by have := (hFlen rfl).1; omega)
          obtain ⟨b', hb', hlt, hz⟩ := hS3 rfl hnil _ hL hLne
          have := hz j (lowBits_le_of_lt_two_pow b' j hb' hlt)
          rw [this, hd] at hne
          exact hne rfl

theorem emptyInv_graft (key : List Nat) (value : Option V) (o b : Nat) (c : Bool)
    (hkey : isBytes key) (n : node V) (hn : n.emptyInv)
    (hF : firstFacts (n.search key).1 key o b c) :
    (graft key value o b c n).emptyInv := by
  induction n with
  | external k v =>
      simp only [graft]
      apply emptyInv_newNode key value o b c _ hn hkey hF
      simp only [search, keys_external] at hF ⊢
      exact slotFacts_leaf k key o b c hF
  | internal c0 c1 o' b' c' ih0 ih1 =>
      have hn' := hn
      simp only [emptyInv] at hn
      obtain ⟨hX, hJ, hi0, hi1⟩ := hn
      have hL := search_fst_mem_keys (internal c0 c1 o' b' c') key
      simp only [graft]
      by_cases hcmp : o' > o ∨ (o' = o ∧ b' < b)
      · rw [if_pos hcmp]
        apply emptyInv_newNode key value o b c _ hn' hkey hF
        rw [keys_internal] at hL ⊢
        exact slotFacts_internal _ o b o' b' c' _ hX hL hF.1 hcmp
      · rw [if_neg hcmp]
        rw [keys_internal] at hL
        have hconds := nodeConds_insert _ key o b c o' b' c' _ hF hX hL hcmp
        by_cases hd : direction o' b' c' key = true
        · rw [if_pos hd]
          simp only [search, hd, if_true] at hF
          simp only [emptyInv]
          refine ⟨nodeConds_congr _ _ _ _ _ (fun k => ?_) hconds, ?_, hi0, ih1 hi1 hF⟩
          · simp only [List.mem_append, mem_keys_graft, List.mem_cons]
            tauto
          · rw [mem_keys_graft]
            intro h
            rcases h with h | h
            · have := direction_lt_length o' b' c' key hd
              rw [← h] at this
              simp at this
            · exact hJ h
        · rw [if_neg hd]
          rw [Bool.not_eq_true] at hd
          simp only [search, hd, Bool.false_eq_true, if_false] at hF
          simp only [emptyInv]
          refine ⟨nodeConds_congr _ _ _ _ _ (fun k => ?_) hconds, hJ, ih0 hi0 hF, hi1⟩
          simp only [List.mem_append, mem_keys_graft, List.mem_cons]
          tauto

theorem emptyInv_setValue (key : List Nat) (value : Option V) (n : node V)
    (hn : n.emptyInv) : (setValue key value n).emptyInv := by
  induction n with
  | external k v => simpa [setValue, emptyInv] using hn
  | internal c0 c1 o b c ih0 ih1 =>
      simp only [emptyInv] at hn
      obtain ⟨hX, hJ, hi0, hi1⟩ := hn
      by_cases hd : direction o b c key = true
      · simp only [setValue, hd, if_true, emptyInv, keys_setValue]
        exact ⟨hX, hJ, hi0, ih1 hi1⟩
      · rw [Bool.not_eq_true] at hd
        simp only [setValue, hd, Bool.false_eq_true, if_false, emptyInv, keys_setValue]
        exact ⟨hX, hJ, ih0 hi0, hi1⟩

theorem emptyInv_remove (key : List Nat) (n n' : node V) (v : Option V)
    (hn : n.emptyInv) (h : n.remove key = some (some n', v)) : n'.emptyInv := by
  induction n generalizing n' v with
  | external k w =>
      by_cases hk : k = key <;> simp [remove, hk] at h
  | internal c0 c1 o b c ih0 ih1 =>
      simp only [emptyInv] at hn
      obtain ⟨hX, hJ, hi0, hi1⟩ := hn
      by_cases hd : direction o b c key = true
      · simp only [remove, hd, if_true] at h
        cases hr : c1.remove key with
        | none => simp [hr] at h
        | some p =>
            obtain ⟨r1, v1⟩ := p
            cases r1 with
            | none =>
                simp [hr] at h
                rw [← h.1]; exact hi0
            | some c1' =>
                simp [hr] at h
                rw [← h.1]
                have hsub := keys_subset_of_remove c1 c1' key v1 hr
                simp only [emptyInv]
                refine ⟨nodeConds_subset _ _ _ _ _ (fun k hk => ?_) hX,
                  fun hm => hJ (hsub [] hm), hi0, ih1 c1' v1 hi1 hr⟩
                rw [List.mem_append] at hk ⊢
                exact hk.imp id (hsub k)
      · rw [Bool.not_eq_true] at hd
        simp only [remove, hd, Bool.false_eq_true, if_false] at h
        cases hr : c0.remove key with
        | none => simp [hr] at h
        | some p =>
            obtain ⟨r0, v0⟩ := p
            cases r0 with
            | none =>
                simp [hr] at h
                rw [← h.1]; exact hi1
            | some c0' =>
                simp [hr] at h
                rw [← h.1]
                have hsub := keys_subset_of_remove c0 c0' key v0 hr
                simp only [emptyInv]
                refine ⟨nodeConds_subset _ _ _ _ _ (fun k hk => ?_) hX, hJ,
                  ih0 c0' v0 hi0 hr, hi1⟩
                rw [List.mem_append] at hk ⊢
                exact hk.imp (hsub k) id

theorem seekSuffix_nil (n : node V) :
    node.seekSuffix [] n = if (n.search []).1 = [] then some n.leaves else none := by
  induction n with
  | external k v =>
      by_cases h : k = []
      · simp [seekSuffix, search, leaves, h]
      · simp [seekSuffix, search, h]
  | internal c0 c1 o b c ih0 ih1 =>
      simp only [seekSuffix, search, direction_nil, Bool.false_eq_true, if_false, ih0, leaves]
      by_cases h : (c0.search []).1 = []
      · simp [h]
      · simp [h]

end node

/-- After every run of operations on byte keys the root slot satisfies the
invariant that keeps the empty key on its search path. -/
theorem run_emptyInv {V : Type} (ops : List (Op V)) (hops : ∀ op ∈ ops, opKey isBytes op)
    (t : critBitTree V) (ht : run ops = some t) (r : node V) (hr : t.root = some r) :
    r.emptyInv :=
  run_root_inv (fun n => n.emptyInv) isBytes
    (fun _ _ hk => hk)
    (fun n k v o b c hk hn hc => node.emptyInv_graft k v o b c hk n hn
      (criticalBit_firstFacts _ k o b c
        (node.emptyInv_keys_bytes n hn _ (node.search_fst_mem_keys n k)) hk hc))
    (fun n k v hn => node.emptyInv_setValue k v n hn)
    (fun n n' k v hn hm => node.emptyInv_remove k n n' v hn hm)
    ops hops newTree t (fun r hr => by simp [newTree] at hr) ht r hr

/-- C18: on every non-empty tree reached by operations on byte keys, the walk
with a nil start key applies the visitor to every leaf in walk order; the walk
with the empty but non-nil start key seeks the leaf of the empty key: when the
empty key is stored that leaf is the first leaf and the walk applies the
visitor to all leaves in order, exactly as with a nil start key; when it is not
stored the walk returns false without invoking the visitor. -/
theorem walk_empty_start {V σ : Type} (ops : List (Op V))
    (hops : ∀ op ∈ ops, opKey isBytes op) (t : critBitTree V) (ht : run ops = some t)
    (r : node V) (hr : t.root = some r)
    (handle : σ → List Nat → Option V → Bool × σ) (s : σ) :
    t.walk none handle s = some (visit handle s r.leaves) ∧
    ([] ∈ t.keys →
      (∃ v rest, r.leaves = ([], v) :: rest) ∧
      t.walk (some []) handle s = some (visit handle s r.leaves)) ∧
    ([] ∉ t.keys → t.walk (some []) handle s = some (false, s)) := by
  have hw := reachable_wf t ⟨ops, ht⟩
  have h0 : t.items ≠ 0 := by
    intro h0
    have := critBitTree.root_eq_none_of_items_zero t hw h0
    rw [hr] at this
    exact absurd this (by simp)
  have hinv := run_emptyInv ops hops t ht r hr
  have hkeys : t.keys = r.keys := by
    simp [critBitTree.keys, critBitTree.leaves, hr, node.slotLeaves, node.keys]
  refine ⟨?_, ?_, ?_⟩
  · rw [walk_eq_visit t r hr h0]
    simp [node.applicable, walkSpec]
  · intro hm
    rw [hkeys] at hm
    have hs := node.search_nil_of_mem r hinv hm
    have hsuf : node.seekSuffix [] r = some r.leaves := by
      rw [node.seekSuffix_nil, if_pos hs]
    constructor
    · obtain ⟨_, pre, rest, h1, h2⟩ := seekSuffix_some [] r r.leaves hsuf
      refine ⟨(r.search []).2, rest, ?_⟩
      rw [h1]
      congr 1
      exact Prod.ext hs rfl
    · rw [walk_eq_visit t r hr h0]
      simp [node.applicable, hsuf, walkSpec]
  · intro hm
    exact walk_seek_fails t r hr h0 [] (search_ne_of_not_mem t r hr [] hm) handle s

theorem walk_empty_start_witness :
    (∀ op ∈ lostKeyOps, opKey isBytes op) ∧ run lostKeyOps = some lostKeyTree ∧
    lostKeyTree.walk none recordAll [] =
      some (visit recordAll []
        (node.internal
          (node.internal (node.external [97] (some 2)) (node.external [97, 1] (some 1))
            1 1 false)
          (node.external [97, 2] (some 3)) 1 2 true).leaves) ∧
    ([] ∉ lostKeyTree.keys → lostKeyTree.walk (some []) recordAll [] = some (false, [])) :=
  ⟨by decide, by decide,
   (walk_empty_start lostKeyOps (by decide) lostKeyTree (by decide) _ rfl recordAll []).1,
   (walk_empty_start lostKeyOps (by decide) lostKeyTree (by decide) _ rfl recordAll []).2.2⟩


/-! ## Insert followed by delete -/

namespace node

variable {V : Type}

theorem remove_newNode (key : List Nat) (value : Option V) (o b : Nat) (c : Bool)
    (old : node V) : (newNode key value o b c old).remove key = some (some old, value) := by
  by_cases h : direction o b c key = true
  · simp [newNode, remove, h]
  · simp [newNode, remove, h]

theorem remove_graft (key : List Nat) (value : Option V) (o b : Nat) (c : Bool)
    (n : node V) : (graft key value o b c n).remove key = some (some n, value) := by
  induction n with
  | external k v => simp [graft, remove_newNode]
  | internal c0 c1 o' b' c' ih0 ih1 =>
      by_cases h : o' > o ∨ (o' = o ∧ b' < b)
      · simp [graft, h, remove_newNode]
      · by_cases hd : direction o' b' c' key = true
        · simp [graft, h, hd, remove, ih1]
        · simp [graft, h, hd, remove, ih0]

end node

/-- C21: for every tree `t` reached from the empty tree by insert, set, delete
and clear, and every key `k` that is not stored in `t` (no leaf of `t` holds
`k`, or `contains k` is false), `insert k v` returns true and the following
`delete k` returns `(v, true)` and a tree equal to `t`: the same root slot,
hence the same internal nodes, leaves and values, and the same `items`. -/
theorem insert_then_delete {V : Type} (t : critBitTree V) (ht : reachable t)
    (k : List Nat) (v : Option V) (hk : k ∉ t.keys ∨ t.contains k = false) :
    ∃ t', t.insert k v = some (t', true) ∧ t'.delete k = some (t, v, true) := by
  have hw := reachable_wf t ht
  by_cases h0 : t.items = 0
  · have hr := critBitTree.root_eq_none_of_items_zero t hw h0
    refine ⟨{ root := some (node.external k v), items := 1 }, ?_, ?_⟩
    · simp [critBitTree.insert, critBitTree.insertHelper, h0, hr]
    · have e : t = { root := none, items := 0 } := by
        cases t with
        | mk root items =>
            simp only at hr h0
            rw [hr, h0]
      simp [critBitTree.delete, node.remove, e]
  · obtain ⟨r, hr⟩ := critBitTree.root_ne_none_of_items_ne_zero t hw h0
    have hmem : (r.search k).1 ∈ t.keys := by
      have := node.search_fst_mem_keys r k
      simpa [critBitTree.keys, critBitTree.leaves, hr, node.slotLeaves, node.keys] using this
    have hne : (r.search k).1 ≠ k := by
      rcases hk with hk | hk
      · exact fun e => hk (e ▸ hmem)
      · simpa [critBitTree.contains, critBitTree.search, hr] using hk
    cases hc : criticalBit (r.search k).1 k with
    | none => exact absurd ((criticalBit_eq_none_iff _ _).mp hc) hne
    | some p =>
        obtain ⟨o, b, c⟩ := p
        refine ⟨{ root := some (r.graft k v o b c), items := t.items + 1 }, ?_, ?_⟩
        · simp [critBitTree.insert, critBitTree.insertHelper, h0, hr, hc]
        · have hpos : t.items + 1 ≠ 0 := by
            have : t.items = (t.leaves.length : Int) := hw
            omega
          have e : t = { root := some r, items := t.items } := by
            cases t with
            | mk root items =>
                simp only at hr
                rw [hr]
          simp only [critBitTree.delete, hpos, if_false, node.remove_graft]
          rw [e]
          simp

theorem insert_then_delete_witness :
    reachable lostKeyTree ∧
    ([97, 3] ∉ lostKeyTree.keys ∨ lostKeyTree.contains [97, 3] = false) ∧
    ∃ t', lostKeyTree.insert [97, 3] (some 7) = some (t', true) ∧
      t'.delete [97, 3] = some (lostKeyTree, some 7, true) :=
  ⟨⟨lostKeyOps, by decide⟩, Or.inl (by decide),
    insert_then_delete lostKeyTree ⟨lostKeyOps, by decide⟩ [97, 3] (some 7)
      (Or.inl (by decide))⟩

/-! ## The crit-bit invariant for keys of one length -/

namespace node

variable {V : Type}

theorem fixedInv_keys (L : Nat) (n : node V) (h : n.fixedInv L) :
    ∀ k ∈ n.keys, fixedKey L k := by
  induction n with
  | external k v =>
      intro k' hk'
      simp only [keys_external, List.mem_singleton] at hk'
      subst hk'
      exact h
  | internal c0 c1 o b c ih0 ih1 =>
      intro k' hk'
      simp only [fixedInv] at h
      rw [keys_internal, List.mem_append] at hk'
      rcases hk' with hk' | hk'
      · exact ih0 h.2.2.2.2.2.2.1 k' hk'
      · exact ih1 h.2.2.2.2.2.2.2 k' hk'

theorem newNode_fixedInv (L : Nat) (key : List Nat) (value : Option V) (o j : Nat)
    (hj : j < 8) (hkey : fixedKey L key) (ho : o < L) (old : node V) (hold : old.fixedInv L)
    (hne : ∀ k ∈ old.keys, keyBit k (pos o (2 ^ j)) ≠ keyBit key (pos o (2 ^ j)))
    (hag : ∀ k ∈ old.keys, ∀ q, q < pos o (2 ^ j) → keyBit k q = keyBit key q) :
    (newNode key value o (2 ^ j) false old).fixedInv L := by
  have hdir : direction o (2 ^ j) false key = keyBit key (pos o (2 ^ j)) :=
    direction_eq_keyBit key o j hj (by rw [hkey.1]; exact ho)
  have hall : ∀ k ∈ old.keys ++ [key], ∀ q, q < pos o (2 ^ j) → keyBit k q = keyBit key q := by
    intro k hk q hq
    rw [List.mem_append] at hk
    rcases hk with hk | hk
    · exact hag k hk q hq
    · simp only [List.mem_singleton] at hk; rw [hk]
  unfold newNode
  rw [hdir]
  by_cases hb : keyBit key (pos o (2 ^ j)) = true
  · rw [if_pos hb]
    simp only [fixedInv, keys_external]
    refine ⟨trivial, ho, ⟨j, hj, rfl⟩, ?_, ?_, ?_, hold, hkey⟩
    · intro k hk
      have := hne k hk
      rw [hb] at this
      simpa using this
    · intro k hk
      simp only [List.mem_singleton] at hk
      rw [hk]; exact hb
    · intro k hk k' hk' q hq
      rw [hall k hk q hq, hall k' hk' q hq]
  · rw [if_neg hb]
    have hb' : keyBit key (pos o (2 ^ j)) = false := by simpa using hb
    simp only [fixedInv, keys_external]
    refine ⟨trivial, ho, ⟨j, hj, rfl⟩, ?_, ?_, ?_, hkey, hold⟩
    · intro k hk
      simp only [List.mem_singleton] at hk
      rw [hk]; exact hb'
    · intro k hk
      have := hne k hk
      rw [hb'] at this
      simpa using this
    · intro k hk k' hk' q hq
      have hk2 : k ∈ old.keys ++ [key] := by
        simp only [List.mem_append, List.mem_singleton] at hk ⊢; tauto
      have hk2' : k' ∈ old.keys ++ [key] := by
        simp only [List.mem_append, List.mem_singleton] at hk' ⊢; tauto
      rw [hall k hk2 q hq, hall k' hk2' q hq]

theorem graft_fixedInv (L : Nat) (key : List Nat) (value : Option V) (o j : Nat)
    (hj : j < 8) (hkey : fixedKey L key) (ho : o < L) (n : node V) (hn : n.fixedInv L)
    (hne : keyBit (n.search key).1 (pos o (2 ^ j)) ≠ keyBit key (pos o (2 ^ j)))
    (hag : ∀ q, q < pos o (2 ^ j) → keyBit (n.search key).1 q = keyBit key q) :
    (graft key value o (2 ^ j) false n).fixedInv L := by
  induction n with
  | external k v =>
      simp only [graft]
      simp only [search] at hne hag
      apply newNode_fixedInv L key value o j hj hkey ho _ hn
      · intro k' hk'
        simp only [keys_external, List.mem_singleton] at hk'
        rw [hk']; exact hne
      · intro k' hk' q hq
        simp only [keys_external, List.mem_singleton] at hk'
        rw [hk']; exact hag q hq
  | internal c0 c1 o' b' c' ih0 ih1 =>
      have hn' := hn
      simp only [fixedInv] at hn
      obtain ⟨hc, ho', ⟨j', hj', hb'⟩, h0, h1, hagree, hi0, hi1⟩ := hn
      subst hc
      subst hb'
      have hK := search_fst_mem_keys (internal c0 c1 o' (2 ^ j') false) key
      rw [keys_internal] at hK
      simp only [graft]
      by_cases hcmp : o' > o ∨ (o' = o ∧ 2 ^ j' < 2 ^ j)
      · rw [if_pos hcmp]
        have hlt : pos o (2 ^ j) < pos o' (2 ^ j') := (pos_lt_pos_iff o o' j j' hj hj').mp hcmp
        apply newNode_fixedInv L key value o j hj hkey ho _ hn'
        · intro k hk
          rw [keys_internal] at hk
          rw [hagree k hk _ hK _ hlt]
          exact hne
        · intro k hk q hq
          rw [keys_internal] at hk
          rw [hagree k hk _ hK q (by omega)]
          exact hag q hq
      · rw [if_neg hcmp]
        have hle : pos o' (2 ^ j') ≤ pos o (2 ^ j) := by
          have := mt (pos_lt_pos_iff o o' j j' hj hj').mpr hcmp
          omega
        have hdir : direction o' (2 ^ j') false key = keyBit key (pos o' (2 ^ j')) :=
          direction_eq_keyBit key o' j' hj' (by rw [hkey.1]; exact ho')
        have hkeyag : ∀ k ∈ c0.keys ++ c1.keys, ∀ q, q < pos o' (2 ^ j') →
            keyBit k q = keyBit key q := by
          intro k hk q hq
          rw [hagree k hk _ hK q hq]
          exact hag q (by omega)
        by_cases hd : direction o' (2 ^ j') false key = true
        · simp only [search, hd, if_true] at hne hag
          rw [if_pos hd]
          simp only [fixedInv]
          refine ⟨trivial, ho', ⟨j', hj', rfl⟩, h0, ?_, ?_, hi0, ih1 hi1 hne hag⟩
          · intro k hk
            rw [mem_keys_graft] at hk
            rcases hk with hk | hk
            · rw [hk, ← hdir]; exact hd
            · exact h1 k hk
          · intro k hk k' hk' q hq
            have e : ∀ k, k ∈ c0.keys ++ (graft key value o (2 ^ j) false c1).keys →
                keyBit k q = keyBit key q := by
              intro k hk
              rw [List.mem_append, mem_keys_graft] at hk
              rcases hk with hk | hk | hk
              · exact hkeyag k (List.mem_append.mpr (Or.inl hk)) q hq
              · rw [hk]
              · exact hkeyag k (List.mem_append.mpr (Or.inr hk)) q hq
            rw [e k hk, e k' hk']
        · rw [Bool.not_eq_true] at hd
          simp only [search, hd, Bool.false_eq_true, if_false] at hne hag
          rw [if_neg (by simp [hd])]
          simp only [fixedInv]
          refine ⟨trivial, ho', ⟨j', hj', rfl⟩, ?_, h1, ?_, ih0 hi0 hne hag, hi1⟩
          · intro k hk
            rw [mem_keys_graft] at hk
            rcases hk with hk | hk
            · rw [hk, ← hdir]; exact hd
            · exact h0 k hk
          · intro k hk k' hk' q hq
            have e : ∀ k, k ∈ (graft key value o (2 ^ j) false c0).keys ++ c1.keys →
                keyBit k q = keyBit key q := by
              intro k hk
              rw [List.mem_append, mem_keys_graft] at hk
              rcases hk with (hk | hk) | hk
              · rw [hk]
              · exact hkeyag k (List.mem_append.mpr (Or.inl hk)) q hq
              · exact hkeyag k (List.mem_append.mpr (Or.inr hk)) q hq
            rw [e k hk, e k' hk']

end node

/-! ## Inserting keys of one length into the empty tree -/

theorem critBitTree.insert_fixed {V : Type} (L : Nat) (t : critBitTree V) (hw : t.wf)
    (hinv : ∀ r, t.root = some r → r.fixedInv L) (k : List Nat) (v : Option V)
    (hk : fixedKey L k) (hnot : k ∉ t.keys) :
    ∃ t', t.insert k v = some (t', true) ∧ t'.wf ∧ (∀ r, t'.root = some r → r.fixedInv L) ∧
      t'.leaves.Perm ((k, v) :: t.leaves) := by
  obtain ⟨t', b, he, hw'⟩ := critBitTree.insertHelper_wf t hw k v false
  by_cases h0 : t.items = 0
  · have hr := critBitTree.root_eq_none_of_items_zero t hw h0
    simp only [critBitTree.insertHelper, h0, hr, if_true, Option.some.injEq,
      Prod.mk.injEq] at he
    obtain ⟨e1, e2⟩ := he
    subst e1 e2
    refine ⟨_, by simp [critBitTree.insert, critBitTree.insertHelper, h0, hr], hw', ?_, ?_⟩
    · intro r hr'
      simp only [Option.some.injEq] at hr'
      rw [← hr']
      exact hk
    · simp [critBitTree.leaves, node.slotLeaves, node.leaves, hr]
  · obtain ⟨r, hr⟩ := critBitTree.root_ne_none_of_items_ne_zero t hw h0
    have hri := hinv r hr
    have hKmem := node.search_fst_mem_keys r k
    have hK := node.fixedInv_keys L r hri _ hKmem
    have hmem : (r.search k).1 ∈ t.keys := by
      simpa [critBitTree.keys, critBitTree.leaves, hr, node.slotLeaves, node.keys] using hKmem
    have hne : (r.search k).1 ≠ k := fun e => hnot (e ▸ hmem)
    cases hc : criticalBit (r.search k).1 k with
    | none => exact absurd ((criticalBit_eq_none_iff _ _).mp hc) hne
    | some p =>
        obtain ⟨o, bit, c⟩ := p
        simp only [critBitTree.insertHelper, h0, hr, hc, if_false, Option.some.injEq,
          Prod.mk.injEq] at he
        obtain ⟨e1, e2⟩ := he
        subst e1 e2
        refine ⟨_, by simp [critBitTree.insert, critBitTree.insertHelper, h0, hr, hc], hw',
          ?_, ?_⟩
        · intro r' hr'
          simp only [Option.some.injEq] at hr'
          rw [← hr']
          obtain ⟨hcf, ho, ⟨j, hj, hb⟩, hne', hag⟩ :=
            criticalBit_spec (r.search k).1 k o bit c (by rw [hK.1, hk.1]) hK.2 hk.2 hc
          subst hcf
          subst hb
          exact node.graft_fixedInv L k v o j hj hk (by rw [← hk.1]; exact ho) r hri hne' hag
        · simpa [critBitTree.leaves, node.slotLeaves, hr] using
            node.leaves_graft_perm k v o bit c r

theorem runFrom_insertOps {V : Type} (L : Nat) (kvs : List (List Nat × Option V))
    (t : critBitTree V) (hw : t.wf) (hinv : ∀ r, t.root = some r → r.fixedInv L)
    (hfixed : ∀ kv ∈ kvs, fixedKey L kv.1) (hnodup : (kvs.map Prod.fst).Nodup)
    (hnot : ∀ kv ∈ kvs, kv.1 ∉ t.keys) :
    ∃ t', runFrom t (insertOps kvs) = some t' ∧ t'.wf ∧
      (∀ r, t'.root = some r → r.fixedInv L) ∧ t'.leaves.Perm (kvs ++ t.leaves) := by
  induction kvs generalizing t with
  | nil => exact ⟨t, rfl, hw, hinv, by simp⟩
  | cons kv kvs ih =>
      obtain ⟨t1, h1, hw1, hinv1, hp1⟩ :=
        critBitTree.insert_fixed L t hw hinv kv.1 kv.2 (hfixed kv (by simp)) (hnot kv (by simp))
      rw [List.map_cons, List.nodup_cons] at hnodup
      have hnot1 : ∀ kv' ∈ kvs, kv'.1 ∉ t1.keys := by
        intro kv' hkv' hmem
        have hp := hp1.map Prod.fst
        simp only [critBitTree.keys] at hmem
        rw [hp.mem_iff, List.map_cons, List.mem_cons] at hmem
        rcases hmem with e | hmem
        · exact hnodup.1 (e ▸ List.mem_map_of_mem Prod.fst hkv')
        · exact hnot kv' (by simp [hkv']) hmem
      obtain ⟨t2, h2, hw2, hinv2, hp2⟩ :=
        ih t1 hw1 hinv1 (fun kv' h' => hfixed kv' (by simp [h'])) hnodup.2 hnot1
      refine ⟨t2, ?_, hw2, hinv2, ?_⟩
      · simp [insertOps, runFrom, step, h1] at h2 ⊢
        exact h2
      · have := hp2.trans (List.Perm.append_left kvs hp1)
        exact this.trans List.perm_middle

/-! ## The tree of a set of keys of one length is unique -/

theorem rootPosGe_of_fixedInv {V : Type} (L : Nat) (ch : node V) (P : Nat) (d : Bool)
    (hch : ch.fixedInv L) (hside : ∀ k ∈ ch.keys, keyBit k P = d)
    (hag : ∀ k ∈ ch.keys, ∀ k' ∈ ch.keys, ∀ q, q < P → keyBit k q = keyBit k' q) :
    rootPosGe (P + 1) ch := by
  cases ch with
  | external k v => trivial
  | internal c0 c1 o b c =>
      simp only [rootPosGe]
      simp only [node.fixedInv] at hch
      obtain ⟨_, _, _, h0, h1, _, _, _⟩ := hch
      obtain ⟨k0, hk0⟩ := node.exists_mem_keys c0
      obtain ⟨k1, hk1⟩ := node.exists_mem_keys c1
      have m0 : k0 ∈ (node.internal c0 c1 o b c).keys := by
        rw [node.keys_internal]; exact List.mem_append.mpr (Or.inl hk0)
      have m1 : k1 ∈ (node.internal c0 c1 o b c).keys := by
        rw [node.keys_internal]; exact List.mem_append.mpr (Or.inr hk1)
      by_contra hlt
      have e0 := h0 k0 hk0
      have e1 := h1 k1 hk1
      by_cases heq : pos o b = P
      · rw [heq] at e0 e1
        rw [hside k0 m0] at e0
        rw [hside k1 m1] at e1
        rw [e0] at e1
        exact absurd e1 (by simp)
      · have := hag k0 m0 k1 m1 (pos o b) (by omega)
        rw [e0, e1] at this
        exact absurd this (by simp)

theorem filter_leaves_zero {V : Type} (c0 c1 : node V) (P : Nat)
    (h0 : ∀ k ∈ c0.keys, keyBit k P = false) (h1 : ∀ k ∈ c1.keys, keyBit k P = true) :
    (c0.leaves ++ c1.leaves).filter (fun kv => !keyBit kv.1 P) = c0.leaves := by
  rw [List.filter_append]
  have e0 : c0.leaves.filter (fun kv => !keyBit kv.1 P) = c0.leaves := by
    rw [List.filter_eq_self]
    intro kv hkv
    simp [h0 kv.1 (List.mem_map_of_mem Prod.fst hkv)]
  have e1 : c1.leaves.filter (fun kv => !keyBit kv.1 P) = [] := by
    rw [List.filter_eq_nil_iff]
    intro kv hkv
    simp [h1 kv.1 (List.mem_map_of_mem Prod.fst hkv)]
  rw [e0, e1, List.append_nil]

theorem filter_leaves_one {V : Type} (c0 c1 : node V) (P : Nat)
    (h0 : ∀ k ∈ c0.keys, keyBit k P = false) (h1 : ∀ k ∈ c1.keys, keyBit k P = true) :
    (c0.leaves ++ c1.leaves).filter (fun kv => keyBit kv.1 P) = c1.leaves := by
  rw [List.filter_append]
  have e0 : c0.leaves.filter (fun kv => keyBit kv.1 P) = [] := by
    rw [List.filter_eq_nil_iff]
    intro kv hkv
    simp [h0 kv.1 (List.mem_map_of_mem Prod.fst hkv)]
  have e1 : c1.leaves.filter (fun kv => keyBit kv.1 P) = c1.leaves := by
    rw [List.filter_eq_self]
    intro kv hkv
    simp [h1 kv.1 (List.mem_map_of_mem Prod.fst hkv)]
  rw [e0, e1, List.nil_append]

theorem pos_le_of_keys_subset {V : Type} (L : Nat) (c0 c1 c0' c1' : node V)
    (o b o' b' : Nat) (c c' : Bool)
    (h : (node.internal c0 c1 o b c).fixedInv L)
    (h' : (node.internal c0' c1' o' b' c').fixedInv L)
    (hsub : ∀ k ∈ c0'.keys ++ c1'.keys, k ∈ c0.keys ++ c1.keys) :
    pos o b ≤ pos o' b' := by
  simp only [node.fixedInv] at h h'
  obtain ⟨_, _, _, _, _, hag, _, _⟩ := h
  obtain ⟨_, _, _, h0', h1', _, _, _⟩ := h'
  obtain ⟨k0, hk0⟩ := node.exists_mem_keys c0'
  obtain ⟨k1, hk1⟩ := node.exists_mem_keys c1'
  by_contra hlt
  have e := hag k0 (hsub k0 (List.mem_append.mpr (Or.inl hk0))) k1
    (hsub k1 (List.mem_append.mpr (Or.inr hk1))) (pos o' b') (by omega)
  rw [h0' k0 hk0, h1' k1 hk1] at e
  exact absurd e (by simp)

theorem node.fixedInv_unique {V : Type} (L : Nat) (n1 n2 : node V) (h1 : n1.fixedInv L)
    (h2 : n2.fixedInv L) (hp : n1.leaves.Perm n2.leaves) : n1 = n2 := by
  induction n1 generalizing n2 with
  | external k v =>
      cases n2 with
      | external k' v' =>
          simp only [node.leaves] at hp
          have := List.perm_singleton.mp hp.symm
          simp only [List.cons.injEq, Prod.mk.injEq, and_true] at this
          rw [this.1, this.2]
      | internal c0' c1' o' b' c' =>
          have hl := hp.length_eq
          have l0 := node.leaves_length_pos c0'
          have l1 := node.leaves_length_pos c1'
          simp only [node.leaves, List.length_singleton, List.length_append] at hl
          omega
  | internal c0 c1 o b c ih0 ih1 =>
      cases n2 with
      | external k' v' =>
          have hl := hp.length_eq
          have l0 := node.leaves_length_pos c0
          have l1 := node.leaves_length_pos c1
          simp only [node.leaves, List.length_singleton, List.length_append] at hl
          omega
      | internal c0' c1' o' b' c' =>
          have hk := hp.map Prod.fst
          have hsub : ∀ k ∈ c0.keys ++ c1.keys, k ∈ c0'.keys ++ c1'.keys := by
            intro k hk1
            rw [← node.keys_internal c0 c1 o b c] at hk1
            rw [← node.keys_internal c0' c1' o' b' c']
            exact hk.mem_iff.mp hk1
          have hsub' : ∀ k ∈ c0'.keys ++ c1'.keys, k ∈ c0.keys ++ c1.keys := by
            intro k hk1
            rw [← node.keys_internal c0' c1' o' b' c'] at hk1
            rw [← node.keys_internal c0 c1 o b c]
            exact hk.mem_iff.mpr hk1
          have hle := pos_le_of_keys_subset L c0 c1 c0' c1' o b o' b' c c' h1 h2 hsub'
          have hge := pos_le_of_keys_subset L c0' c1' c0 c1 o' b' o b c' c h2 h1 hsub
          have hpos : pos o b = pos o' b' := by omega
          simp only [node.fixedInv] at h1 h2
          obtain ⟨hc, _, ⟨j, hj, hb⟩, a0, a1, _, i0, i1⟩ := h1
          obtain ⟨hc', _, ⟨j', hj', hb'⟩, a0', a1', _, i0', i1'⟩ := h2
          rw [← hpos] at a0' a1'
          simp only [node.leaves] at hp
          have hp0 := hp.filter (fun kv => !keyBit kv.1 (pos o b))
          rw [filter_leaves_zero c0 c1 _ a0 a1, filter_leaves_zero c0' c1' _ a0' a1'] at hp0
          have hp1 := hp.filter (fun kv => keyBit kv.1 (pos o b))
          rw [filter_leaves_one c0 c1 _ a0 a1, filter_leaves_one c0' c1' _ a0' a1'] at hp1
          rw [hb, hb', pos_two_pow, pos_two_pow] at hpos
          have ho : o = o' := by omega
          have hjj : j = j' := by omega
          rw [ih0 c0' i0 i0' hp0, ih1 c1' i1 i1' hp1, hb, hb', ho, hjj, hc, hc']

/-! ## Shape of the tree of a set of keys of one length -/

theorem node.fixedInv_noCont {V : Type} (L : Nat) (n : node V) (h : n.fixedInv L) :
    n.noCont = true := by
  induction n with
  | external k v => rfl
  | internal c0 c1 o b c ih0 ih1 =>
      simp only [node.fixedInv] at h
      simp [node.noCont, h.1, ih0 h.2.2.2.2.2.2.1, ih1 h.2.2.2.2.2.2.2]

theorem node.fixedInv_allInternal_before {V : Type} (L : Nat) (n : node V) (o j : Nat)
    (hj : j < 8) (d : Bool) (h : n.fixedInv L)
    (hside : ∀ k ∈ n.keys, keyBit k (pos o (2 ^ j)) = d)
    (hag : ∀ k ∈ n.keys, ∀ k' ∈ n.keys, ∀ q, q < pos o (2 ^ j) → keyBit k q = keyBit k' q) :
    n.allInternal (before o (2 ^ j)) = true := by
  induction n with
  | external k v => rfl
  | internal c0 c1 o' b' c' ih0 ih1 =>
      have hroot := rootPosGe_of_fixedInv L _ _ d h hside hag
      simp only [rootPosGe] at hroot
      simp only [node.fixedInv] at h
      obtain ⟨_, _, ⟨j', hj', hb'⟩, _, _, _, i0, i1⟩ := h
      subst hb'
      have hlt : pos o (2 ^ j) < pos o' (2 ^ j') := by omega
      have hcmp := (pos_lt_pos_iff o o' j j' hj hj').mpr hlt
      have m0 : ∀ k ∈ c0.keys, k ∈ (node.internal c0 c1 o' (2 ^ j') c').keys := fun k hk => by
        rw [node.keys_internal]; exact List.mem_append.mpr (Or.inl hk)
      have m1 : ∀ k ∈ c1.keys, k ∈ (node.internal c0 c1 o' (2 ^ j') c').keys := fun k hk => by
        rw [node.keys_internal]; exact List.mem_append.mpr (Or.inr hk)
      have e0 := ih0 i0 (fun k hk => hside k (m0 k hk))
        (fun k hk k' hk' q hq => hag k (m0 k hk) k' (m0 k' hk') q hq)
      have e1 := ih1 i1 (fun k hk => hside k (m1 k hk))
        (fun k hk k' hk' q hq => hag k (m1 k hk) k' (m1 k' hk') q hq)
      have hb : before o (2 ^ j) o' (2 ^ j') = true := by
        simp only [before, Bool.or_eq_true, Bool.and_eq_true, decide_eq_true_eq]
        rcases hcmp with hgt | ⟨he, hlt2⟩
        · exact Or.inl hgt
        · exact Or.inr ⟨he.symm, hlt2⟩
      simp only [node.allInternal, hb, e0, e1, Bool.and_self]

theorem node.fixedInv_ordered {V : Type} (L : Nat) (n : node V) (h : n.fixedInv L) :
    n.ordered = true := by
  induction n with
  | external k v => rfl
  | internal c0 c1 o b c ih0 ih1 =>
      simp only [node.fixedInv] at h
      obtain ⟨_, _, ⟨j, hj, hb⟩, a0, a1, hag, i0, i1⟩ := h
      subst hb
      have e0 := node.fixedInv_allInternal_before L c0 o j hj false i0 a0
        (fun k hk k' hk' q hq => hag k (List.mem_append.mpr (Or.inl hk)) k'
          (List.mem_append.mpr (Or.inl hk')) q hq)
      have e1 := node.fixedInv_allInternal_before L c1 o j hj true i1 a1
        (fun k hk k' hk' q hq => hag k (List.mem_append.mpr (Or.inr hk)) k'
          (List.mem_append.mpr (Or.inr hk')) q hq)
      simp only [node.ordered, e0, e1, ih0 i0, ih1 i1, Bool.and_self]

theorem node.fixedInv_depth {V : Type} (L : Nat) (n : node V) (h : n.fixedInv L)
    (P0 : Nat) (hP : rootPosGe P0 n) : n.depth ≤ 8 * L - P0 := by
  induction n generalizing P0 with
  | external k v => simp [node.depth]
  | internal c0 c1 o b c ih0 ih1 =>
      simp only [rootPosGe] at hP
      have h' := h
      simp only [node.fixedInv] at h
      obtain ⟨_, ho, ⟨j, hj, hb⟩, a0, a1, hag, i0, i1⟩ := h
      have r0 := rootPosGe_of_fixedInv L c0 (pos o b) false i0 a0
        (fun k hk k' hk' q hq => hag k (List.mem_append.mpr (Or.inl hk)) k'
          (List.mem_append.mpr (Or.inl hk')) q hq)
      have r1 := rootPosGe_of_fixedInv L c1 (pos o b) true i1 a1
        (fun k hk k' hk' q hq => hag k (List.mem_append.mpr (Or.inr hk)) k'
          (List.mem_append.mpr (Or.inr hk')) q hq)
      have d0 := ih0 i0 _ r0
      have d1 := ih1 i1 _ r1
      have hpos : pos o b = 8 * o + (7 - j) := by rw [hb, pos_two_pow]
      simp only [node.depth]
      have hmax : max c0.depth c1.depth ≤ 8 * L - (pos o b + 1) := max_le d0 d1
      omega

/-- C22: let `kvs1` be leaves with distinct keys of `L` bytes each and let
`kvs2` be the same leaves in another order.  Inserting them into the empty
tree in either order returns and gives the same tree, whose leaves are the
given ones; in it no internal node has `cont` set, every internal node is
strictly before each internal node below it in the order of `(offset, bit)`
(smaller offset first, at equal offset larger bit first), and no path from
the root to a leaf passes more than `8 * L` internal nodes. -/
theorem canonical_shape {V : Type} (L : Nat) (kvs1 kvs2 : List (List Nat × Option V))
    (hperm : kvs1.Perm kvs2) (hnodup : (kvs1.map Prod.fst).Nodup)
    (hfixed : ∀ kv ∈ kvs1, fixedKey L kv.1) :
    ∃ t, run (insertOps kvs1) = some t ∧ run (insertOps kvs2) = some t ∧
      t.leaves.Perm kvs1 ∧ t.items = (kvs1.length : Int) ∧
      ∀ r, t.root = some r → r.noCont = true ∧ r.ordered = true ∧ r.depth ≤ 8 * L := by
  have hinv0 : ∀ r, (newTree : critBitTree V).root = some r → r.fixedInv L :=
    fun r hr => by simp [newTree] at hr
  have hnot0 : ∀ kvs : List (List Nat × Option V),
      ∀ kv ∈ kvs, kv.1 ∉ (newTree : critBitTree V).keys := by
    intro kvs kv _
    simp [critBitTree.keys, critBitTree.leaves, newTree, node.slotLeaves]
  have hleaves0 : (newTree : critBitTree V).leaves = [] := by
    simp [critBitTree.leaves, newTree, node.slotLeaves]
  obtain ⟨t1, e1, w1, i1, p1⟩ := runFrom_insertOps L kvs1 newTree critBitTree.wf_newTree
    hinv0 hfixed hnodup (hnot0 kvs1)
  obtain ⟨t2, e2, w2, i2, p2⟩ := runFrom_insertOps L kvs2 newTree critBitTree.wf_newTree
    hinv0 (fun kv hkv => hfixed kv (hperm.mem_iff.mpr hkv))
    ((hperm.map Prod.fst).nodup_iff.mp hnodup) (hnot0 kvs2)
  rw [hleaves0, List.append_nil] at p1 p2
  have p12 : t1.leaves.Perm t2.leaves := p1.trans (hperm.trans p2.symm)
  have hitems : t1.items = t2.items := by
    have a : t1.items = (t1.leaves.length : Int) := w1
    have b : t2.items = (t2.leaves.length : Int) := w2
    rw [a, b, p12.length_eq]
  have hroot : t1.root = t2.root := by
    cases hr1 : t1.root with
    | none =>
        cases hr2 : t2.root with
        | none => rfl
        | some r2 =>
            have hl := p12.length_eq
            have := node.leaves_length_pos r2
            simp only [critBitTree.leaves, hr1, hr2, node.slotLeaves, List.length_nil] at hl
            omega
    | some r1 =>
        cases hr2 : t2.root with
        | none =>
            have hl := p12.length_eq
            have := node.leaves_length_pos r1
            simp only [critBitTree.leaves, hr1, hr2, node.slotLeaves, List.length_nil] at hl
            omega
        | some r2 =>
            have hp : r1.leaves.Perm r2.leaves := by
              simpa [critBitTree.leaves, hr1, hr2, node.slotLeaves] using p12
            rw [node.fixedInv_unique L r1 r2 (i1 r1 hr1) (i2 r2 hr2) hp]
  have heq : t2 = t1 := by
    cases t1 with
    | mk root1 items1 =>
        cases t2 with
        | mk root2 items2 =>
            simp only at hroot hitems
            rw [hroot, hitems]
  refine ⟨t1, e1, heq ▸ e2, p1, ?_, ?_⟩
  · have a : t1.items = (t1.leaves.length : Int) := w1
    rw [a, p1.length_eq]
  · intro r hr
    have hi := i1 r hr
    refine ⟨node.fixedInv_noCont L r hi, node.fixedInv_ordered L r hi, ?_⟩
    have := node.fixedInv_depth L r hi 0 (by cases r <;> simp [rootPosGe])
    simpa using this

theorem canonical_shape_witness :
    threeRoutes.Perm threeRoutesPermuted ∧ (threeRoutes.map Prod.fst).Nodup ∧
    (∀ kv ∈ threeRoutes, fixedKey 5 kv.1) ∧
    ∃ t, run (insertOps threeRoutes) = some t ∧ run (insertOps threeRoutesPermuted) = some t ∧
      t.leaves.Perm threeRoutes ∧ t.items = (threeRoutes.length : Int) ∧
      ∀ r, t.root = some r → r.noCont = true ∧ r.ordered = true ∧ r.depth ≤ 8 * 5 :=
  ⟨by decide, by decide, by decide,
    canonical_shape 5 threeRoutes threeRoutesPermuted (by decide) (by decide) (by decide)⟩

/-! ## The indices used by the leaf check of `lookup` -/

theorem mask_shift_and (m : Nat) : m >>> 3 = m / 8 ∧ m &&& 7 = m % 8 := by
  constructor
  · rw [Nat.shiftRight_eq_div_pow]
  · have := Nat.and_pow_two_sub_one_eq_mod m 3
    simpa using this

theorem leafCheck_total (K Q : List Nat) (hL : 1 ≤ Q.length)
    (h : K.length ≠ Q.length ∨ mask K ≤ 8 * (Q.length - 1)) :
    ∃ b, leafCheck K Q = some b := by
  unfold leafCheck
  simp only
  by_cases hlen : K.length = Q.length
  swap
  · rw [if_pos hlen]
    exact ⟨false, rfl⟩
  rw [if_neg (not_not.mpr hlen)]
  have hm : mask K ≤ 8 * (Q.length - 1) := h.resolve_left (not_not.mpr hlen)
  rw [if_neg (by omega)]
  have hKl : K[K.length - 1]? = some (mask K) := getElem?_eq_some_getD K _ (by omega)
  have hQl : Q[K.length - 1]? = some (mask Q) := by
    rw [hlen]; exact getElem?_eq_some_getD Q _ (by omega)
  simp only [hKl, hQl]
  by_cases hgt : mask K > mask Q
  · rw [if_pos hgt]
    exact ⟨false, rfl⟩
  rw [if_neg hgt, (mask_shift_and (mask K)).1, (mask_shift_and (mask K)).2]
  have hdiv : mask K / 8 < K.length := by omega
  rcases lookupCompare_spec K Q (mask K / 8) 0 (by omega) hlen with ⟨hc, _⟩ | ⟨hc, _⟩
  · simp only [hc]
    by_cases hr : mask K % 8 > 0
    · rw [if_pos hr, getElem?_eq_some_getD K _ hdiv, getElem?_eq_some_getD Q _ (hlen ▸ hdiv)]
      simp only
      split
      · exact ⟨false, rfl⟩
      · exact ⟨true, rfl⟩
    · rw [if_neg hr]
      exact ⟨true, rfl⟩
  · simp only [hc]
    exact ⟨false, rfl⟩

/-- C23: let the probe `Q` have `L >= 1` bytes and let every leaf key below
the slot either have a length other than `L` or a last byte `m <= 8 * (L - 1)`.
Then `lookup` returns without indexing out of range (in the model: its result
is not `none`), and for each leaf key `K` of length `L` the indices it uses,
`L - 1`, every `i < m / 8`, and `m / 8`, are below the length of `K` and of
`Q`. -/
theorem lookup_in_bounds {V : Type} (n : node V) (Q : List Nat) (bt : Bool)
    (hL : 1 ≤ Q.length)
    (h : ∀ K ∈ n.keys, K.length ≠ Q.length ∨ mask K ≤ 8 * (Q.length - 1)) :
    (∃ r, lookup n Q bt = some r) ∧
    ∀ K ∈ n.keys, K.length = Q.length →
      K.length - 1 < K.length ∧ K.length - 1 < Q.length ∧
      mask K / 8 < K.length ∧ mask K / 8 < Q.length := by
  constructor
  · induction n generalizing bt with
    | external k v =>
        obtain ⟨b, hb⟩ := leafCheck_total k Q hL (h k (by simp [node.keys_external]))
        cases b with
        | true => exact ⟨some (k, v), by simp [lookup, hb]⟩
        | false => exact ⟨none, by simp [lookup, hb]⟩
    | internal c0 c1 o b c ih0 ih1 =>
        have h0 : ∀ K ∈ c0.keys, K.length ≠ Q.length ∨ mask K ≤ 8 * (Q.length - 1) :=
          fun K hK => h K (by rw [node.keys_internal]; exact List.mem_append.mpr (Or.inl hK))
        have h1 : ∀ K ∈ c1.keys, K.length ≠ Q.length ∨ mask K ≤ 8 * (Q.length - 1) :=
          fun K hK => h K (by rw [node.keys_internal]; exact List.mem_append.mpr (Or.inr hK))
        simp only [lookup]
        generalize (if o + 1 = Q.length then true else if bt = true then false
          else direction o b c Q) = d
        cases d with
        | true =>
            simp only [if_true]
            obtain ⟨r1, hr1⟩ := ih1 bt h1
            cases r1 with
            | some kv => exact ⟨some kv, by simp [hr1]⟩
            | none =>
                obtain ⟨r0, hr0⟩ := ih0 true h0
                exact ⟨r0, by simp [hr1, hr0]⟩
        | false =>
            simp only [Bool.false_eq_true, if_false]
            obtain ⟨r0, hr0⟩ := ih0 bt h0
            cases r0 with
            | some kv => exact ⟨some kv, by simp [hr0]⟩
            | none => exact ⟨none, by simp [hr0]⟩
  · intro K hK hlen
    have hm : mask K ≤ 8 * (Q.length - 1) := (h K hK).resolve_left (not_not.mpr hlen)
    omega

theorem lookup_in_bounds_witness :
    1 ≤ [192, 168, 1, 7, 32].length ∧
    (∃ r, lookup (node.internal (node.external [10, 0, 0, 0, 8] (some 1))
        (node.external [192, 168, 1, 0, 24] (some 3)) 0 128 false)
      [192, 168, 1, 7, 32] false = some r) := by
  have h := lookup_in_bounds (node.internal (node.external [10, 0, 0, 0, 8] (some 1))
    (node.external [192, 168, 1, 0, 24] (some 3)) 0 128 false) [192, 168, 1, 7, 32] false
    (by decide) (by decide)
  exact ⟨by decide, h.1⟩

/-! ## Stored keys with host bits set -/

theorem and_mask_low (bit : Nat) (hbit : bit < 8) (b : Nat) :
    (b &&& (((255 >>> bit) <<< bit) % 256)) % 2 ^ bit = 0 := by
  have hm : ∀ bit < 8, (((255 >>> bit) <<< bit) % 256) % 2 ^ bit = 0 := by decide
  rw [← Nat.and_pow_two_sub_one_eq_mod, Nat.and_assoc, Nat.and_pow_two_sub_one_eq_mod,
    hm bit hbit, Nat.and_zero]

theorem leafCheck_host_bits (K Q : List Nat) (hr : 0 < mask K % 8)
    (hlow : K.getD (mask K / 8) 0 % 2 ^ (8 - mask K % 8) ≠ 0) :
    leafCheck K Q = some false := by
  have hdiv : mask K / 8 < K.length := by
    by_contra hge
    rw [List.getD_eq_default _ _ (by omega)] at hlow
    simp at hlow
  unfold leafCheck
  simp only
  by_cases hlen : K.length = Q.length
  swap
  · rw [if_pos hlen]
  rw [if_neg (not_not.mpr hlen), if_neg (by omega)]
  have hKl : K[K.length - 1]? = some (mask K) := getElem?_eq_some_getD K _ (by omega)
  have hQl : Q[K.length - 1]? = some (mask Q) := by
    rw [hlen]; exact getElem?_eq_some_getD Q _ (by omega)
  simp only [hKl, hQl]
  by_cases hgt : mask K > mask Q
  · rw [if_pos hgt]
  rw [if_neg hgt, (mask_shift_and (mask K)).1, (mask_shift_and (mask K)).2]
  rcases lookupCompare_spec K Q (mask K / 8) 0 (by omega) hlen with ⟨hc, _⟩ | ⟨hc, _⟩
  · simp only [hc]
    rw [if_pos hr, getElem?_eq_some_getD K _ hdiv, getElem?_eq_some_getD Q _ (hlen ▸ hdiv)]
    simp only
    have hmod : mask K % 8 < 8 := Nat.mod_lt _ (by norm_num)
    have hz := and_mask_low (8 - mask K % 8) (by omega) (Q.getD (mask K / 8) 0)
    rw [if_pos]
    intro e
    rw [e] at hlow
    exact hlow hz
  · simp only [hc]

theorem node.search_setValue {V : Type} (key : List Nat) (value : Option V) (n : node V) :
    (n.setValue key value).search key = ((n.search key).1, value) := by
  induction n with
  | external k v => simp [node.setValue, node.search]
  | internal c0 c1 o b c ih0 ih1 =>
      by_cases hd : direction o b c key = true
      · simp [node.setValue, node.search, hd, ih1]
      · simp [node.setValue, node.search, hd, ih0]

theorem critBitTree.set_then_get {V : Type} (t t' : critBitTree V) (key : List Nat)
    (value : Option V) (h : t.set key value = some t') : t'.get key = (value, true) := by
  unfold critBitTree.set at h
  cases hi : t.insertHelper key value true with
  | none => simp [hi] at h
  | some p =>
      obtain ⟨t1, b⟩ := p
      simp only [hi, Option.map_some', Option.some.injEq] at h
      subst h
      unfold critBitTree.insertHelper at hi
      by_cases h0 : t.items = 0
      · rw [if_pos h0] at hi
        have e : t1 = { root := some (node.external key value), items := 1 } := by
          cases hr : t.root with
          | none => simp [hr] at hi; exact hi.1.symm
          | some r =>
              cases r with
              | external k v => simp [hr] at hi; exact hi.1.symm
              | internal c0 c1 o bit c => simp [hr] at hi
        rw [e]
        simp [critBitTree.get, critBitTree.search, node.search]
      · rw [if_neg h0] at hi
        cases hr : t.root with
        | none => simp [hr] at hi
        | some r =>
            simp only [hr] at hi
            cases hc : criticalBit (r.search key).1 key with
            | none =>
                simp only [hc, if_true, Option.some.injEq, Prod.mk.injEq] at hi
                rw [← hi.1]
                have hk := (criticalBit_eq_none_iff _ _).mp hc
                simp [critBitTree.get, critBitTree.search, node.search_setValue, hk]
            | some q =>
                obtain ⟨o, bit, c⟩ := q
                simp only [hc, Option.some.injEq, Prod.mk.injEq] at hi
                rw [← hi.1]
                simp [critBitTree.get, critBitTree.search, node.search_graft]

/-- C24: let the stored key `K` have a last byte `m` with `r = m mod 8 > 0`
and let byte `m / 8` of `K` have one of its low `8 - r` bits set.  Then the
leaf check of `lookup` rejects `K` for every probe `Q`, also for `Q = K`; no
`lookup`, and so no `match4` or `match6` behind `LookupCIDR` and `LookupIP`,
returns a leaf with key `K` from any tree; yet after `set K v` (the `Add` of the
adapter) on a reachable tree `get K` (its `Get`) returns `(v, true)`. -/
theorem host_bits_unmatchable {V : Type} (K : List Nat) (hr : 0 < mask K % 8)
    (hlow : K.getD (mask K / 8) 0 % 2 ^ (8 - mask K % 8) ≠ 0)
    (t : critBitTree V) (ht : reachable t) (v : Option V) :
    (∀ Q, leafCheck K Q = some false) ∧ leafCheck K K = some false ∧
    (∀ (n : node V) Q bt w, lookup n Q bt ≠ some (some (K, w))) ∧
    ∃ t', t.set K v = some t' ∧ t'.get K = (v, true) ∧
      ∀ Q w, matchTree t' Q ≠ some (some (K, w)) := by
  have hleaf : ∀ Q, leafCheck K Q = some false := fun Q => leafCheck_host_bits K Q hr hlow
  have hlook : ∀ (n : node V) Q bt w, lookup n Q bt ≠ some (some (K, w)) := by
    intro n Q bt w e
    have := (lookup_some_leafCheck n Q bt K w e).2
    rw [hleaf Q] at this
    exact absurd this (by simp)
  obtain ⟨t', b, he, _⟩ := critBitTree.insertHelper_wf t (reachable_wf t ht) K v true
  have hset : t.set K v = some t' := by simp [critBitTree.set, he]
  refine ⟨hleaf, hleaf K, hlook, t', hset, critBitTree.set_then_get t t' K v hset, ?_⟩
  intro Q w e
  unfold matchTree at e
  by_cases hi : t'.items > 0
  · rw [if_pos hi] at e
    cases hroot : t'.root with
    | none => simp [hroot] at e
    | some r =>
        simp only [hroot] at e
        exact hlook r Q false w e
  · rw [if_neg hi] at e
    exact absurd e (by simp)

theorem host_bits_unmatchable_witness :
    0 < mask hostBitsKey % 8 ∧
    hostBitsKey.getD (mask hostBitsKey / 8) 0 % 2 ^ (8 - mask hostBitsKey % 8) ≠ 0 ∧
    reachable routeTree ∧
    ∃ t', routeTree.set hostBitsKey (some 9) = some t' ∧ t'.get hostBitsKey = (some 9, true) ∧
      ∀ Q w, matchTree t' Q ≠ some (some (hostBitsKey, w)) :=
  ⟨by decide, by decide, ⟨routeOps, by decide⟩,
    (host_bits_unmatchable hostBitsKey (by decide) (by decide) routeTree
      ⟨routeOps, by decide⟩ (some 9)).2.2.2⟩
end ipcritbit
